import Mathlib

/-!
# The HashLink sampling profiler (`src/profile.c`)

A shallow embedding of the profiler engine: the chunked log buffer
(`record_data`, `read_profile_data`), the event recorder (`profile_event`), the
record written by the sampler (`read_thread_data`), the dump serializer
(`profile_dump`) and one iteration of the sampler loop with its walk of the
thread registry (`loop_body`, `registry_walk`), followed by the properties
proved about them.

Conventions of the embedding.

* A byte is a `Fin 256`.  Multi-byte values are laid out little-endian, as on
  the only platform on which the profiler is started (`HL_WIN_DESKTOP`).
* A C `int` is an `Int` kept in the range of a 32-bit two's complement word by
  `wrap32`; `++` and `--` wrap around.
* A chunk (`profile_data`) keeps the bytes of its allocation that have been
  written; the allocation itself has `dataSize` bytes.  A `memcpy` that would
  run past the end of the allocation, or any other step whose behaviour C leaves
  undefined, makes the embedded function return `none`.  The one exception is
  the read of `cur->next` after `free(cur)` at the end of a registry walk, which
  is given the value the field had before the call.
* The destination of a read is a list of cells, `some b` for a byte that the
  read has written and `none` for a byte that it has left as it was.
  `profile_dump` reads into locals that are not initialised and into the two
  scratch areas `data.stackOut` and `data.tmpMemory`, whose contents before the
  read are not part of the embedding; when it goes on to use a cell that the
  read has not written, it returns `none`.
* The chain `first_record -> ... -> record` is the list `chunks`;
  `first_record` is its head and `record` its last element.  A pointer into the
  chain (`profile_reader.r`) is the part of the chain that starts at the pointed
  chunk, `[]` being `NULL`.
* The threads of the profiler (`hl_profile_loop`, the callers of
  `profile_event` and of `profile_dump`) are also given as step functions on a
  program point and the shared `data`, one step per statement, and an
  interleaving is a list of the threads that step (`step`, `run`).  A statement
  is taken to be atomic and its effect to be seen at once by every thread, which
  is more than C promises for `volatile` fields.
-/

namespace HlProfile

/-! ## Bytes and machine words -/

/-- An `unsigned char`. -/
abbrev Byte := Fin 256

/-- A `uchar`, the 16-bit character of HashLink strings. -/
abbrev uchar := Fin 65536

/-- Capacity in bytes of the scratch area `data.tmpMemory`. -/
def MAX_STACK_SIZE : Nat := 8 <<< 20

/-- Capacity in frames of `data.stackOut`. -/
def MAX_STACK_COUNT : Nat := 2048

/-- The `w` low bytes of `n`, least significant first. -/
def le_bytes : Nat → Nat → List Byte
  | 0, _ => []
  | w + 1, n => ⟨n % 256, Nat.mod_lt _ (by decide)⟩ :: le_bytes w (n / 256)

/-- The number whose little-endian bytes are `bs`. -/
def le_value : List Byte → Nat
  | [] => 0
  | b :: bs => b.val + 256 * le_value bs

/-- Reduction of an integer to the range of a 32-bit signed `int`. -/
def wrap32 (x : Int) : Int := Int.bmod x 4294967296

/-- The four bytes of an `int` in memory. -/
def int_bytes (x : Int) : List Byte := le_bytes 4 (x % 4294967296).toNat

/-- The `int` stored in four bytes of memory. -/
def bytes_int (bs : List Byte) : Int := wrap32 (le_value bs)

/-- The bytes of `outSize` characters of a `uchar` string
(`sizeof(uchar)` is 2). -/
def uchar_bytes : List uchar → List Byte
  | [] => []
  | c :: cs => le_bytes 2 c.val ++ uchar_bytes cs

/-- The array of `count` pointers of `sz` bytes each stored in `bs`. -/
def ptr_array (sz : Nat) : Nat → List Byte → List Nat
  | 0, _ => []
  | count + 1, bs => le_value (bs.take sz) :: ptr_array sz count (bs.drop sz)

/-- The bytes of an array of pointers of `sz` bytes each. -/
def ptr_bytes (sz : Nat) : List Nat → List Byte
  | [] => []
  | a :: as => le_bytes sz a ++ ptr_bytes sz as

/-! ## The log buffer -/

/-- A chunk of the log, `struct _profile_data` (its `next` field is the rest of
the list the chunk is in). -/
structure profile_data where
  currentPos : Nat
  dataSize : Nat
  data : List Byte
  deriving DecidableEq, Repr

/-- A cursor into the log, `profile_reader`. -/
structure profile_reader where
  r : List profile_data
  pos : Nat
  deriving DecidableEq, Repr

/-- A mirrored thread, `struct _thread_handle` (its `next` field is the rest of
the list the handle is in). -/
structure thread_handle where
  tid : Int
  inf : Nat
  deriving DecidableEq, Repr

/-- The static `data` of the profiler, together with the two pieces of the
environment that `profile_dump` writes to: the debug words of the loaded module
(two `int`s per entry, addressed by `debug_addr`) and the file
`hlprofile.dump`; `saved` collects the sample counts printed on `stdout`. -/
structure State where
  sample_count : Int
  profiling_pause : Int
  stopLoop : Bool
  waitLoop : Bool
  handles : List thread_handle
  chunks : List profile_data
  debug : Nat → Nat × Nat
  dump_file : Option (List Byte)
  saved : List Nat

/-- What the profiler takes from the rest of the runtime: the constant
`HL_VERSION`, the size of a pointer, and `hl_module_resolve_symbol_full`, which
maps an address to the index of its debug entry (`debug_addr`) and the symbol
name (`outStr`, `outSize` characters), or fails (`NULL`). -/
structure Host where
  HL_VERSION : Int
  sizeof_ptr : Nat
  resolve : Nat → Option (Nat × List uchar)

/-- The pointer `data.first_record`. -/
def State.first_record (d : State) : Option profile_data := d.chunks.head?

/-- The pointer `data.record`. -/
def State.record (d : State) : Option profile_data := d.chunks.getLast?

/-- The effect of `memcpy(dst + off, src, src.length)` on the written bytes. -/
def memcpy_at (dst : List Byte) (off : Nat) (src : List Byte) : List Byte :=
  dst.take off ++ src ++ dst.drop (off + src.length)

/-- The chunk produced by `malloc` in `record_data`. -/
def new_chunk : profile_data := { currentPos := 0, dataSize := 1 <<< 20, data := [] }

/-- The last two statements of `record_data`: copy `ptr` at the write cursor of
`r` and advance the cursor.  The copy is undefined when it does not fit in the
`dataSize` bytes of the allocation. -/
def store (r : profile_data) (ptr : List Byte) : Option profile_data :=
  if r.currentPos + ptr.length ≤ r.dataSize then
    some { r with data := memcpy_at r.data r.currentPos ptr,
                  currentPos := r.currentPos + ptr.length }
  else none

/-- The function `record_data(ptr, size)`, `ptr` being the `size` bytes to
append. -/
def record_data (d : State) (ptr : List Byte) : Option State :=
  match d.chunks.getLast? with
  | none =>
    (store new_chunk ptr).map fun r => { d with chunks := [r] }
  | some r =>
    if r.currentPos + ptr.length > r.dataSize then
      (store new_chunk ptr).map fun r1 => { d with chunks := d.chunks ++ [r1] }
    else
      (store r ptr).map fun r1 => { d with chunks := d.chunks.dropLast ++ [r1] }

/-- The `n` bytes of the allocation of a chunk from the offset `off` on, as a
`memcpy` finds them: a byte that has not been written has no value. -/
def chunk_bytes (c : profile_data) (off n : Nat) : List (Option Byte) :=
  (List.range n).map fun i => c.data[off + i]?

/-- The loop of `read_profile_data`, one iteration per unit of fuel, on the
cells `ptr` of the destination.  Every iteration copies to `ptr` itself, the
start of the destination: `memcpy(ptr, r->r->data + r->pos, bytes)`, and `ptr`
is not moved by the loop.  The result is the returned flag, the reader and the
cells of the destination.  On a reader whose offset is past the write cursor of
its chunk, `memcpy` is called with a negative length; the result is then
`none`. -/
def read_loop : Nat → profile_reader → Nat → List (Option Byte) →
    Option (Bool × profile_reader × List (Option Byte))
  | 0, _, _, _ => none
  | fuel + 1, r, size, ptr =>
    if size = 0 then some (true, r, ptr)
    else
      match r.r with
      | [] => some (false, r, ptr)
      | c :: rest =>
        if c.currentPos < r.pos then none
        else
          let avail := c.currentPos - r.pos
          let bytes := if avail > size then size else avail
          let ptr1 := chunk_bytes c r.pos bytes ++ ptr.drop bytes
          let pos1 := r.pos + bytes
          if pos1 = c.currentPos then read_loop fuel ⟨rest, 0⟩ (size - bytes) ptr1
          else read_loop fuel ⟨c :: rest, pos1⟩ (size - bytes) ptr1

/-- The function `read_profile_data(r, ptr, size)`: the flag, the reader and
the `size` cells at `ptr` after the call, none of which is written when the
call starts.  Every iteration but the last one moves to the next chunk, so the
fuel given here is never exhausted (see `read_profile_data_total`). -/
def read_profile_data (r : profile_reader) (size : Nat) :
    Option (Bool × profile_reader × List (Option Byte)) :=
  read_loop (r.r.length + 2) r size (List.replicate size none)

/-- The bytes of an object that the program reads, `fwrite(ptr, 1, n, f)`
being one such read: every cell must have been written. -/
def load : List (Option Byte) → Option (List Byte)
  | [] => some []
  | none :: _ => none
  | some b :: cells => (load cells).map fun bs => b :: bs

/-- The logical stream of a chain of chunks: the written bytes of each chunk,
in order. -/
def stream : List profile_data → List Byte
  | [] => []
  | c :: rest => c.data.take c.currentPos ++ stream rest

/-- The bytes of the stream that a reader has not consumed yet. -/
def remaining (r : profile_reader) : List Byte :=
  match r.r with
  | [] => []
  | c :: rest => (c.data.take c.currentPos).drop r.pos ++ stream rest

/-! ## The sampler record and the event recorder -/

/-- Sequencing of two appends: the second one runs on the state left by the
first one. -/
def and_then (d : Option State) (f : State → Option State) : Option State :=
  match d with
  | none => none
  | some d1 => f d1

/-- What the capabilities outside the profiler give `read_thread_data` for one
thread at one tick: whether `pause_thread(t,true)` has succeeded, the stack
pointer returned by `get_thread_stackptr` (`none` is `NULL`), the number of
frames returned by `hl_module_capture_stack_range`, the frames it has stored in
`data.stackOut`, and the bits of the `double` returned by `hl_sys_time`. -/
structure Capture where
  paused : Bool
  stack : Option Nat
  count : Nat
  stackOut : List Nat
  time : Nat

/-- The function `read_thread_data(t)`.  The copy of the stack into
`data.tmpMemory` only feeds the unwinder, whose result is in `c`. -/
def read_thread_data (h : Host) (t : thread_handle) (c : Capture) (d : State) : Option State :=
  if !c.paused then some d
  else
    match c.stack with
    | none => some d
    | some _ =>
      let eventId : Int := wrap32 (Int.ofNat (c.count ||| 0x80000000))
      and_then (and_then (and_then (record_data d (le_bytes 8 c.time))
        fun d1 => record_data d1 (int_bytes t.tid))
        fun d2 => record_data d2 (int_bytes eventId))
        fun d3 => record_data d3 (ptr_bytes h.sizeof_ptr (c.stackOut.take c.count))

/-- The loop `for(i=0;i<count;i++)` of `profile_dump` over the frames in
`data.stackOut`: the debug words and the file after the loop. -/
def dump_frames (h : Host) : List Nat → (Nat → Nat × Nat) → List Byte →
    (Nat → Nat × Nat) × List Byte
  | [], dbg, f => (dbg, f)
  | a :: as, dbg, f =>
    match h.resolve a with
    | none => dump_frames h as dbg (f ++ int_bytes (-1))
    | some (i, outStr) =>
      let f1 := f ++ (le_bytes 4 (dbg i).1 ++ le_bytes 4 (dbg i).2)
      if (dbg i).1 &&& 0x80000000 = 0 then
        dump_frames h as (Function.update dbg i ((dbg i).1 ||| 0x80000000, (dbg i).2))
          (f1 ++ int_bytes (Int.ofNat outStr.length) ++ uchar_bytes outStr)
      else dump_frames h as dbg f1

/-- The loop `while( size )` of `profile_dump` that copies the payload of an
event through `data.tmpMemory`, one iteration per unit of fuel.  The flag
returned by the read is ignored, as in the source; what `fwrite` takes from the
scratch area is the `k` cells at its start. -/
def dump_payload : Nat → profile_reader → Nat → List Byte →
    Option (profile_reader × List Byte)
  | 0, _, _, _ => none
  | fuel + 1, r, size, f =>
    if size = 0 then some (r, f)
    else
      let k := if size > MAX_STACK_SIZE then MAX_STACK_SIZE else size
      match read_profile_data r k with
      | none => none
      | some (_, r1, tmpMemory) =>
        match load tmpMemory with
        | none => none
        | some bytes => dump_payload fuel r1 (size - k) (f ++ bytes)

/-- One iteration of the loop `while( true )` of `profile_dump`, from the
reader `r`, the debug words `dbg`, the file `f` and the count `samples`:
`some none` when the loop is left by `break`, and otherwise the reader, the
debug words, the file and the count at the end of the iteration.  The source
ignores the flag of every read but the first one; the locals `time`, `tid`,
`eventId` and `size` are written by these reads only.  The result is `none`
when a cell that is used has not been written, when the frame count is more
than `data.stackOut` holds, and when the payload size is negative. -/
def dump_record (h : Host) (r : profile_reader) (dbg : Nat → Nat × Nat) (f : List Byte)
    (samples : Nat) : Option (Option (profile_reader × (Nat → Nat × Nat) × List Byte × Nat)) :=
  match read_profile_data r 8 with
  | none => none
  | some (false, _, _) => some none
  | some (true, r1, time) =>
    match read_profile_data r1 4 with
    | none => none
    | some (_, r2, tid) =>
      match read_profile_data r2 4 with
      | none => none
      | some (_, r3, eventId) =>
        match load time, load tid, load eventId with
        | some time, some tid, some eventId =>
          let f1 := f ++ time ++ tid ++ eventId
          if bytes_int eventId < 0 then
            let count := le_value eventId &&& 0x7FFFFFFF
            if count > MAX_STACK_COUNT then none
            else
              match read_profile_data r3 (h.sizeof_ptr * count) with
              | none => none
              | some (_, r4, stackOut) =>
                match load stackOut with
                | none => none
                | some stackOut =>
                  let (dbg1, f2) := dump_frames h (ptr_array h.sizeof_ptr count stackOut) dbg f1
                  some (some (r4, dbg1, f2, samples + 1))
          else
            match read_profile_data r3 4 with
            | none => none
            | some (_, r4, size) =>
              match load size with
              | none => none
              | some size =>
                if bytes_int size < 0 then none
                else
                  match dump_payload (le_value size + 1) r4 (le_value size) (f1 ++ size) with
                  | some (r5, f2) => some (some (r5, dbg, f2, samples))
                  | none => none
        | _, _, _ => none

/-- The loop `while( true )` of `profile_dump`, one record per unit of fuel:
the debug words, the file and the value of `samples` when the loop is left. -/
def dump_loop (h : Host) : Nat → profile_reader → (Nat → Nat × Nat) → List Byte → Nat →
    Option ((Nat → Nat × Nat) × List Byte × Nat)
  | 0, _, _, _, _ => none
  | fuel + 1, r, dbg, f, samples =>
    match dump_record h r dbg f samples with
    | none => none
    | some none => some (dbg, f, samples)
    | some (some (r1, dbg1, f1, samples1)) => dump_loop h fuel r1 dbg1 f1 samples1

/-- The bytes of the string `"PROF"`. -/
def magic : List Byte := [0x50, 0x52, 0x4F, 0x46]

/-- The three `fwrite` calls that start the file. -/
def dump_header (h : Host) (d : State) : List Byte :=
  magic ++ int_bytes h.HL_VERSION ++ int_bytes d.sample_count

/-- The function `profile_dump()`.  A record holds at least one byte, so the
loop runs at most once per byte of the log and once more to leave. -/
def profile_dump (h : Host) (d : State) : Option State :=
  match d.chunks with
  | [] => some d
  | _ :: _ =>
    let d1 := { d with profiling_pause := wrap32 (d.profiling_pause + 1) }
    match dump_loop h ((stream d.chunks).length + 1) ⟨d1.chunks, 0⟩ d1.debug
        (dump_header h d1) 0 with
    | none => none
    | some (dbg, f, samples) =>
      some { d1 with debug := dbg, dump_file := some f, saved := d1.saved ++ [samples],
                     profiling_pause := wrap32 (d1.profiling_pause - 1) }

/-- The function `hl_profile_end()`. -/
def hl_profile_end (h : Host) (d : State) : Option State :=
  (profile_dump h d).map fun d1 => { d1 with stopLoop := true }

/-- The function `profile_event(code, ptr, dataLen)` called on the thread
`thread_id` at time `time` (the bits of the `double` returned by
`hl_sys_time`).  The busy wait `while( data.waitLoop )` is left when the
sampler loop has cleared the flag, which is the state the function goes on
from.  Copying `dataLen` bytes out of `ptr` is undefined when `dataLen` is
negative or `ptr` is shorter. -/
def profile_event (h : Host) (time : Nat) (thread_id : Int) (code : Int)
    (ptr : List Byte) (dataLen : Int) (d : State) : Option State :=
  if code = -1 then some { d with profiling_pause := wrap32 (d.profiling_pause + 1) }
  else if code = -2 then some { d with profiling_pause := wrap32 (d.profiling_pause - 1) }
  else if code = -3 then profile_dump h d
  else if code < 0 then some d
  else
    let d1 := { d with profiling_pause := wrap32 (d.profiling_pause + 1) }
    let d2 := { d1 with waitLoop := true }
    let d3 := { d2 with waitLoop := false }
    if dataLen < 0 ∨ (ptr.length : Int) < dataLen then none
    else
      and_then (and_then (and_then (and_then (and_then (record_data d3 (le_bytes 8 time))
        fun d4 => record_data d4 (int_bytes thread_id))
        fun d5 => record_data d5 (int_bytes code))
        fun d6 => record_data d6 (int_bytes dataLen))
        fun d7 => record_data d7 (ptr.take dataLen.toNat))
        fun d8 => some { d8 with profiling_pause := wrap32 (d8.profiling_pause - 1) }

/-- The state in which the process starts: `data = {0}`, no dump file. -/
def init (debug : Nat → Nat × Nat) : State :=
  { sample_count := 0, profiling_pause := 0, stopLoop := false, waitLoop := false,
    handles := [], chunks := [], debug := debug, dump_file := none, saved := [] }

/-! ## Vocabulary of the properties -/

/-- What holds of every chunk that `record_data` has written: the written
bytes are those below the write cursor, and the cursor is within the
allocation. -/
abbrev chunk_ok (c : profile_data) : Prop :=
  c.data.length = c.currentPos ∧ c.currentPos ≤ c.dataSize

/-- A chain of chunks written by `record_data`. -/
abbrev log_ok (cs : List profile_data) : Prop := ∀ c ∈ cs, chunk_ok c

/-- A valid reader position: the reader points into a chain of written chunks
(or is `NULL`) and its offset is not past the write cursor of the chunk it
points to. -/
abbrev reader_ok (r : profile_reader) : Prop :=
  log_ok r.r ∧ ∀ c ∈ r.r.head?, r.pos ≤ c.currentPos

/-- A sequence of calls of `record_data`, one per block. -/
def record_all (d : State) : List (List Byte) → Option State
  | [] => some d
  | b :: bs => and_then (record_data d b) fun d1 => record_all d1 bs

/-- The values of an `int`. -/
abbrev is_int (x : Int) : Prop := -2147483648 ≤ x ∧ x < 2147483648

/-- A sequence of calls `profile_event(code, NULL, 0)`, one per code. -/
def exclusion_calls (h : Host) (d : State) : List Int → Option State
  | [] => some d
  | c :: cs => and_then (profile_event h 0 0 c [] 0 d) fun d1 => exclusion_calls h d1 cs

/-- A sequence of codes `-1` (begin exclusion) and `-2` (end exclusion) that is
properly nested when entered with `k` exclusions open: no end comes without a
begin that is still open, and none is open at the end. -/
def nested : Nat → List Int → Bool
  | k, [] => k == 0
  | k, c :: cs =>
    if c = -1 then nested (k + 1) cs
    else if c = -2 then decide (0 < k) && nested (k - 1) cs
    else false

/-- The number of begins minus the number of ends of a sequence of codes: the
number of exclusions that it leaves open. -/
def depth : List Int → Int
  | [] => 0
  | c :: cs => (if c = -1 then 1 else if c = -2 then -1 else 0) + depth cs

/-- A host with 8-byte pointers in which the address 7 resolves to the symbol
`AB` of debug entry 3 and no other address resolves. -/
def example_host : Host :=
  { HL_VERSION := 0x10a00, sizeof_ptr := 8,
    resolve := fun a => if a = 7 then some (3, [65, 66]) else none }

/-- Debug words in which no entry is marked as emitted. -/
def example_debug : Nat → Nat × Nat := fun _ => (5, 9)

/-- The handle of thread 2. -/
def example_thread : thread_handle := { tid := 2, inf := 0 }

/-- A capture of one frame at time 1, the address 7. -/
def example_capture : Capture :=
  { paused := true, stack := some 4096, count := 1, stackOut := [7], time := 1 }

/-! ## Records and the layout of the dump -/

/-- A record of the log: a sample of the frames of one thread, or an event with
its payload. -/
inductive Record where
  | sample (time : Nat) (tid : Int) (frames : List Nat)
  | event (time : Nat) (tid : Int) (code : Int) (payload : List Byte)

/-- The `eventId` field of a record, as `read_thread_data` and `profile_event`
store it. -/
def Record.eventId : Record → Int
  | .sample _ _ frames => wrap32 (Int.ofNat (frames.length ||| 0x80000000))
  | .event _ _ code _ => code

/-- The first 16 bytes of a record: timestamp, thread id and `eventId`. -/
def Record.head : Record → List Byte
  | .sample time tid frames =>
    le_bytes 8 time ++ int_bytes tid ++ int_bytes (Record.eventId (.sample time tid frames))
  | .event time tid code payload =>
    le_bytes 8 time ++ int_bytes tid ++ int_bytes (Record.eventId (.event time tid code payload))

/-- The bytes of a record in the log, for pointers of `sz` bytes. -/
def Record.bytes (sz : Nat) : Record → List Byte
  | .sample time tid frames => Record.head (.sample time tid frames) ++ ptr_bytes sz frames
  | .event time tid code payload =>
    Record.head (.event time tid code payload) ++ int_bytes (Int.ofNat payload.length) ++ payload

/-- The records that the sampler and the event recorder can write: a sample has
at most `MAX_STACK_COUNT` frames, each a pointer of `sz` bytes; the code of an
event is a non-negative `int` and the length of its payload is an `int`. -/
def Record.ok (sz : Nat) : Record → Prop
  | .sample _ _ frames => frames.length ≤ MAX_STACK_COUNT ∧ ∀ a ∈ frames, a < 256 ^ sz
  | .event _ _ code payload => 0 ≤ code ∧ code < 2147483648 ∧ payload.length < 2147483648

instance (sz : Nat) (r : Record) : Decidable (Record.ok sz r) := by
  cases r <;> unfold Record.ok <;> infer_instance

/-- The stream of a log that holds the given records. -/
def log_bytes (sz : Nat) (rs : List Record) : List Byte :=
  (rs.map (Record.bytes sz)).flatten

/-- The frames of all the samples of a log, in log order. -/
def all_frames : List Record → List Nat
  | [] => []
  | .sample _ _ frames :: rs => frames ++ all_frames rs
  | .event _ _ _ _ :: rs => all_frames rs

/-- The number of samples of a log. -/
def num_samples : List Record → Nat
  | [] => 0
  | .sample _ _ _ :: rs => num_samples rs + 1
  | .event _ _ _ _ :: rs => num_samples rs

/-- The record section of a dump in which the frames of the samples are
written as the entries `es`, one entry per frame in log order: each record
gives its 16-byte head, followed for a sample by the entries of its frames and
for an event by the length of the payload and the payload. -/
def layout : List Record → List (List Byte) → List Byte
  | [], _ => []
  | .sample time tid frames :: rs, es =>
    Record.head (.sample time tid frames) ++ (es.take frames.length).flatten
      ++ layout rs (es.drop frames.length)
  | .event time tid code payload :: rs, es =>
    Record.head (.event time tid code payload) ++ int_bytes (Int.ofNat payload.length) ++ payload
      ++ layout rs es

/-- What one iteration of the frame loop of `profile_dump` writes for the frame
`a` when the debug words are `dbg`. -/
def frame_entry (h : Host) (dbg : Nat → Nat × Nat) (a : Nat) : List Byte :=
  match h.resolve a with
  | none => int_bytes (-1)
  | some (i, outStr) =>
    le_bytes 4 (dbg i).1 ++ le_bytes 4 (dbg i).2 ++
      (if (dbg i).1 &&& 0x80000000 = 0 then
        int_bytes (Int.ofNat outStr.length) ++ uchar_bytes outStr
      else [])

/-- The debug words after one iteration of the frame loop of `profile_dump` on
the frame `a`. -/
def mark_frame (h : Host) (dbg : Nat → Nat × Nat) (a : Nat) : Nat → Nat × Nat :=
  match h.resolve a with
  | none => dbg
  | some (i, _) =>
    if (dbg i).1 &&& 0x80000000 = 0 then
      Function.update dbg i ((dbg i).1 ||| 0x80000000, (dbg i).2)
    else dbg

/-- The debug words after the frames `as` have gone through the frame loop. -/
def mark_frames (h : Host) : List Nat → (Nat → Nat × Nat) → Nat → Nat × Nat
  | [], dbg => dbg
  | a :: as, dbg => mark_frames h as (mark_frame h dbg a)

/-- The entries written for the frames `as`, one per frame. -/
def frame_entries (h : Host) : List Nat → (Nat → Nat × Nat) → List (List Byte)
  | [], _ => []
  | a :: as, dbg => frame_entry h dbg a :: frame_entries h as (mark_frame h dbg a)

/-- The output records of `layout`, one per record of the log. -/
def layout_parts : List Record → List (List Byte) → List (List Byte)
  | [], _ => []
  | .sample time tid frames :: rs, es =>
    (Record.head (.sample time tid frames) ++ (es.take frames.length).flatten)
      :: layout_parts rs (es.drop frames.length)
  | .event time tid code payload :: rs, es =>
    (Record.head (.event time tid code payload) ++ int_bytes (Int.ofNat payload.length) ++ payload)
      :: layout_parts rs es

/-- A log that holds a sample of the frames 7, 8 and 7 of thread 2, taken at
time 1, and the event 5 with payload `[0xAA, 0xBB]` recorded by thread 2 at time
3, with pointers of 8 bytes. -/
def example_records : List Record := [.sample 1 2 [7, 8, 7], .event 3 2 5 [0xAA, 0xBB]]

/-- A state of the profiler, sampling 100 times per second, whose log holds
`example_records` in one chunk. -/
def example_state : State :=
  { init example_debug with
    sample_count := 100
    chunks := [⟨62, 1 <<< 20,
      [1, 0, 0, 0, 0, 0, 0, 0, 2, 0, 0, 0, 3, 0, 0, 128,
       7, 0, 0, 0, 0, 0, 0, 0, 8, 0, 0, 0, 0, 0, 0, 0, 7, 0, 0, 0, 0, 0, 0, 0,
       3, 0, 0, 0, 0, 0, 0, 0, 2, 0, 0, 0, 5, 0, 0, 0, 2, 0, 0, 0, 0xAA, 0xBB]⟩] }

/-! ## The sampler loop -/

/-- An entry of the list of live threads returned by `hl_gc_threads_info`,
`hl_thread_info`: the id of the thread and the address of the entry, which is
what a handle keeps in `inf`. -/
structure hl_thread_info where
  thread_id : Int
  addr : Nat
  deriving DecidableEq, Repr

/-- The handle that a registry walk creates for the live thread `t`
(`malloc`, `h->tid = t->thread_id`, `h->inf = t`). -/
def new_handle (t : hl_thread_info) : thread_handle := { tid := t.thread_id, inf := t.addr }

/-- What a registry walk leaves: the profiler state, the handles it has given
to `thread_data_init` and the handles it has given to `thread_data_free`, both
in call order. -/
structure Walk where
  data : State
  opened : List thread_handle
  closed : List thread_handle

/-- The loop `for(i=0;i<threads->count;i++)` of `hl_profile_loop` on the live
threads that are left, each with what `read_thread_data` captures for it.  The
list that starts at `data.handles` is `done ++ cur`: `done` are the handles up
to `prev` and `cur` is the chain that starts at `cur`.  The result is `done`,
`cur`, the handles given to `thread_data_init` and the profiler state when the
loop is left. -/
def walk_loop (h : Host) : List (hl_thread_info × Capture) → List thread_handle →
    List thread_handle → List thread_handle → State →
    Option (List thread_handle × List thread_handle × List thread_handle × State)
  | [], done, cur, opened, d => some (done, cur, opened, d)
  | (t, c) :: ts, done, cur, opened, d =>
    match cur with
    | [] =>
      match read_thread_data h (new_handle t) c d with
      | none => none
      | some d1 => walk_loop h ts (done ++ [new_handle t]) [] (opened ++ [new_handle t]) d1
    | x :: rest =>
      if x.tid ≠ t.thread_id then
        match read_thread_data h (new_handle t) c d with
        | none => none
        | some d1 =>
          walk_loop h ts (done ++ [new_handle t]) (x :: rest) (opened ++ [new_handle t]) d1
      else
        match read_thread_data h x c d with
        | none => none
        | some d1 => walk_loop h ts (done ++ [x]) rest opened d1

/-- One registry walk of `hl_profile_loop`, from `hl_gc_threads_info()` to the
end of the loop that frees the handles that are left: the handle list becomes
the handles up to `prev`, and the chain that starts at `cur` is given to
`thread_data_free`, handle by handle. -/
def registry_walk (h : Host) (threads : List (hl_thread_info × Capture)) (d : State) :
    Option Walk :=
  match walk_loop h threads [] d.handles [] d with
  | none => none
  | some (done, cur, opened, d1) =>
    some { data := { d1 with handles := done }, opened := opened, closed := cur }

/-- The two operations on `double` that `hl_profile_loop` uses, on the bits of
their operands: the comparison `<` and the sum. -/
structure Fpu where
  lt : Nat → Nat → Bool
  add : Nat → Nat → Nat

/-- The locals of `hl_profile_loop` that live across iterations. -/
structure LoopVars where
  wait_time : Nat
  next : Nat
  deriving DecidableEq, Repr

/-- One iteration of the body of `while( !data.stopLoop )` in
`hl_profile_loop`: `now` is the value of `hl_sys_time()` in the test and
`threads` the live threads, with what is captured for each, in case the walk
runs. -/
def loop_body (h : Host) (fpu : Fpu) (now : Nat) (threads : List (hl_thread_info × Capture))
    (v : LoopVars) (d : State) : Option (LoopVars × Walk) :=
  if fpu.lt now v.next || decide (d.profiling_pause ≠ 0) then
    some (v, { data := { d with waitLoop := false }, opened := [], closed := [] })
  else
    match registry_walk h threads d with
    | none => none
    | some w => some ({ v with next := fpu.add v.next v.wait_time }, w)

/-- The handles of a registry walk, apart from the log: for the live threads
`ts` and the chain `cur`, the handles that the loop puts after `prev`, the
handles it creates and the chain that is left. -/
def walk_handles : List hl_thread_info → List thread_handle →
    List thread_handle × List thread_handle × List thread_handle
  | [], cur => ([], [], cur)
  | t :: ts, [] =>
    let r := walk_handles ts []
    (new_handle t :: r.1, new_handle t :: r.2.1, r.2.2)
  | t :: ts, x :: rest =>
    if x.tid ≠ t.thread_id then
      let r := walk_handles ts (x :: rest)
      (new_handle t :: r.1, new_handle t :: r.2.1, r.2.2)
    else
      let r := walk_handles ts rest
      (x :: r.1, r.2.1, r.2.2)

/-- A capture that `read_thread_data` can record: the unwinder has returned at
most `MAX_STACK_COUNT` frames, all of them in `data.stackOut`. -/
abbrev capture_ok (c : Capture) : Prop :=
  c.count ≤ MAX_STACK_COUNT ∧ c.count ≤ c.stackOut.length

/-- A capture in which the thread could not be paused: nothing is recorded. -/
def example_no_capture : Capture :=
  { paused := false, stack := none, count := 0, stackOut := [], time := 0 }

/-- An append to the log: a sample recorded by `read_thread_data` for the
thread of a handle, or an event recorded by `profile_event(code, ptr, n)`, `n`
being the length of `ptr`, on the thread `thread_id` at time `time`. -/
inductive Append where
  | sample (t : thread_handle) (c : Capture)
  | event (time : Nat) (thread_id : Int) (code : Int) (ptr : List Byte)

/-- A sequence of appends, each on the state left by the one before. -/
def run_appends (h : Host) (d : State) : List Append → Option State
  | [] => some d
  | .sample t c :: as => and_then (read_thread_data h t c d) fun d1 => run_appends h d1 as
  | .event time thread_id code ptr :: as =>
    and_then (profile_event h time thread_id code ptr (Int.ofNat ptr.length) d)
      fun d1 => run_appends h d1 as

/-- The record that an append writes. -/
def Append.record : Append → Record
  | .sample t c => .sample c.time t.tid (c.stackOut.take c.count)
  | .event time thread_id code ptr => .event time thread_id code ptr

/-- The appends that write a record: a sample of a thread that has been paused
and whose stack pointer has been read, with at most `MAX_STACK_COUNT` frames,
each a pointer of `sz` bytes; an event whose code is a non-negative `int` and
whose payload fits a chunk. -/
def Append.ok (sz : Nat) : Append → Prop
  | .sample _ c => c.paused = true ∧ c.stack ≠ none ∧ capture_ok c ∧
      ∀ a ∈ c.stackOut.take c.count, a < 256 ^ sz
  | .event _ _ code ptr => 0 ≤ code ∧ code < 2147483648 ∧ ptr.length ≤ 1 <<< 20

instance (sz : Nat) (a : Append) : Decidable (Append.ok sz a) := by
  cases a <;> unfold Append.ok <;> infer_instance

/-- Whether an append is one of the sampler. -/
def Append.is_sample : Append → Bool
  | .sample _ _ => true
  | .event _ _ _ _ => false

/-! ## Logs built by the appends -/

/-- The blocks of a record in the log, one per call of `record_data` that
writes it. -/
def Record.blocks (sz : Nat) : Record → List (List Byte)
  | .sample time tid frames =>
    [le_bytes 8 time, int_bytes tid, int_bytes (Record.eventId (.sample time tid frames)),
      ptr_bytes sz frames]
  | .event time tid code payload =>
    [le_bytes 8 time, int_bytes tid, int_bytes code, int_bytes (Int.ofNat payload.length), payload]

/-- The blocks of a log that holds the given records. -/
def log_blocks (sz : Nat) (rs : List Record) : List (List Byte) :=
  (rs.map (Record.blocks sz)).flatten

/-- A chain of written chunks that holds the blocks `bs` in order, each block
within one chunk, and has no empty chunk. -/
def aligned : List profile_data → List (List Byte) → Prop
  | [], bs => bs.flatten = []
  | c :: cs, bs => chunk_ok c ∧ 0 < c.currentPos ∧
      ∃ g rest, bs = g ++ rest ∧ c.data = g.flatten ∧ aligned cs rest

/-- A reader that has the blocks `bs` in front of it: the first ones up to the
write cursor of the chunk it is in, which it has not reached, and the other ones
in the chunks that follow. -/
def in_front (r : profile_reader) (bs : List (List Byte)) : Prop :=
  match r.r with
  | [] => bs.flatten = []
  | c :: cs => chunk_ok c ∧ r.pos < c.currentPos ∧
      ∃ g rest, bs = g ++ rest ∧ c.data.drop r.pos = g.flatten ∧ aligned cs rest

/-- The chain of chunks that a sequence of appends builds from the empty
log. -/
def log_of (h : Host) (as : List Append) : Option (List profile_data) :=
  (run_appends h (init fun _ => (0, 0)) as).map fun d => d.chunks

/-- The appends that write `example_records`: a capture of the frames 7, 8 and
7 of thread 2 at time 1, then the event 5 with payload `[0xAA, 0xBB]` recorded
by thread 2 at time 3. -/
def example_appends : List Append :=
  [.sample example_thread
      { paused := true, stack := some 4096, count := 3, stackOut := [7, 8, 7], time := 1 },
    .event 3 2 5 [0xAA, 0xBB]]

/-- A chain of two chunks whose stream is the event 5 with payload
`[0xAA, 0xBB]` recorded by thread 2 at time 1: the second byte of the payload
is in the second chunk. -/
def example_split_state : State :=
  { init example_debug with
    chunks := [⟨21, 1 <<< 20,
        [1, 0, 0, 0, 0, 0, 0, 0, 2, 0, 0, 0, 5, 0, 0, 0, 2, 0, 0, 0, 0xAA]⟩,
      ⟨1, 1 <<< 20, [0xBB]⟩] }

/-! ## The threads of the profiler, step by step -/

/-- A point of `profile_dump()` between two statements, with the locals that
are live there: before the test of `first_record` (line 229), before
`data.profiling_pause++` (line 231), before `fopen` (lines 232 to 243), at the
top of `while( true )` with the reader and `samples` (line 244), before `fclose`
(lines 285 and 286), before `data.profiling_pause--` (line 287), and after the
return. -/
inductive dump_pc where
  | entry
  | raise
  | open_file
  | read_record (r : profile_reader) (samples : Nat)
  | close_file (samples : Nat)
  | lower
  | returned
  deriving DecidableEq, Repr

/-- One step of `profile_dump()`.  The file under `dump_file` is the one that
`fopen` has emptied and the calls of `fwrite` fill; an iteration of
`while( true )` is one step. -/
def dump_step (h : Host) : dump_pc × State → Option (dump_pc × State)
  | (.entry, d) =>
    match d.chunks with
    | [] => some (.returned, d)
    | _ :: _ => some (.raise, d)
  | (.raise, d) =>
    some (.open_file, { d with profiling_pause := wrap32 (d.profiling_pause + 1) })
  | (.open_file, d) =>
    some (.read_record ⟨d.chunks, 0⟩ 0, { d with dump_file := some (dump_header h d) })
  | (.read_record r samples, d) =>
    match d.dump_file with
    | none => none
    | some f =>
      match dump_record h r d.debug f samples with
      | none => none
      | some none => some (.close_file samples, d)
      | some (some (r1, dbg1, f1, samples1)) =>
        some (.read_record r1 samples1, { d with debug := dbg1, dump_file := some f1 })
  | (.close_file samples, d) => some (.lower, { d with saved := d.saved ++ [samples] })
  | (.lower, d) =>
    some (.returned, { d with profiling_pause := wrap32 (d.profiling_pause - 1) })
  | (.returned, _) => none

/-- The first `n` steps of `profile_dump()` from a point, when no other thread
runs. -/
def dump_steps (h : Host) : Nat → dump_pc × State → Option (dump_pc × State)
  | 0, c => some c
  | n + 1, c =>
    match dump_step h c with
    | none => none
    | some c1 => dump_steps h n c1

/-- The points of `profile_dump()` between `data.profiling_pause++` and
`data.profiling_pause--`. -/
def dump_pc.holds : dump_pc → Bool
  | .open_file => true
  | .read_record _ _ => true
  | .close_file _ => true
  | .lower => true
  | _ => false

/-- The points of `profile_dump()` inside the loop that reads the log. -/
def dump_pc.reading : dump_pc → Bool
  | .read_record _ _ => true
  | _ => false

/-- A call `profile_event(code, ptr, dataLen)`: its arguments, the id of the
thread it runs on and the bits of the `double` that `hl_sys_time()` returns to
it. -/
structure event_call where
  time : Nat
  thread_id : Int
  code : Int
  ptr : List Byte
  dataLen : Int
  deriving DecidableEq, Repr

/-- The blocks that a call of `profile_event` with a code `>= 0` appends, one
per call of `record_data` (lines 312 to 316). -/
def event_call.fields (e : event_call) : List (List Byte) :=
  [le_bytes 8 e.time, int_bytes e.thread_id, int_bytes e.code, int_bytes e.dataLen,
    e.ptr.take e.dataLen.toNat]

/-- A point of `profile_event` between two statements: before `switch( code )`,
inside `profile_dump()` (code -3), before `data.profiling_pause++` (line 308),
before `data.waitLoop = true` (line 309), at the test of `while( data.waitLoop )`
(line 310), before the next call of `record_data` with the blocks that are left
to append (lines 312 to 316), before `data.profiling_pause--` (line 317), and
after the return. -/
inductive event_pc where
  | call
  | dump (p : dump_pc)
  | raise
  | request
  | wait
  | append (left : List (List Byte))
  | lower
  | returned
  deriving DecidableEq, Repr

/-- One step of `profile_event`.  A call with a code `>= 0` whose `dataLen` is
negative or more than `ptr` holds has no defined behaviour: it takes no step
out of the busy wait. -/
def event_step (h : Host) (e : event_call) : event_pc × State → Option (event_pc × State)
  | (.call, d) =>
    if e.code = -1 then
      some (.returned, { d with profiling_pause := wrap32 (d.profiling_pause + 1) })
    else if e.code = -2 then
      some (.returned, { d with profiling_pause := wrap32 (d.profiling_pause - 1) })
    else if e.code = -3 then some (.dump .entry, d)
    else if e.code < 0 then some (.returned, d)
    else some (.raise, d)
  | (.dump .returned, d) => some (.returned, d)
  | (.dump p, d) => (dump_step h (p, d)).map fun c => (.dump c.1, c.2)
  | (.raise, d) =>
    some (.request, { d with profiling_pause := wrap32 (d.profiling_pause + 1) })
  | (.request, d) => some (.wait, { d with waitLoop := true })
  | (.wait, d) =>
    if d.waitLoop then some (.wait, d)
    else if e.dataLen < 0 ∨ (e.ptr.length : Int) < e.dataLen then none
    else some (.append e.fields, d)
  | (.append [], d) => some (.lower, d)
  | (.append (b :: left), d) =>
    (record_data d b).map fun d1 => (if left = [] then .lower else .append left, d1)
  | (.lower, d) =>
    some (.returned, { d with profiling_pause := wrap32 (d.profiling_pause - 1) })
  | (.returned, _) => none

/-- The first `n` steps of a call of `profile_event` from a point, when no
other thread runs. -/
def event_steps (h : Host) (e : event_call) : Nat → event_pc × State → Option (event_pc × State)
  | 0, c => some c
  | n + 1, c =>
    match event_step h e c with
    | none => none
    | some c1 => event_steps h e n c1

/-- The blocks that `read_thread_data(t)` appends for a capture, one per call
of `record_data` (lines 158 to 161). -/
def sample_fields (h : Host) (t : thread_handle) (c : Capture) : List (List Byte) :=
  [le_bytes 8 c.time, int_bytes t.tid, int_bytes (wrap32 (Int.ofNat (c.count ||| 0x80000000))),
    ptr_bytes h.sizeof_ptr (c.stackOut.take c.count)]

/-- A point of `hl_profile_loop` between two statements: at the test of
`while( !data.stopLoop )` (line 168), at the test of line 169, before
`data.waitLoop = false` (line 170), at the head of the loop over the live
threads with those that are left, the handles up to `prev` and the chain at
`cur` (line 177), inside `read_thread_data` before the next call of
`record_data` with the blocks that are left to append (lines 158 to 161), and
after the loop. -/
inductive loop_pc where
  | test
  | check
  | clear
  | walk (ts : List (hl_thread_info × Capture)) (done cur : List thread_handle)
  | append (left : List (List Byte)) (ts : List (hl_thread_info × Capture))
      (done cur : List thread_handle)
  | stopped

/-- One step of `hl_profile_loop`; `now` and `threads` are what `hl_sys_time()`
and `hl_gc_threads_info()` return if the step calls them.  At the head of the
loop over the live threads, a step runs lines 178 to 187 and
`read_thread_data` up to its first append, or, when no thread is left, lines
192 to 198. -/
def loop_step (h : Host) (fpu : Fpu) (now : Nat) (threads : List (hl_thread_info × Capture)) :
    loop_pc × LoopVars × State → Option (loop_pc × LoopVars × State)
  | (.test, v, d) => if d.stopLoop then some (.stopped, v, d) else some (.check, v, d)
  | (.check, v, d) =>
    if fpu.lt now v.next || decide (d.profiling_pause ≠ 0) then some (.clear, v, d)
    else some (.walk threads [] d.handles, v, d)
  | (.clear, v, d) => some (.test, v, { d with waitLoop := false })
  | (.walk [] done _, v, d) =>
    some (.test, { v with next := fpu.add v.next v.wait_time }, { d with handles := done })
  | (.walk ((t, c) :: ts) done cur, v, d) =>
    let x : thread_handle :=
      match cur with
      | [] => new_handle t
      | y :: _ => if y.tid ≠ t.thread_id then new_handle t else y
    let rest : List thread_handle :=
      match cur with
      | [] => []
      | y :: ys => if y.tid ≠ t.thread_id then y :: ys else ys
    if !c.paused then some (.walk ts (done ++ [x]) rest, v, d)
    else
      match c.stack with
      | none => some (.walk ts (done ++ [x]) rest, v, d)
      | some _ => some (.append (sample_fields h x c) ts (done ++ [x]) rest, v, d)
  | (.append [] ts done cur, v, d) => some (.walk ts done cur, v, d)
  | (.append (b :: left) ts done cur, v, d) =>
    (record_data d b).map fun d1 =>
      (if left = [] then .walk ts done cur else .append left ts done cur, v, d1)
  | (.stopped, _, _) => none

/-- The first `n` steps of `hl_profile_loop` from a point, when no other
thread runs and the host returns `now` and `threads`. -/
def loop_steps (h : Host) (fpu : Fpu) (now : Nat) (threads : List (hl_thread_info × Capture)) :
    Nat → loop_pc × LoopVars × State → Option (loop_pc × LoopVars × State)
  | 0, c => some c
  | n + 1, c =>
    match loop_step h fpu now threads c with
    | none => none
    | some c1 => loop_steps h fpu now threads n c1

/-- The profiler at one instant: the shared `data`, the point and the locals of
`hl_profile_loop`, and the calls of `profile_event` that are under way, each on
a thread of its own, with the point each one is at. -/
structure Config where
  data : State
  loop : loop_pc × LoopVars
  callers : List (event_call × event_pc)

/-- The thread that takes the next step: `hl_profile_loop`, with what the host
returns to it, or one of the callers. -/
inductive Action where
  | loop (now : Nat) (threads : List (hl_thread_info × Capture))
  | caller (i : Nat)

/-- One step of one thread. -/
def step (h : Host) (fpu : Fpu) (c : Config) : Action → Option Config
  | .loop now threads =>
    (loop_step h fpu now threads (c.loop.1, c.loop.2, c.data)).map fun x =>
      { c with data := x.2.2, loop := (x.1, x.2.1) }
  | .caller i =>
    match c.callers[i]? with
    | none => none
    | some (e, pc) =>
      (event_step h e (pc, c.data)).map fun x =>
        { c with data := x.2, callers := c.callers.set i (e, x.1) }

/-- An interleaving: the threads step in the order of the list. -/
def run (h : Host) (fpu : Fpu) : Config → List Action → Option Config
  | c, [] => some c
  | c, a :: as =>
    match step h fpu c a with
    | none => none
    | some c1 => run h fpu c1 as

/-- Whether a caller is between two appends of the record of its event. -/
def event_pc.appending : event_pc → Bool
  | .append left => decide (left.length < 5)
  | _ => false

/-- Whether a caller is inside the loop of `profile_dump()` that reads the
log. -/
def event_pc.reading : event_pc → Bool
  | .dump p => p.reading
  | _ => false

/-- Whether `hl_profile_loop` is between two appends of the record of a
sample. -/
def loop_pc.appending : loop_pc → Bool
  | .append left _ _ _ => decide (left.length < 4)
  | _ => false

/-- Times counted in ticks: the comparison and the sum of `hl_profile_loop`. -/
def example_fpu : Fpu := { lt := fun a b => decide (a < b), add := fun a b => a + b }

/-- A profiler that has recorded nothing, with `hl_profile_loop` at its test,
one tick between two samples, and two threads about to call `profile_event`:
thread 10 with code 5 and payload `[0xAA]` at time 1, thread 11 with code 6 and
payload `[0xBB]` at time 2. -/
def example_two_callers : Config :=
  { data := init example_debug, loop := (.test, { wait_time := 1, next := 0 }),
    callers := [({ time := 1, thread_id := 10, code := 5, ptr := [0xAA], dataLen := 1 }, .call),
      ({ time := 2, thread_id := 11, code := 6, ptr := [0xBB], dataLen := 1 }, .call)] }

/-- An interleaving of `example_two_callers`: each caller runs up to its busy
wait (three steps each); `hl_profile_loop` finds the pause counter raised and
clears `waitLoop` (three steps); each caller leaves its busy wait; the callers
then take turns, one call of `record_data` each, five times; each lowers the
pause counter. -/
def example_torn : List Action :=
  [.caller 0, .caller 0, .caller 0, .caller 1, .caller 1, .caller 1,
    .loop 0 [], .loop 0 [], .loop 0 [],
    .caller 0, .caller 1,
    .caller 0, .caller 1, .caller 0, .caller 1, .caller 0, .caller 1, .caller 0, .caller 1,
    .caller 0, .caller 1,
    .caller 0, .caller 1]

/-- The live threads of the example: thread 2, of which `example_capture` is
taken at every tick. -/
def example_live : List (hl_thread_info × Capture) :=
  [({ thread_id := 2, addr := 0 }, example_capture)]

/-- A profiler that has recorded nothing, with `hl_profile_loop` at its test,
one tick between two samples, and thread 12 about to call
`profile_event(-3, NULL, 0)`, the request of a dump. -/
def example_sampling : Config :=
  { data := init example_debug, loop := (.test, { wait_time := 1, next := 0 }),
    callers := [({ time := 0, thread_id := 12, code := -3, ptr := [], dataLen := 0 }, .call)] }

/-- An interleaving of `example_sampling`: `hl_profile_loop` goes once round
its loop at time 0 and records a sample of thread 2 (eight steps); at time 1 it
finds the pause counter at zero, starts a second walk and appends the time of a
second sample (four steps); the caller then enters `profile_dump()`, raises the
pause counter, opens the file and runs one iteration of the loop that reads the
log (five steps). -/
def example_unguarded : List Action :=
  [.loop 0 example_live, .loop 0 example_live, .loop 0 example_live, .loop 0 example_live,
    .loop 0 example_live, .loop 0 example_live, .loop 0 example_live, .loop 0 example_live,
    .loop 1 example_live, .loop 1 example_live, .loop 1 example_live, .loop 1 example_live,
    .caller 0, .caller 0, .caller 0, .caller 0, .caller 0]

/-! ## Bytes -/

theorem le_bytes_length (w n : Nat) : (le_bytes w n).length = w := by
  induction w generalizing n with
  | zero => rfl
  | succ w ih => simp [le_bytes, ih]

theorem le_value_le_bytes (w n : Nat) : le_value (le_bytes w n) = n % 256 ^ w := by
  induction w generalizing n with
  | zero => simp [le_bytes, le_value, Nat.mod_one]
  | succ w ih =>
    simp only [le_bytes, le_value, ih]
    rw [pow_succ', Nat.mod_mul]

theorem int_bytes_length (x : Int) : (int_bytes x).length = 4 := le_bytes_length 4 _

/-! ## The log buffer -/

theorem stream_append (a b : List profile_data) : stream (a ++ b) = stream a ++ stream b := by
  induction a with
  | nil => rfl
  | cons c a ih => simp [stream, ih]

theorem remaining_start (cs : List profile_data) : remaining ⟨cs, 0⟩ = stream cs := by
  cases cs <;> simp [remaining, stream]

theorem reader_ok_start (cs : List profile_data) (h : log_ok cs) : reader_ok ⟨cs, 0⟩ :=
  ⟨h, fun _ _ => Nat.zero_le _⟩

/-! ## The reader -/

theorem chunk_bytes_written (c : profile_data) (off n : Nat) (h : off + n ≤ c.data.length) :
    chunk_bytes c off n = ((c.data.drop off).take n).map some := by
  apply List.ext_getElem?
  intro i
  by_cases hi : i < n
  · have h1 : off + i < c.data.length := by omega
    simp [chunk_bytes, List.getElem?_range, hi, List.getElem?_take, List.getElem?_drop,
      List.getElem?_eq_getElem h1]
  · simp [chunk_bytes, List.getElem?_range, hi, List.getElem?_take]
    omega

theorem chunk_bytes_zero (c : profile_data) (off : Nat) : chunk_bytes c off 0 = [] := rfl

theorem load_map_some (bs : List Byte) : load (bs.map some) = some bs := by
  induction bs with
  | nil => rfl
  | cons b bs ih => simp [load, ih]

/-- A read of no byte. -/
theorem read_zero (r : profile_reader) : read_profile_data r 0 = some (true, r, []) := by
  simp [read_profile_data, read_loop]

/-- A read at the end of the chain. -/
theorem read_end (pos n : Nat) (hn : 0 < n) :
    read_profile_data ⟨[], pos⟩ n = some (false, ⟨[], pos⟩, List.replicate n none) := by
  have h0 : n ≠ 0 := by omega
  simp [read_profile_data, read_loop, h0]

/-- One iteration of the loop of `read_profile_data` that takes all the bytes
asked for from the chunk of the reader. -/
theorem read_loop_within (fuel : Nat) (c : profile_data) (rest : List profile_data)
    (pos n : Nat) (ptr : List (Option Byte)) (hc : chunk_ok c) (hn : 0 < n)
    (hfit : pos + n ≤ c.currentPos) :
    read_loop (fuel + 2) ⟨c :: rest, pos⟩ n ptr
      = some (true, if pos + n = c.currentPos then ⟨rest, 0⟩ else ⟨c :: rest, pos + n⟩,
          ((c.data.drop pos).take n).map some ++ ptr.drop n) := by
  have h0 : n ≠ 0 := by omega
  have h1 : ¬ c.currentPos < pos := by omega
  have hb : (if c.currentPos - pos > n then n else c.currentPos - pos) = n := by
    split <;> omega
  have hw := chunk_bytes_written c pos n (by rw [hc.1]; exact hfit)
  rw [read_loop]
  simp only [h0, if_false, h1, hb, hw, Nat.sub_self]
  split <;> simp [read_loop]

/-- A read of bytes that are all in the chunk of the reader: one `memcpy`
serves it. -/
theorem read_within (c : profile_data) (rest : List profile_data) (pos n : Nat)
    (hc : chunk_ok c) (hn : 0 < n) (hfit : pos + n ≤ c.currentPos) :
    read_profile_data ⟨c :: rest, pos⟩ n
      = some (true, if pos + n = c.currentPos then ⟨rest, 0⟩ else ⟨c :: rest, pos + n⟩,
          ((c.data.drop pos).take n).map some) := by
  unfold read_profile_data
  rw [List.length_cons, read_loop_within _ c rest pos n _ hc hn hfit]
  simp

/-- The loop of `read_profile_data` on a valid reader: with fuel for one
iteration per chunk and two more, it returns; the flag is true exactly when the
rest of the stream has the bytes asked for, and the reader has then advanced by
that many bytes. -/
theorem read_loop_total (cs : List profile_data) :
    ∀ (fuel pos size : Nat) (ptr : List (Option Byte)), reader_ok ⟨cs, pos⟩ →
      cs.length + 2 ≤ fuel →
      (size ≤ (remaining ⟨cs, pos⟩).length →
        ∃ r1 out, read_loop fuel ⟨cs, pos⟩ size ptr = some (true, r1, out)
          ∧ reader_ok r1 ∧ remaining r1 = (remaining ⟨cs, pos⟩).drop size) ∧
      ((remaining ⟨cs, pos⟩).length < size →
        ∃ r1 out, read_loop fuel ⟨cs, pos⟩ size ptr = some (false, r1, out)) := by
  induction cs with
  | nil =>
    intro fuel pos size ptr hr hf
    obtain ⟨fuel, rfl⟩ : ∃ k, fuel = k + 1 := ⟨fuel - 1, by omega⟩
    constructor
    · intro hs
      have : size = 0 := by simpa [remaining] using hs
      subst this
      exact ⟨⟨[], pos⟩, ptr, by simp [read_loop], hr, by simp [remaining]⟩
    · intro hs
      have : size ≠ 0 := by simp [remaining] at hs; omega
      exact ⟨⟨[], pos⟩, ptr, by simp [read_loop, this]⟩
  | cons c rest ih =>
    intro fuel pos size ptr hr hf
    obtain ⟨fuel, rfl⟩ : ∃ k, fuel = k + 1 := ⟨fuel - 1, by omega⟩
    have hc : chunk_ok c := hr.1 c (List.mem_cons_self _ _)
    have hpos : pos ≤ c.currentPos := hr.2 c (by simp)
    have hrest : reader_ok ⟨rest, 0⟩ :=
      ⟨fun x hx => hr.1 x (List.mem_cons_of_mem _ hx), fun x _ => Nat.zero_le _⟩
    have htake : c.data.take c.currentPos = c.data := by
      rw [List.take_of_length_le (by omega)]
    have hrem : remaining ⟨c :: rest, pos⟩ = c.data.drop pos ++ stream rest := by
      simp [remaining, htake]
    have hlen : (c.data.drop pos).length = c.currentPos - pos := by
      simp [hc.1]
    by_cases h0 : size = 0
    · subst h0
      constructor
      · intro _
        exact ⟨⟨c :: rest, pos⟩, ptr, by simp [read_loop], hr, by simp⟩
      · intro hs; omega
    · by_cases hav : c.currentPos - pos > size
      · -- the request is served from the current chunk
        constructor
        · intro _
          obtain ⟨fuel, rfl⟩ : ∃ k, fuel = k + 1 := ⟨fuel - 1, by simp at hf; omega⟩
          have hne : pos + size ≠ c.currentPos := by omega
          refine ⟨⟨c :: rest, pos + size⟩,
            ((c.data.drop pos).take size).map some ++ ptr.drop size, ?_, ⟨hr.1, ?_⟩, ?_⟩
          · rw [read_loop_within fuel c rest pos size ptr hc (by omega) (by omega), if_neg hne]
          · intro x hx
            simp at hx
            subst hx
            simp; omega
          · simp [remaining, htake, hrem]
            rw [List.drop_append_of_le_length (by omega)]
            simp [Nat.add_comm]
        · intro hs
          rw [hrem] at hs
          simp [hc.1] at hs
          omega
      · -- the current chunk is used up
        have hb : (if c.currentPos - pos > size then size else c.currentPos - pos)
            = c.currentPos - pos := by simp [hav]
        have hstep : read_loop (fuel + 1) ⟨c :: rest, pos⟩ size ptr
            = read_loop fuel ⟨rest, 0⟩ (size - (c.currentPos - pos))
                (chunk_bytes c pos (c.currentPos - pos) ++ ptr.drop (c.currentPos - pos)) := by
          have hadd : pos + (c.currentPos - pos) = c.currentPos := by omega
          rw [read_loop]
          simp only [h0, if_false, Nat.not_lt.mpr hpos, hb, hadd, if_true]
        have hih := ih fuel 0 (size - (c.currentPos - pos))
          (chunk_bytes c pos (c.currentPos - pos) ++ ptr.drop (c.currentPos - pos)) hrest
          (by simp at hf ⊢; omega)
        rw [remaining_start] at hih
        constructor
        · intro hs
          rw [hrem] at hs
          simp [hc.1] at hs
          obtain ⟨r1, out, h1, h2, h3⟩ := hih.1 (by omega)
          refine ⟨r1, out, ?_, h2, ?_⟩
          · rw [hstep, h1]
          · rw [h3, hrem, List.drop_append_eq_append_drop]
            simp [hc.1]
            omega
        · intro hs
          rw [hrem] at hs
          simp [hc.1] at hs
          obtain ⟨r1, out1, h1⟩ := hih.2 (by omega)
          exact ⟨r1, out1, by rw [hstep, h1]⟩

/-- The function `read_profile_data` returns on every valid reader: the flag is
false exactly when `size` exceeds the number of written bytes that remain in the
stream, and when the flag is true the reader has advanced by `size` bytes. -/
theorem read_profile_data_total (r : profile_reader) (size : Nat) (hr : reader_ok r) :
    ∃ b r1 out, read_profile_data r size = some (b, r1, out) ∧
      (b = false ↔ (remaining r).length < size) ∧
      (b = true → remaining r1 = (remaining r).drop size ∧ reader_ok r1) := by
  obtain ⟨cs, pos⟩ := r
  have hspec := read_loop_total cs (cs.length + 2) pos size (List.replicate size none) hr le_rfl
  by_cases hs : size ≤ (remaining ⟨cs, pos⟩).length
  · obtain ⟨r1, out, h1, h2, h3⟩ := hspec.1 hs
    refine ⟨true, r1, out, h1, ?_, fun _ => ⟨h3, h2⟩⟩
    simp; omega
  · obtain ⟨r1, out, h1⟩ := hspec.2 (by omega)
    refine ⟨false, r1, out, h1, ?_, ?_⟩
    · simp; omega
    · intro h; cases h

theorem store_spec (r : profile_data) (ptr : List Byte) (hr : chunk_ok r)
    (hfit : r.currentPos + ptr.length ≤ r.dataSize) :
    store r ptr = some { r with data := r.data ++ ptr, currentPos := r.currentPos + ptr.length } := by
  have h1 : r.data.take r.currentPos = r.data := List.take_of_length_le (by omega)
  have h2 : r.data.drop (r.currentPos + ptr.length) = [] := List.drop_of_length_le (by omega)
  simp [store, hfit, memcpy_at, h1, h2]

/-- The two cases of `record_data` on a chain of written chunks, for a block
that fits in a chunk. -/
theorem record_data_cases (d : State) (ptr : List Byte) (hd : log_ok d.chunks)
    (hsz : ptr.length ≤ 1 <<< 20) :
    (∃ r, d.chunks.getLast? = some r ∧ r.currentPos + ptr.length ≤ r.dataSize ∧
      record_data d ptr = some { d with chunks := d.chunks.dropLast ++
        [{ r with data := r.data ++ ptr, currentPos := r.currentPos + ptr.length }] }) ∨
    ((∀ r ∈ d.chunks.getLast?, r.currentPos + ptr.length > r.dataSize) ∧
      record_data d ptr = some { d with chunks := d.chunks ++
        [{ currentPos := ptr.length, dataSize := 1 <<< 20, data := ptr }] }) := by
  have hnew : store new_chunk ptr
      = some { currentPos := ptr.length, dataSize := 1 <<< 20, data := ptr } := by
    rw [store_spec new_chunk ptr ⟨rfl, Nat.zero_le _⟩ (by simpa [new_chunk] using hsz)]
    simp [new_chunk]
  cases hl : d.chunks.getLast? with
  | none =>
    right
    have he : d.chunks = [] := by simpa using hl
    refine ⟨by simp, ?_⟩
    simp [record_data, hl, hnew, he]
  | some r =>
    have hr : chunk_ok r := hd r (List.mem_of_getLast?_eq_some hl)
    by_cases hfit : r.currentPos + ptr.length > r.dataSize
    · right
      refine ⟨by simpa using hfit, ?_⟩
      simp [record_data, hl, hfit, hnew]
    · left
      refine ⟨r, rfl, by omega, ?_⟩
      simp [record_data, hl, hfit, store_spec r ptr hr (by omega)]

/-- An append of a block that fits in a chunk succeeds, keeps the chain well
formed, extends the stream by the block and touches nothing but the chain. -/
theorem record_data_spec (d : State) (ptr : List Byte) (hd : log_ok d.chunks)
    (hsz : ptr.length ≤ 1 <<< 20) :
    ∃ cs, record_data d ptr = some { d with chunks := cs } ∧ log_ok cs ∧
      stream cs = stream d.chunks ++ ptr := by
  rcases record_data_cases d ptr hd hsz with ⟨r, hl, hfit, h⟩ | ⟨_, h⟩
  · have hsplit : d.chunks.dropLast ++ [r] = d.chunks := List.dropLast_append_getLast? r hl
    have hr : chunk_ok r := hd r (List.mem_of_getLast?_eq_some hl)
    refine ⟨_, h, ?_, ?_⟩
    · intro c hc
      rcases List.mem_append.mp hc with hc | hc
      · exact hd c (List.mem_of_mem_dropLast hc)
      · simp at hc
        subst hc
        exact ⟨by simp [hr.1], hfit⟩
    · conv_rhs => rw [← hsplit]
      have h1 : r.data.take r.currentPos = r.data := List.take_of_length_le (by omega)
      have h2 : (r.data ++ ptr).take (r.currentPos + ptr.length) = r.data ++ ptr :=
        List.take_of_length_le (by simp [hr.1])
      simp [stream_append, stream, h1, h2]
  · refine ⟨_, h, ?_, ?_⟩
    · intro c hc
      rcases List.mem_append.mp hc with hc | hc
      · exact hd c hc
      · simp at hc
        subst hc
        exact ⟨rfl, hsz⟩
    · simp [stream_append, stream]

/-- A sequence of appends of blocks that each fit in a chunk. -/
theorem record_all_spec (blocks : List (List Byte)) :
    ∀ d : State, log_ok d.chunks → (∀ b ∈ blocks, b.length ≤ 1 <<< 20) →
      ∃ cs, record_all d blocks = some { d with chunks := cs } ∧ log_ok cs ∧
        stream cs = stream d.chunks ++ blocks.flatten := by
  induction blocks with
  | nil => intro d hd _; exact ⟨d.chunks, rfl, hd, by simp⟩
  | cons b bs ih =>
    intro d hd hsz
    obtain ⟨cs, h1, h2, h3⟩ := record_data_spec d b hd (hsz b (List.mem_cons_self _ _))
    obtain ⟨cs2, h4, h5, h6⟩ := ih { d with chunks := cs } h2
      (fun x hx => hsz x (List.mem_cons_of_mem _ hx))
    exact ⟨cs2, by simp [record_all, and_then, h1, h4], h5, by simp [h6, h3]⟩

/-- An append of more bytes than a chunk holds runs past the end of the chunk
it is copied to. -/
theorem record_data_oversize (d : State) (ptr : List Byte)
    (hd : ∀ c ∈ d.chunks, c.dataSize = 1 <<< 20) (hsz : 1 <<< 20 < ptr.length) :
    record_data d ptr = none := by
  have hnew : store new_chunk ptr = none := by
    simp only [store, new_chunk, Nat.zero_add, Nat.not_le.mpr hsz, if_false]
  cases hl : d.chunks.getLast? with
  | none => simp [record_data, hl, hnew]
  | some r =>
    have hr := hd r (List.mem_of_getLast?_eq_some hl)
    have hgt : r.currentPos + ptr.length > r.dataSize := by omega
    simp [record_data, hl, hgt, hnew]

/-! ## C4: a read that crosses a chunk boundary -/

/-- C4, the code at a failing input: the reader is at offset 1 of a chunk that
holds the bytes 1 and 2 and is followed by a chunk that holds the byte 3, so
the bytes 2 and 3 remain in the stream, and 2 bytes are asked for.  The call
returns true and the reader is at the end of the chain, but both copies have
gone to the start of the destination: its first byte is 3, the byte of the
second chunk, and its second byte has not been written.  A read of 2 bytes from
offset 0, which the first chunk serves alone, delivers the bytes 1 and 2. -/
theorem read_profile_data_across_chunks :
    reader_ok ⟨[⟨2, 4, [1, 2]⟩, ⟨1, 4, [3]⟩], 1⟩ ∧
    remaining ⟨[⟨2, 4, [1, 2]⟩, ⟨1, 4, [3]⟩], 1⟩ = [2, 3] ∧
    read_profile_data ⟨[⟨2, 4, [1, 2]⟩, ⟨1, 4, [3]⟩], 1⟩ 2
      = some (true, ⟨[], 0⟩, [some 3, none]) ∧
    read_profile_data ⟨[⟨2, 4, [1, 2]⟩, ⟨1, 4, [3]⟩], 0⟩ 2
      = some (true, ⟨[⟨1, 4, [3]⟩], 0⟩, [some 1, some 2]) := by
  decide

/-! ## C1: reading back what has been appended -/

/-- Two blocks that do not fit in one chunk together, appended to an empty
log: each gets a chunk of its own. -/
theorem record_all_two (d : State) (a b : List Byte) (hd : d.chunks = [])
    (ha : a.length ≤ 1 <<< 20) (hb : b.length ≤ 1 <<< 20) (hab : 1 <<< 20 < a.length + b.length) :
    record_all d [a, b]
      = some { d with chunks := [⟨a.length, 1 <<< 20, a⟩, ⟨b.length, 1 <<< 20, b⟩] } := by
  have h1 : record_data d a = some { d with chunks := [⟨a.length, 1 <<< 20, a⟩] } := by
    rcases record_data_cases d a (by rw [hd]; intro c hc; cases hc) ha with ⟨r, hl, _⟩ | ⟨_, h⟩
    · rw [hd] at hl; cases hl
    · rw [h, hd]; rfl
  have h2 : record_data { d with chunks := [⟨a.length, 1 <<< 20, a⟩] } b
      = some { d with chunks := [⟨a.length, 1 <<< 20, a⟩, ⟨b.length, 1 <<< 20, b⟩] } := by
    rcases record_data_cases { d with chunks := [⟨a.length, 1 <<< 20, a⟩] } b
      (by intro c hc; simp only [List.mem_singleton] at hc; subst hc; exact ⟨rfl, ha⟩) hb
      with ⟨r, hl, hfit, _⟩ | ⟨_, h⟩
    · simp only [List.getLast?_singleton, Option.some.injEq] at hl
      subst hl
      simp only at hfit
      omega
    · rw [h]; rfl
  show and_then (record_data d a) (fun d1 => and_then (record_data d1 b) fun d2 => some d2) = _
  rw [h1]
  show and_then (record_data _ b) _ = _
  rw [h2]
  rfl

/-- A read of all the bytes of a chain of two chunks: the second copy goes
where the first one has gone, the start of the destination. -/
theorem read_two_chunks (c1 c2 : profile_data) (h1 : chunk_ok c1) (h2 : chunk_ok c2)
    (hp1 : 0 < c1.currentPos) (hp2 : 0 < c2.currentPos) :
    read_profile_data ⟨[c1, c2], 0⟩ (c1.currentPos + c2.currentPos)
      = some (true, ⟨[], 0⟩,
          c2.data.map some ++
            (c1.data.map some ++ List.replicate c2.currentPos none).drop c2.currentPos) := by
  have h0 : c1.currentPos + c2.currentPos ≠ 0 := by omega
  have hb : (if c1.currentPos - 0 > c1.currentPos + c2.currentPos
      then c1.currentPos + c2.currentPos else c1.currentPos - 0) = c1.currentPos := by
    split <;> omega
  have hw := chunk_bytes_written c1 0 c1.currentPos (by rw [h1.1]; omega)
  have ht1 : c1.data.take c1.currentPos = c1.data := List.take_of_length_le (by rw [h1.1])
  have ht2 : c2.data.take c2.currentPos = c2.data := List.take_of_length_le (by rw [h2.1])
  unfold read_profile_data
  show read_loop (1 + 1 + 1 + 1) _ _ _ = _
  rw [read_loop]
  simp only [h0, if_false, Nat.not_lt_zero, hb, hw, Nat.zero_add, if_true, List.drop_zero, ht1,
    Nat.add_sub_cancel_left, List.drop_replicate]
  rw [read_loop_within 1 c2 [] 0 c2.currentPos _ h2 hp2 (by omega)]
  simp only [Nat.zero_add, if_true, List.drop_zero, ht2]

/-- C1, the code at a failing input: 1.5 MiB are appended to an empty log as a
block of 1000000 bytes of value 1 and a block of 572864 bytes of value 2, which
does not fit in what is left of the first chunk and goes to a second one; a
reader started at `first_record`, position 0, then reads 1572864 bytes.  The
call returns true, but the bytes of the second chunk have been copied over the
start of those of the first one: the destination holds 572864 bytes of value 2,
then the last 427136 bytes of the first block, and its last 572864 bytes have
not been written. -/
theorem record_read_across_chunks :
    ∃ d1, record_all (init fun _ => (0, 0))
        [List.replicate 1000000 (1 : Byte), List.replicate 572864 2] = some d1 ∧
      d1.chunks = [⟨1000000, 1 <<< 20, List.replicate 1000000 1⟩,
        ⟨572864, 1 <<< 20, List.replicate 572864 2⟩] ∧
      read_profile_data ⟨d1.chunks, 0⟩ 1572864
        = some (true, ⟨[], 0⟩, List.replicate 572864 (some 2) ++
            (List.replicate 427136 (some 1) ++ List.replicate 572864 none)) := by
  have hall := record_all_two (init fun _ => (0, 0)) (List.replicate 1000000 (1 : Byte))
    (List.replicate 572864 2) rfl (by rw [List.length_replicate]; decide)
    (by rw [List.length_replicate]; decide)
    (by rw [List.length_replicate, List.length_replicate]; decide)
  rw [List.length_replicate, List.length_replicate] at hall
  refine ⟨_, hall, rfl, ?_⟩
  have hread := read_two_chunks ⟨1000000, 1 <<< 20, List.replicate 1000000 (1 : Byte)⟩
    ⟨572864, 1 <<< 20, List.replicate 572864 (2 : Byte)⟩
    ⟨List.length_replicate _ _, by show (1000000 : Nat) ≤ 1 <<< 20; decide⟩
    ⟨List.length_replicate _ _, by show (572864 : Nat) ≤ 1 <<< 20; decide⟩
    (by show (0 : Nat) < 1000000; decide) (by show (0 : Nat) < 572864; decide)
  have hdrop : (List.replicate 1000000 (some (1 : Byte)) ++ List.replicate 572864 none).drop 572864
      = List.replicate 427136 (some (1 : Byte)) ++ List.replicate 572864 none := by
    rw [List.drop_append_of_le_length (by rw [List.length_replicate]; decide),
      List.drop_replicate]
  simp only [List.map_replicate] at hread
  rw [hdrop] at hread
  exact hread

/-! ## C5: appends never move or rewrite earlier bytes -/

/-- C5 (as amended): for every log state and every block of at most 1 MiB,
`record_data` copies the block at the write cursor of the current chunk when
`currentPos + size <= dataSize`, and otherwise (or when there is no chunk) puts
it in a new chunk of capacity 1 MiB linked after the current tail, which becomes
the tail; in both cases every chunk keeps its place in the chain, every byte
written before the call stays at the same chunk and offset, nothing but the log
changes, and the stream after the call is the stream before followed by the
block. -/
theorem record_data_append_only (d : State) (ptr : List Byte) (hd : log_ok d.chunks)
    (hsz : ptr.length ≤ 1 <<< 20) :
    ∃ d1, record_data d ptr = some d1 ∧
      (∀ r, d.record = some r → r.currentPos + ptr.length ≤ r.dataSize →
        d1.chunks = d.chunks.dropLast ++
          [{ r with data := r.data ++ ptr, currentPos := r.currentPos + ptr.length }]) ∧
      ((∀ r ∈ d.record, r.currentPos + ptr.length > r.dataSize) →
        d1.chunks = d.chunks ++ [{ currentPos := ptr.length, dataSize := 1 <<< 20, data := ptr }]
        ∧ d1.record = some { currentPos := ptr.length, dataSize := 1 <<< 20, data := ptr }) ∧
      (∀ (i : Nat) (c : profile_data), d.chunks[i]? = some c → ∃ c1, d1.chunks[i]? = some c1 ∧
        c.currentPos ≤ c1.currentPos ∧ ∀ j, j < c.currentPos → c1.data[j]? = c.data[j]?) ∧
      d1 = { d with chunks := d1.chunks } ∧
      stream d1.chunks = stream d.chunks ++ ptr := by
  obtain ⟨cs, h1, h2, h3⟩ := record_data_spec d ptr hd hsz
  refine ⟨_, h1, ?_, ?_, ?_, rfl, h3⟩
  · intro r hr hfit
    rcases record_data_cases d ptr hd hsz with ⟨r', hl, _, h⟩ | ⟨hno, _⟩
    · have : r' = r := by simpa [State.record, hl] using hr
      subst this
      rw [h1] at h
      have := congrArg (Option.map State.chunks) h
      simpa using this
    · have := hno r hr
      omega
  · intro hno
    rcases record_data_cases d ptr hd hsz with ⟨r', hl, hfit, _⟩ | ⟨_, h⟩
    · have := hno r' hl
      omega
    · rw [h1] at h
      have hcs : cs = d.chunks ++ [{ currentPos := ptr.length, dataSize := 1 <<< 20, data := ptr }] := by
        have := congrArg (Option.map State.chunks) h
        simpa using this
      exact ⟨hcs, by simp [State.record, hcs]⟩
  · intro i c hi
    have hlt : i < d.chunks.length := (List.getElem?_eq_some.mp hi).1
    rcases record_data_cases d ptr hd hsz with ⟨r, hl, hfit, h⟩ | ⟨_, h⟩
    · rw [h1] at h
      have hcs : cs = d.chunks.dropLast ++
          [{ r with data := r.data ++ ptr, currentPos := r.currentPos + ptr.length }] := by
        have := congrArg (Option.map State.chunks) h
        simpa using this
      have hsplit : d.chunks.dropLast ++ [r] = d.chunks := List.dropLast_append_getLast? r hl
      have hr : chunk_ok r := hd r (List.mem_of_getLast?_eq_some hl)
      have hdl : d.chunks.dropLast.length = d.chunks.length - 1 := by simp
      by_cases hlast : i < d.chunks.dropLast.length
      · refine ⟨c, ?_, le_rfl, fun _ _ => rfl⟩
        rw [← hsplit, List.getElem?_append_left hlast] at hi
        simp only [hcs]
        rw [List.getElem?_append_left hlast, hi]
      · have hi' : i = d.chunks.dropLast.length := by omega
        have hc : c = r := by
          rw [← hsplit, hi'] at hi
          simpa using hi.symm
        subst hc
        refine ⟨{ c with data := c.data ++ ptr, currentPos := c.currentPos + ptr.length },
          ?_, Nat.le_add_right _ _, ?_⟩
        · simp only [hcs, hi']
          simp
        · intro j hj
          simp only
          rw [List.getElem?_append_left (by omega)]
    · rw [h1] at h
      have hcs : cs = d.chunks ++ [{ currentPos := ptr.length, dataSize := 1 <<< 20, data := ptr }] := by
        have := congrArg (Option.map State.chunks) h
        simpa using this
      refine ⟨c, ?_, le_rfl, fun _ _ => rfl⟩
      simp only [hcs]
      rw [List.getElem?_append_left hlt, hi]

/-- Witness of C5: two bytes appended to a log whose only chunk holds one. -/
theorem record_data_append_only_witness :
    log_ok [⟨1, 1 <<< 20, [7]⟩] ∧ [(8 : Byte), 9].length ≤ 1 <<< 20 ∧
    ∃ d1, record_data { init (fun _ => (0, 0)) with chunks := [⟨1, 1 <<< 20, [7]⟩] } [8, 9] = some d1 ∧
      stream d1.chunks = [7, 8, 9] := by
  obtain ⟨d1, h1, _, _, _, _, h2⟩ := record_data_append_only
    { init (fun _ => (0, 0)) with chunks := [⟨1, 1 <<< 20, [7]⟩] } [8, 9] (by decide) (by decide)
  exact ⟨by decide, by decide, d1, h1, by simpa [stream] using h2⟩

/-- Counterexample to C5 as stated: for a block of 1 MiB + 1 byte and an empty
log, the copy into the new 1 MiB chunk runs one byte past its end. -/
theorem record_data_oversize_block :
    record_data (init fun _ => (0, 0)) (List.replicate 1048577 (0 : Byte)) = none :=
  record_data_oversize _ _ (by simp [init]) (by rw [List.length_replicate]; decide)

/-! ## Integers -/

theorem wrap32_of_is_int (x : Int) (hx : is_int x) : wrap32 x = x := by
  unfold wrap32
  rw [Int.bmod_def]
  split <;> omega

theorem wrap32_is_int (x : Int) : is_int (wrap32 x) := by
  unfold wrap32
  rw [Int.bmod_def]
  constructor <;> split <;> omega

theorem wrap32_inc_dec (x : Int) : wrap32 (wrap32 (x + 1) - 1) = wrap32 x := by
  unfold wrap32
  rw [Int.bmod_sub_bmod_congr]
  simp

/-! ## Sequences of appends -/

theorem and_then_assoc (x : Option State) (f g : State → Option State) :
    and_then (and_then x f) g = and_then x fun a => and_then (f a) g := by
  cases x <;> rfl

theorem record_all_append (a b : List (List Byte)) :
    ∀ d : State, record_all d (a ++ b) = and_then (record_all d a) fun d1 => record_all d1 b := by
  induction a with
  | nil => intro d; rfl
  | cons x a ih =>
    intro d
    show and_then (record_data d x) (fun d1 => record_all d1 (a ++ b))
      = and_then (and_then (record_data d x) fun d1 => record_all d1 a) fun d1 => record_all d1 b
    rw [and_then_assoc]
    congr 1
    funext d1
    exact ih d1

/-- Appends keep the capacity of every chunk at 1 MiB. -/
theorem record_data_dataSize (d : State) (ptr : List Byte) (cs : List profile_data)
    (hd : log_ok d.chunks) (hsz : ptr.length ≤ 1 <<< 20)
    (hcap : ∀ c ∈ d.chunks, c.dataSize = 1 <<< 20)
    (h : record_data d ptr = some { d with chunks := cs }) :
    ∀ c ∈ cs, c.dataSize = 1 <<< 20 := by
  rcases record_data_cases d ptr hd hsz with ⟨r, hl, _, h1⟩ | ⟨_, h1⟩
  · rw [h] at h1
    have hcs := congrArg (Option.map State.chunks) h1
    simp only [Option.map_some', Option.some.injEq] at hcs
    subst hcs
    intro c hc
    rcases List.mem_append.mp hc with hc | hc
    · exact hcap c (List.mem_of_mem_dropLast hc)
    · simp at hc
      subst hc
      exact hcap r (List.mem_of_getLast?_eq_some hl)
  · rw [h] at h1
    have hcs := congrArg (Option.map State.chunks) h1
    simp only [Option.map_some', Option.some.injEq] at hcs
    subst hcs
    intro c hc
    rcases List.mem_append.mp hc with hc | hc
    · exact hcap c hc
    · simp at hc
      subst hc
      rfl

/-- A sequence of appends that ends with a block larger than a chunk. -/
theorem record_all_oversize (blocks : List (List Byte)) (big : List Byte)
    (hbig : 1 <<< 20 < big.length) :
    ∀ d : State, log_ok d.chunks → (∀ c ∈ d.chunks, c.dataSize = 1 <<< 20) →
      (∀ b ∈ blocks, b.length ≤ 1 <<< 20) → record_all d (blocks ++ [big]) = none := by
  induction blocks with
  | nil =>
    intro d _ hcap _
    simp [record_all, and_then, record_data_oversize d big hcap hbig]
  | cons b bs ih =>
    intro d hd hcap hsz
    obtain ⟨cs, h1, h2, _⟩ := record_data_spec d b hd (hsz b (List.mem_cons_self _ _))
    have h3 := record_data_dataSize d b cs hd (hsz b (List.mem_cons_self _ _)) hcap h1
    have h4 := ih { d with chunks := cs } h2 h3 (fun x hx => hsz x (List.mem_cons_of_mem _ hx))
    show and_then (record_data d b) (fun d1 => record_all d1 (bs ++ [big])) = none
    rw [h1]
    exact h4

/-- The five appends of `profile_event` as one sequence of appends. -/
theorem profile_event_eq (h : Host) (time : Nat) (thread_id code : Int) (ptr : List Byte)
    (d : State) (hcode : 0 ≤ code) :
    profile_event h time thread_id code ptr ptr.length d
      = and_then (record_all { d with profiling_pause := wrap32 (d.profiling_pause + 1),
                                      waitLoop := false }
          [le_bytes 8 time, int_bytes thread_id, int_bytes code, int_bytes ptr.length, ptr])
        fun d8 => some { d8 with profiling_pause := wrap32 (d8.profiling_pause - 1) } := by
  have h1 : code ≠ -1 := by omega
  have h2 : code ≠ -2 := by omega
  have h3 : code ≠ -3 := by omega
  have h4 : ¬ code < 0 := by omega
  simp only [profile_event, h1, h2, h3, h4, if_false, Int.toNat_ofNat, List.take_length,
    lt_self_iff_false, or_false, Int.natCast_nonneg, not_lt.mpr, record_all, and_then_assoc]
  cases record_data _ (le_bytes 8 time) with
  | none => rfl
  | some d4 => simp only [and_then]

/-! ## C3: the format of an event record -/

/-- C3 (as amended): for every code >= 0 and every payload of length n of at
most 1 MiB, `profile_event(code, payload, n)`, once the sampler loop has
acknowledged the handshake, extends the stream of the log by one contiguous
block of 20+n bytes, the 8-byte timestamp, the 4-byte id of the calling thread,
the 4-byte code, the 4-byte length n and the n payload bytes, and leaves the
pause counter at the value it had before the call.  For code 5 and payload
`[0xAA, 0xBB]` on an empty log, the log then holds the one record with eventId
5, length 2 and payload `[0xAA, 0xBB]`. -/
theorem profile_event_record (h : Host) (time : Nat) (thread_id code : Int) (ptr : List Byte)
    (d : State) (hcode : 0 ≤ code) (hd : log_ok d.chunks) (hp : is_int d.profiling_pause)
    (hn : ptr.length ≤ 1 <<< 20) :
    (∃ d1, profile_event h time thread_id code ptr ptr.length d = some d1 ∧
      stream d1.chunks = stream d.chunks ++ (le_bytes 8 time ++ int_bytes thread_id ++
        int_bytes code ++ int_bytes ptr.length ++ ptr) ∧
      (le_bytes 8 time ++ int_bytes thread_id ++ int_bytes code ++ int_bytes ptr.length
        ++ ptr).length = 20 + ptr.length ∧
      d1.profiling_pause = d.profiling_pause) ∧
    (d.chunks = [] → ptr = [0xAA, 0xBB] → code = 5 →
      ∃ d1, profile_event h time thread_id code ptr ptr.length d = some d1 ∧
        stream d1.chunks = le_bytes 8 time ++ int_bytes thread_id ++
          [5, 0, 0, 0] ++ [2, 0, 0, 0] ++ [0xAA, 0xBB]) := by
  have hblocks : ∀ b ∈ [le_bytes 8 time, int_bytes thread_id, int_bytes code,
      int_bytes ptr.length, ptr], b.length ≤ 1 <<< 20 := by
    intro b hb
    simp only [List.mem_cons, List.mem_singleton, List.not_mem_nil, or_false] at hb
    rcases hb with rfl | rfl | rfl | rfl | rfl
    · rw [le_bytes_length]; decide
    · rw [int_bytes_length]; decide
    · rw [int_bytes_length]; decide
    · rw [int_bytes_length]; decide
    · exact hn
  obtain ⟨cs, h1, _, h3⟩ := record_all_spec _
    { d with profiling_pause := wrap32 (d.profiling_pause + 1), waitLoop := false } hd hblocks
  have hev : profile_event h time thread_id code ptr ptr.length d
      = some { d with profiling_pause := wrap32 (wrap32 (d.profiling_pause + 1) - 1),
                      waitLoop := false, chunks := cs } := by
    rw [profile_event_eq h time thread_id code ptr d hcode, h1]
    rfl
  have hstream : stream cs = stream d.chunks ++ (le_bytes 8 time ++ int_bytes thread_id ++
        int_bytes code ++ int_bytes ptr.length ++ ptr) := by
    simpa using h3
  refine ⟨⟨_, hev, hstream, ?_, ?_⟩, ?_⟩
  · simp only [List.length_append, le_bytes_length, int_bytes_length]
  · show wrap32 (wrap32 (d.profiling_pause + 1) - 1) = d.profiling_pause
    rw [wrap32_inc_dec, wrap32_of_is_int _ hp]
  · intro he hptr h5
    subst hptr h5
    refine ⟨_, hev, ?_⟩
    show stream cs = _
    rw [hstream, he]
    rfl

/-- Witness of C3: the event of scenario B, code 5 with payload `[0xAA, 0xBB]`,
recorded on an empty log. -/
theorem profile_event_record_witness :
    ((0 : Int) ≤ 5 ∧ log_ok (init example_debug).chunks ∧
      is_int (init example_debug).profiling_pause ∧ [(0xAA : Byte), 0xBB].length ≤ 1 <<< 20) ∧
    ∃ d1, profile_event example_host 1 2 5 [0xAA, 0xBB] 2 (init example_debug) = some d1 ∧
      stream d1.chunks = [1, 0, 0, 0, 0, 0, 0, 0, 2, 0, 0, 0, 5, 0, 0, 0, 2, 0, 0, 0, 0xAA, 0xBB] :=
  ⟨⟨by decide, by decide, by decide, by decide⟩,
    (profile_event_record example_host 1 2 5 [0xAA, 0xBB] (init example_debug)
      (by decide) (by decide) (by decide) (by decide)).2 rfl rfl rfl⟩

/-- Counterexample to C3 as stated: for a payload of 1 MiB + 1 byte on an empty
log, the copy of the payload runs past the end of the 1 MiB chunk allocated for
it, and no record results. -/
theorem profile_event_oversize_payload :
    profile_event example_host 1 2 5 (List.replicate 1048577 (0 : Byte))
      (List.replicate 1048577 (0 : Byte)).length (init example_debug) = none := by
  rw [profile_event_eq _ _ _ _ _ _ (by decide)]
  have hbig : 1 <<< 20 < (List.replicate 1048577 (0 : Byte)).length := by
    rw [List.length_replicate]; decide
  have h := record_all_oversize
    [le_bytes 8 1, int_bytes 2, int_bytes 5,
      int_bytes (List.replicate 1048577 (0 : Byte)).length]
    (List.replicate 1048577 (0 : Byte)) hbig
    { init example_debug with
        profiling_pause := wrap32 ((init example_debug).profiling_pause + 1), waitLoop := false }
    (by intro c hc; cases hc) (by intro c hc; cases hc)
    (by
      intro b hb
      simp only [List.mem_cons, List.mem_singleton, List.not_mem_nil, or_false] at hb
      rcases hb with rfl | rfl | rfl | rfl
      · rw [le_bytes_length]; decide
      · rw [int_bytes_length]; decide
      · rw [int_bytes_length]; decide
      · rw [int_bytes_length]; decide)
  have happ : [le_bytes 8 1, int_bytes 2, int_bytes 5,
      int_bytes (List.replicate 1048577 (0 : Byte)).length] ++ [List.replicate 1048577 (0 : Byte)]
      = [le_bytes 8 1, int_bytes 2, int_bytes 5,
          int_bytes (List.replicate 1048577 (0 : Byte)).length,
          List.replicate 1048577 (0 : Byte)] := rfl
  rw [happ] at h
  rw [h]
  rfl

/-! ## C6: reentrant exclusion -/

theorem nested_codes (cs : List Int) :
    ∀ k : Nat, nested k cs = true → (∀ c ∈ cs, c = -1 ∨ c = -2) ∧ depth cs = -(k : Int) := by
  induction cs with
  | nil =>
    intro k h
    simp [nested] at h
    simp [depth, h]
  | cons c cs ih =>
    intro k h
    by_cases h1 : c = -1
    · subst h1
      simp only [nested, if_true] at h
      obtain ⟨h2, h3⟩ := ih (k + 1) h
      refine ⟨?_, ?_⟩
      · intro x hx
        rcases List.mem_cons.mp hx with rfl | hx
        · exact Or.inl rfl
        · exact h2 x hx
      · simp only [depth, if_true, h3]
        push_cast
        omega
    · by_cases h2 : c = -2
      · subst h2
        simp only [nested, h1, if_false, if_true, Bool.and_eq_true, decide_eq_true_eq] at h
        obtain ⟨h3, h4⟩ := ih (k - 1) h.2
        refine ⟨?_, ?_⟩
        · intro x hx
          rcases List.mem_cons.mp hx with rfl | hx
          · exact Or.inr rfl
          · exact h3 x hx
        · simp only [depth, h1, if_false, if_true, h4]
          omega
      · simp [nested, h1, h2] at h

theorem depth_append (u v : List Int) : depth (u ++ v) = depth u + depth v := by
  induction u with
  | nil => simp [depth]
  | cons c u ih => simp only [List.cons_append, depth, List.append_eq, ih, add_assoc]

theorem depth_le_count (u : List Int) : depth u ≤ (u.count (-1) : Int) := by
  induction u with
  | nil => simp [depth]
  | cons c u ih =>
    by_cases h1 : c = -1
    · subst h1
      simp only [depth, if_true, List.count_cons_self]
      push_cast
      omega
    · have hc : (c :: u).count (-1) = u.count (-1) := by
        rw [List.count_cons_of_ne (fun h => h1 h.symm)]
      rw [hc]
      by_cases h2 : c = -2 <;> simp only [depth, h1, h2, if_false, if_true] <;> omega

/-- Calls with codes `-1` and `-2` only move the pause counter, by the number
of begins minus the number of ends, modulo 2^32. -/
theorem exclusion_calls_spec (h : Host) (cs : List Int) :
    ∀ d : State, is_int d.profiling_pause → (∀ c ∈ cs, c = -1 ∨ c = -2) →
      exclusion_calls h d cs
        = some { d with profiling_pause := wrap32 (d.profiling_pause + depth cs) } := by
  induction cs with
  | nil =>
    intro d hp _
    simp only [exclusion_calls, depth, add_zero, wrap32_of_is_int _ hp]
  | cons c cs ih =>
    intro d hp hc
    have hcs : ∀ x ∈ cs, x = -1 ∨ x = -2 := fun x hx => hc x (List.mem_cons_of_mem _ hx)
    rcases hc c (List.mem_cons_self _ _) with rfl | rfl
    · have h1 : profile_event h 0 0 (-1) [] 0 d
          = some { d with profiling_pause := wrap32 (d.profiling_pause + 1) } := by
        simp [profile_event]
      simp only [exclusion_calls, h1, and_then]
      rw [ih _ (wrap32_is_int _) hcs]
      simp only [depth, if_true, wrap32, Int.bmod_add_bmod_congr]
      congr 3
      omega
    · have h1 : profile_event h 0 0 (-2) [] 0 d
          = some { d with profiling_pause := wrap32 (d.profiling_pause - 1) } := by
        simp [profile_event]
      simp only [exclusion_calls, h1, and_then]
      rw [ih _ (wrap32_is_int _) hcs]
      simp only [depth, wrap32, Int.bmod_add_bmod_congr]
      congr 3
      simp
      omega

/-- C6 (as amended): for every starting value of `profiling_pause`, a properly
nested sequence of calls `profile_event(-1)` and matching calls
`profile_event(-2)` leaves `profiling_pause` at its starting value; and when it
started at 0 and the sequence has fewer than 2^32 begins, the counter is
non-zero at every point of the sequence at which a begin is still open, that
is strictly between an outermost begin and its matching end. -/
theorem exclusion_nests (h : Host) (d : State) (cs : List Int) (hp : is_int d.profiling_pause)
    (hn : nested 0 cs = true) :
    (∃ d1, exclusion_calls h d cs = some d1 ∧ d1.profiling_pause = d.profiling_pause ∧
      d1.chunks = d.chunks) ∧
    (d.profiling_pause = 0 → cs.count (-1) < 4294967296 →
      ∀ u v, cs = u ++ v → 0 < depth u →
        ∃ d2, exclusion_calls h d u = some d2 ∧ d2.profiling_pause ≠ 0) := by
  obtain ⟨hc, hdepth⟩ := nested_codes cs 0 hn
  constructor
  · refine ⟨_, exclusion_calls_spec h cs d hp hc, ?_, rfl⟩
    show wrap32 (d.profiling_pause + depth cs) = d.profiling_pause
    rw [hdepth]
    simpa using wrap32_of_is_int _ hp
  · intro h0 hN u v huv hu
    subst huv
    have hcu : ∀ c ∈ u, c = -1 ∨ c = -2 := fun c hx => hc c (List.mem_append_left _ hx)
    refine ⟨_, exclusion_calls_spec h u d hp hcu, ?_⟩
    show wrap32 (d.profiling_pause + depth u) ≠ 0
    have h1 := depth_le_count u
    have h2 : u.count (-1) ≤ (u ++ v).count (-1) := by
      rw [List.count_append]; omega
    rw [h0]
    unfold wrap32
    rw [Int.bmod_def]
    split <;> omega

/-- Witness of C6: two nested exclusions followed by a third one, entered with
the counter at 0. -/
theorem exclusion_nests_witness :
    (is_int (init example_debug).profiling_pause ∧ nested 0 [-1, -1, -2, -2, -1, -2] = true) ∧
    (∃ d1, exclusion_calls example_host (init example_debug) [-1, -1, -2, -2, -1, -2] = some d1 ∧
      d1.profiling_pause = 0 ∧ d1.chunks = []) ∧
    ∃ d2, exclusion_calls example_host (init example_debug) [-1, -1, -2] = some d2 ∧
      d2.profiling_pause ≠ 0 :=
  ⟨⟨by decide, by decide⟩,
    (exclusion_nests example_host (init example_debug) [-1, -1, -2, -2, -1, -2]
      (by decide) (by decide)).1,
    (exclusion_nests example_host (init example_debug) [-1, -1, -2, -2, -1, -2]
      (by decide) (by decide)).2 rfl (by decide) [-1, -1, -2] [-2, -1, -2] rfl (by decide)⟩

theorem nested_replicate_end (n : Nat) : nested n (List.replicate n (-2)) = true := by
  induction n with
  | zero => rfl
  | succ n ih => simpa [List.replicate_succ, nested] using ih

theorem nested_replicate_begin (n : Nat) (cs : List Int) :
    ∀ k, nested k (List.replicate n (-1) ++ cs) = nested (k + n) cs := by
  induction n with
  | zero => intro k; rfl
  | succ n ih =>
    intro k
    simp only [List.replicate_succ, List.cons_append, nested, if_true, List.append_eq, ih]
    rw [show k + 1 + n = k + (n + 1) from by omega]

theorem depth_replicate_begin (n : Nat) : depth (List.replicate n (-1)) = n := by
  induction n with
  | zero => rfl
  | succ n ih => simp only [List.replicate_succ, depth, if_true, ih]; push_cast; omega

/-- A run of `n` begins moves the pause counter by `n` modulo 2^32. -/
theorem exclusion_begins (h : Host) (n : Nat) (d : State) (hp : is_int d.profiling_pause) :
    ∃ d2, exclusion_calls h d (List.replicate n (-1)) = some d2 ∧
      d2.profiling_pause = wrap32 (d.profiling_pause + n) := by
  refine ⟨_, exclusion_calls_spec h _ d hp ?_, ?_⟩
  · intro c hc
    exact Or.inl (List.eq_of_mem_replicate hc)
  · show wrap32 (d.profiling_pause + depth (List.replicate n (-1))) = _
    rw [depth_replicate_begin]

/-- Counterexample to C6 as stated: 2^32 nested begins followed by 2^32 ends
are properly nested, and after the last begin, before any end, the counter
that started at 0 has wrapped around to 0. -/
theorem exclusion_wraps_to_zero :
    nested 0 (List.replicate 4294967296 (-1) ++ List.replicate 4294967296 (-2)) = true ∧
    0 < depth (List.replicate 4294967296 (-1)) ∧
    ∃ d2, exclusion_calls example_host (init example_debug) (List.replicate 4294967296 (-1))
        = some d2 ∧ d2.profiling_pause = 0 := by
  refine ⟨?_, ?_, ?_⟩
  · rw [nested_replicate_begin, Nat.zero_add]
    exact nested_replicate_end _
  · rw [depth_replicate_begin]; decide
  · obtain ⟨d2, h1, h2⟩ := exclusion_begins example_host 4294967296 (init example_debug)
      (by decide)
    refine ⟨d2, h1, ?_⟩
    rw [h2]
    simp [init, wrap32, Int.bmod_def]

/-! ## Words of the log -/

theorem le_value_int_bytes (x : Int) : le_value (int_bytes x) = (x % 4294967296).toNat := by
  unfold int_bytes
  rw [le_value_le_bytes]
  have h : 0 ≤ x % 4294967296 := Int.emod_nonneg _ (by decide)
  have h2 : x % 4294967296 < 4294967296 := Int.emod_lt_of_pos _ (by decide)
  have : (x % 4294967296).toNat < 4294967296 := by omega
  exact Nat.mod_eq_of_lt (by simpa using this)

theorem bytes_int_int_bytes (x : Int) : bytes_int (int_bytes x) = wrap32 x := by
  unfold bytes_int
  rw [le_value_int_bytes]
  unfold wrap32
  have h : 0 ≤ x % 4294967296 := Int.emod_nonneg _ (by decide)
  rw [Int.toNat_of_nonneg h]
  exact Int.emod_bmod_congr x 4294967296

theorem or_sign_bit (n : Nat) (hn : n < 2147483648) : n ||| 0x80000000 = n + 2147483648 := by
  have h := Nat.mul_add_lt_is_or (i := 31) (b := n) (by simpa using hn) 1
  rw [Nat.lor_comm]
  simp only [Nat.mul_one] at h
  rw [show (0x80000000 : Nat) = 2 ^ 31 from by decide, ← h]
  omega

theorem and_sign_bit_ne_zero (x : Nat) : (x ||| 0x80000000) &&& 0x80000000 ≠ 0 := by
  intro h
  have h1 := congrArg (fun y => Nat.testBit y 31) h
  rw [show (0x80000000 : Nat) = 2 ^ 31 from by decide] at h1
  have ht : Nat.testBit 2147483648 31 = true := by decide
  simp [ht] at h1

theorem or_sign_bit_of_set (x : Nat) (h : x &&& 0x80000000 ≠ 0) : x ||| 0x80000000 = x := by
  rw [show (0x80000000 : Nat) = 2 ^ 31 from by decide] at h ⊢
  have hbit : x.testBit 31 = true := by
    by_contra hb
    apply h
    apply Nat.eq_of_testBit_eq
    intro j
    simp only [Nat.testBit_and, Nat.testBit_two_pow, Nat.zero_testBit]
    by_cases hj : 31 = j
    · subst hj; simp [hb]
    · simp [hj]
  apply Nat.eq_of_testBit_eq
  intro j
  simp only [Nat.testBit_or, Nat.testBit_two_pow]
  by_cases hj : 31 = j
  · subst hj; simp [hbit]
  · simp [hj]

/-- The `eventId` of a sample is negative and its low bits are the number of
frames. -/
theorem sample_eventId (n : Nat) (hn : n ≤ MAX_STACK_COUNT) :
    bytes_int (int_bytes (wrap32 (Int.ofNat (n ||| 0x80000000)))) < 0 ∧
    le_value (int_bytes (wrap32 (Int.ofNat (n ||| 0x80000000)))) &&& 0x7FFFFFFF = n := by
  have hn' : n ≤ 2048 := hn
  rw [or_sign_bit n (by omega), bytes_int_int_bytes, le_value_int_bytes]
  have hw : wrap32 (Int.ofNat (n + 2147483648)) = (n : Int) - 2147483648 := by
    unfold wrap32
    rw [Int.bmod_def]
    simp only [Int.ofNat_eq_coe]
    push_cast
    split <;> omega
  have hw2 : wrap32 ((n : Int) - 2147483648) = (n : Int) - 2147483648 :=
    wrap32_of_is_int _ (by constructor <;> omega)
  rw [hw, hw2]
  constructor
  · omega
  · have : (((n : Int) - 2147483648) % 4294967296).toNat = n + 2147483648 := by omega
    rw [this, show (0x7FFFFFFF : Nat) = 2 ^ 31 - 1 from by decide,
      Nat.and_pow_two_sub_one_eq_mod]
    omega

/-- The `eventId` of an event is its code, which is not negative. -/
theorem event_eventId (code : Int) (h0 : 0 ≤ code) (h1 : code < 2147483648) :
    ¬ bytes_int (int_bytes code) < 0 := by
  rw [bytes_int_int_bytes, wrap32_of_is_int _ (by constructor <;> omega)]
  omega

/-- The length field of an event is the length of its payload. -/
theorem event_size (n : Nat) (hn : n < 2147483648) :
    ¬ bytes_int (int_bytes (Int.ofNat n)) < 0 ∧ le_value (int_bytes (Int.ofNat n)) = n := by
  rw [bytes_int_int_bytes, le_value_int_bytes,
    wrap32_of_is_int _ (by constructor <;> simp only [Int.ofNat_eq_coe] <;> omega)]
  simp only [Int.ofNat_eq_coe]
  constructor <;> omega

theorem ptr_bytes_length (sz : Nat) (fr : List Nat) :
    (ptr_bytes sz fr).length = sz * fr.length := by
  induction fr with
  | nil => rfl
  | cons a fr ih => simp [ptr_bytes, le_bytes_length, ih, Nat.mul_succ, Nat.add_comm]

theorem ptr_array_ptr_bytes (sz : Nat) (fr : List Nat) (hfr : ∀ a ∈ fr, a < 256 ^ sz) :
    ptr_array sz fr.length (ptr_bytes sz fr) = fr := by
  induction fr with
  | nil => rfl
  | cons a fr ih =>
    have h1 : (le_bytes sz a ++ ptr_bytes sz fr).take sz = le_bytes sz a := by
      rw [List.take_append_of_le_length (by rw [le_bytes_length]),
        List.take_of_length_le (by rw [le_bytes_length])]
    have h2 : (le_bytes sz a ++ ptr_bytes sz fr).drop sz = ptr_bytes sz fr := by
      rw [List.drop_append_of_le_length (by rw [le_bytes_length]),
        List.drop_of_length_le (by rw [le_bytes_length]), List.nil_append]
    simp only [List.length_cons, ptr_array, ptr_bytes, h1, h2, le_value_le_bytes]
    rw [Nat.mod_eq_of_lt (hfr a (List.mem_cons_self _ _)),
      ih (fun x hx => hfr x (List.mem_cons_of_mem _ hx))]

/-! ## The dump serializer -/

theorem frame_entries_length (h : Host) (fr : List Nat) :
    ∀ dbg, (frame_entries h fr dbg).length = fr.length := by
  induction fr with
  | nil => intro dbg; rfl
  | cons a fr ih => intro dbg; simp [frame_entries, ih]

theorem frame_entries_append (h : Host) (a b : List Nat) :
    ∀ dbg, frame_entries h (a ++ b) dbg
      = frame_entries h a dbg ++ frame_entries h b (mark_frames h a dbg) := by
  induction a with
  | nil => intro dbg; rfl
  | cons x a ih =>
    intro dbg
    simp only [List.cons_append, frame_entries, List.append_eq, ih, mark_frames]

theorem mark_frames_append (h : Host) (a b : List Nat) :
    ∀ dbg, mark_frames h (a ++ b) dbg = mark_frames h b (mark_frames h a dbg) := by
  induction a with
  | nil => intro dbg; rfl
  | cons x a ih =>
    intro dbg
    simp only [List.cons_append, mark_frames, List.append_eq, ih]

/-- The frame loop of `profile_dump` writes one entry per frame. -/
theorem dump_frames_spec (h : Host) (fr : List Nat) :
    ∀ dbg f, dump_frames h fr dbg f
      = (mark_frames h fr dbg, f ++ (frame_entries h fr dbg).flatten) := by
  induction fr with
  | nil => intro dbg f; simp [dump_frames, mark_frames, frame_entries]
  | cons a fr ih =>
    intro dbg f
    cases hr : h.resolve a with
    | none =>
      simp only [dump_frames, hr, ih, mark_frames, mark_frame, frame_entries, frame_entry,
        List.flatten_cons, List.append_assoc]
    | some p =>
      obtain ⟨i, outStr⟩ := p
      by_cases hb : (dbg i).1 &&& 0x80000000 = 0
      · simp only [dump_frames, hr, hb, if_true, ih, mark_frames, mark_frame, frame_entries,
          frame_entry, List.flatten_cons, List.append_assoc]
      · simp only [dump_frames, hr, hb, if_false, ih, mark_frames, mark_frame, frame_entries,
          frame_entry, List.flatten_cons, List.append_assoc, List.append_nil]

theorem record_bytes_length_pos (sz : Nat) (r : Record) : 0 < (Record.bytes sz r).length := by
  cases r <;> simp [Record.bytes, Record.head, le_bytes_length]

theorem log_bytes_length (sz : Nat) (rs : List Record) : rs.length ≤ (log_bytes sz rs).length := by
  induction rs with
  | nil => simp
  | cons r rs ih =>
    have := record_bytes_length_pos sz r
    simp only [log_bytes, List.map_cons, List.flatten_cons, List.length_append,
      List.length_cons] at ih ⊢
    omega

/-- What `profile_dump` leaves as it is: the log, the sample rate, the flags
and the handles; the pause counter has gone up by one and down by one. -/
theorem profile_dump_frame (h : Host) (d d1 : State) (hd : profile_dump h d = some d1) :
    d1.chunks = d.chunks ∧ d1.sample_count = d.sample_count ∧ d1.stopLoop = d.stopLoop ∧
    d1.waitLoop = d.waitLoop ∧ d1.handles = d.handles ∧
    (d.chunks = [] → d1 = d) ∧
    (d.chunks ≠ [] → d1.profiling_pause = wrap32 (wrap32 (d.profiling_pause + 1) - 1)) := by
  unfold profile_dump at hd
  cases hc : d.chunks with
  | nil =>
    rw [hc] at hd
    simp only [Option.some.injEq] at hd
    subst hd
    simp [hc]
  | cons c cs =>
    rw [hc] at hd
    simp only at hd
    split at hd
    · cases hd
    · simp only [Option.some.injEq] at hd
      subst hd
      simp [hc]

/-! ## The entries of the frames -/

theorem layout_eq_parts (rs : List Record) :
    ∀ es, layout rs es = (layout_parts rs es).flatten := by
  induction rs with
  | nil => intro es; rfl
  | cons x rs ih =>
    intro es
    cases x <;> simp only [layout, layout_parts, List.flatten_cons, ih]

theorem layout_parts_length (rs : List Record) :
    ∀ es, (layout_parts rs es).length = rs.length := by
  induction rs with
  | nil => intro es; rfl
  | cons x rs ih =>
    intro es
    cases x <;> simp only [layout_parts, List.length_cons, ih]

theorem layout_parts_head (rs : List Record) :
    ∀ (es : List (List Byte)) (i : Nat) (x : Record), rs[i]? = some x →
      ∃ tail, (layout_parts rs es)[i]? = some (Record.head x ++ tail) := by
  induction rs with
  | nil => intro es i x hx; simp at hx
  | cons y rs ih =>
    intro es i x hx
    cases i with
    | zero =>
      simp only [List.getElem?_cons_zero, Option.some.injEq] at hx
      subst hx
      cases y with
      | sample time tid frames =>
        exact ⟨(es.take frames.length).flatten,
          by simp only [layout_parts, List.getElem?_cons_zero]⟩
      | event time tid code payload =>
        exact ⟨int_bytes (Int.ofNat payload.length) ++ payload,
          by simp only [layout_parts, List.getElem?_cons_zero, List.append_assoc]⟩
    | succ i =>
      simp only [List.getElem?_cons_succ] at hx
      cases y with
      | sample time tid frames =>
        obtain ⟨tail, ht⟩ := ih (es.drop frames.length) i x hx
        exact ⟨tail, by simp only [layout_parts, List.getElem?_cons_succ, ht]⟩
      | event time tid code payload =>
        obtain ⟨tail, ht⟩ := ih es i x hx
        exact ⟨tail, by simp only [layout_parts, List.getElem?_cons_succ, ht]⟩

theorem record_head_eq_take (sz : Nat) (x : Record) : Record.head x = (Record.bytes sz x).take 16 := by
  have hlen : (Record.head x).length = 16 := by
    cases x <;> simp [Record.head, le_bytes_length, int_bytes_length]
  cases x with
  | sample time tid frames =>
    rw [Record.bytes, List.take_append_of_le_length (by omega), List.take_of_length_le (by omega)]
  | event time tid code payload =>
    rw [Record.bytes, List.append_assoc, List.take_append_of_le_length (by omega),
      List.take_of_length_le (by omega)]

/-- The entry of the frame at position `k` is the one written with the debug
words left by the frames before it. -/
theorem frame_entries_getElem (h : Host) (fr : List Nat) :
    ∀ (dbg : Nat → Nat × Nat) (k : Nat) (a : Nat), fr[k]? = some a →
      (frame_entries h fr dbg)[k]? = some (frame_entry h (mark_frames h (fr.take k) dbg) a) := by
  induction fr with
  | nil => intro dbg k a hk; simp at hk
  | cons b fr ih =>
    intro dbg k a hk
    cases k with
    | zero =>
      simp only [List.getElem?_cons_zero, Option.some.injEq] at hk
      subst hk
      simp only [frame_entries, List.getElem?_cons_zero, List.take_zero, mark_frames]
    | succ k =>
      simp only [List.getElem?_cons_succ] at hk
      simp only [frame_entries, List.getElem?_cons_succ, List.take_succ_cons, mark_frames]
      exact ih _ k a hk

theorem mark_frame_other (h : Host) (dbg : Nat → Nat × Nat) (a i : Nat)
    (hne : ∀ name, h.resolve a ≠ some (i, name)) : mark_frame h dbg a i = dbg i := by
  unfold mark_frame
  cases hr : h.resolve a with
  | none => rfl
  | some p =>
    obtain ⟨j, name⟩ := p
    have hji : i ≠ j := by
      rintro rfl
      exact hne name hr
    simp only
    split
    · exact Function.update_noteq hji _ _
    · rfl

theorem mark_frame_same (h : Host) (dbg : Nat → Nat × Nat) (a i : Nat) (name : List uchar)
    (hr : h.resolve a = some (i, name)) :
    mark_frame h dbg a i = ((dbg i).1 ||| 0x80000000, (dbg i).2) := by
  unfold mark_frame
  simp only [hr]
  split
  · exact Function.update_same _ _ _
  · next hset => rw [or_sign_bit_of_set _ hset]

/-- An entry that is marked stays as it is. -/
theorem mark_frames_stable (h : Host) (fr : List Nat) (i : Nat) :
    ∀ dbg : Nat → Nat × Nat, (dbg i).1 &&& 0x80000000 ≠ 0 → mark_frames h fr dbg i = dbg i := by
  induction fr with
  | nil => intro dbg _; rfl
  | cons a fr ih =>
    intro dbg hset
    have hstep : mark_frame h dbg a i = dbg i := by
      by_cases hres : ∃ name, h.resolve a = some (i, name)
      · obtain ⟨name, hr⟩ := hres
        rw [mark_frame_same h dbg a i name hr, or_sign_bit_of_set _ hset]
      · exact mark_frame_other h dbg a i (fun name hr => hres ⟨name, hr⟩)
    simp only [mark_frames]
    rw [ih _ (by rw [hstep]; exact hset), hstep]

/-- Frames that resolve to other entries leave an entry as it is. -/
theorem mark_frames_other (h : Host) (fr : List Nat) (i : Nat) :
    ∀ dbg : Nat → Nat × Nat, (∀ a ∈ fr, ∀ name, h.resolve a ≠ some (i, name)) →
      mark_frames h fr dbg i = dbg i := by
  induction fr with
  | nil => intro dbg _; rfl
  | cons a fr ih =>
    intro dbg hne
    simp only [mark_frames]
    rw [ih _ (fun x hx => hne x (List.mem_cons_of_mem _ hx)),
      mark_frame_other h dbg a i (hne a (List.mem_cons_self _ _))]

/-- Once a frame has resolved to an entry, the entry is marked. -/
theorem mark_frames_marked (h : Host) (fr : List Nat) (i : Nat) :
    ∀ dbg : Nat → Nat × Nat, (∃ a ∈ fr, ∃ name, h.resolve a = some (i, name)) →
      mark_frames h fr dbg i = ((dbg i).1 ||| 0x80000000, (dbg i).2) := by
  induction fr with
  | nil => intro dbg hex; obtain ⟨a, ha, _⟩ := hex; cases ha
  | cons b fr ih =>
    intro dbg hex
    simp only [mark_frames]
    by_cases hres : ∃ name, h.resolve b = some (i, name)
    · obtain ⟨name, hr⟩ := hres
      have hstep := mark_frame_same h dbg b i name hr
      rw [mark_frames_stable h fr i _ (by rw [hstep]; exact and_sign_bit_ne_zero _), hstep]
    · have hstep := mark_frame_other h dbg b i (fun name hr => hres ⟨name, hr⟩)
      obtain ⟨a, ha, name, hr⟩ := hex
      rcases List.mem_cons.mp ha with rfl | ha
      · exact absurd ⟨name, hr⟩ hres
      · rw [ih _ ⟨a, ha, name, hr⟩, hstep]

theorem example_records_ok : ∀ x ∈ example_records, Record.ok example_host.sizeof_ptr x := by
  decide

/-- The four appends of `read_thread_data` on a thread that has been paused and
whose stack pointer has been read: the log is extended by the bytes of one
sample record. -/
theorem read_thread_data_spec (h : Host) (t : thread_handle) (c : Capture) (d : State)
    (hp : c.paused = true) (hs : c.stack ≠ none) (hd : log_ok d.chunks)
    (hcount : c.count ≤ MAX_STACK_COUNT) (hsz : h.sizeof_ptr ≤ 8)
    (hout : c.count ≤ c.stackOut.length) :
    ∃ cs, read_thread_data h t c d = some { d with chunks := cs } ∧ log_ok cs ∧
      stream cs = stream d.chunks
        ++ Record.bytes h.sizeof_ptr (.sample c.time t.tid (c.stackOut.take c.count)) := by
  have hlen : (c.stackOut.take c.count).length = c.count := by
    rw [List.length_take]; omega
  have hblocks : ∀ b ∈ [le_bytes 8 c.time, int_bytes t.tid,
      int_bytes (wrap32 (Int.ofNat (c.count ||| 0x80000000))),
      ptr_bytes h.sizeof_ptr (c.stackOut.take c.count)], b.length ≤ 1 <<< 20 := by
    intro b hb
    simp only [List.mem_cons, List.mem_singleton, List.not_mem_nil, or_false] at hb
    rcases hb with rfl | rfl | rfl | rfl
    · rw [le_bytes_length]; decide
    · rw [int_bytes_length]; decide
    · rw [int_bytes_length]; decide
    · rw [ptr_bytes_length, hlen]
      have h1 : c.count ≤ 2048 := hcount
      have h2 : h.sizeof_ptr * c.count ≤ 8 * 2048 := Nat.mul_le_mul hsz h1
      have h3 : (1 <<< 20 : Nat) = 1048576 := by decide
      omega
  obtain ⟨cs, h1, h2, h3⟩ := record_all_spec _ d hd hblocks
  refine ⟨cs, ?_, h2, ?_⟩
  · rw [← h1]
    cases hst : c.stack with
    | none => exact absurd hst hs
    | some sp =>
      simp only [read_thread_data, hp, hst, Bool.not_true, Bool.false_eq_true, if_false,
        record_all, and_then_assoc]
      cases record_data d (le_bytes 8 c.time) with
      | none => rfl
      | some d1 =>
        simp only [and_then]
        cases record_data d1 (int_bytes t.tid) with
        | none => rfl
        | some d2 =>
          simp only
          cases record_data d2 (int_bytes (wrap32 (Int.ofNat (c.count ||| 0x80000000)))) with
          | none => rfl
          | some d3 =>
            simp only
            cases record_data d3 (ptr_bytes h.sizeof_ptr (c.stackOut.take c.count)) <;> rfl
  · rw [h3]
    simp only [Record.bytes, Record.head, Record.eventId, hlen, List.flatten_cons,
      List.flatten_nil, List.append_nil, List.append_assoc]

/-- The log of `example_state` is the one left by the sampler and the event
recorder: a sample of thread 2 with the frames 7, 8 and 7 taken at time 1,
then the event 5 with payload `[0xAA, 0xBB]` recorded by thread 2 at time 3. -/
theorem example_state_recorded :
    ((read_thread_data example_host example_thread
        { paused := true, stack := some 4096, count := 3, stackOut := [7, 8, 7], time := 1 }
        (init example_debug)).bind
      (profile_event example_host 3 2 5 [0xAA, 0xBB] 2)).map (fun d => d.chunks)
      = some example_state.chunks := by
  rfl

/-! ## C2: two dumps in a row -/

/-- C2, the code at a failing input: the sampler appends one sample of thread
2 whose only frame, the address 7, resolves to the symbol `AB` of debug entry 3, and
`profile_dump` runs twice with nothing appended in between.  The record section
of the first file has the debug entry and the name of the frame; that of the
second file has the debug entry with the marker set and no name. -/
theorem profile_dump_twice_differs :
    (((read_thread_data example_host example_thread example_capture (init example_debug)).bind
        (profile_dump example_host)).bind fun d => d.dump_file).map (List.drop 12)
      = some [1, 0, 0, 0, 0, 0, 0, 0, 2, 0, 0, 0, 1, 0, 0, 128,
              5, 0, 0, 0, 9, 0, 0, 0, 2, 0, 0, 0, 65, 0, 66, 0] ∧
    ((((read_thread_data example_host example_thread example_capture (init example_debug)).bind
        (profile_dump example_host)).bind (profile_dump example_host)).bind
          fun d => d.dump_file).map (List.drop 12)
      = some [1, 0, 0, 0, 0, 0, 0, 0, 2, 0, 0, 0, 1, 0, 0, 128,
              5, 0, 0, 128, 9, 0, 0, 0] ∧
    (((read_thread_data example_host example_thread example_capture (init example_debug)).bind
        (profile_dump example_host)).map fun d => d.chunks)
      = (read_thread_data example_host example_thread example_capture (init example_debug)).map fun d => d.chunks := by
  refine ⟨by decide, by decide, by decide⟩

/-! ## The registry walk -/

/-- The function `read_thread_data` returns on every capture that it can
record, and touches nothing but the log. -/
theorem read_thread_data_ok (h : Host) (t : thread_handle) (c : Capture) (d : State)
    (hd : log_ok d.chunks) (hc : capture_ok c) (hsz : h.sizeof_ptr ≤ 8) :
    ∃ cs, read_thread_data h t c d = some { d with chunks := cs } ∧ log_ok cs := by
  by_cases hp : c.paused = true
  · by_cases hs : c.stack = none
    · exact ⟨d.chunks, by simp [read_thread_data, hp, hs], hd⟩
    · obtain ⟨cs, h1, h2, _⟩ := read_thread_data_spec h t c d hp hs hd hc.1 hsz hc.2
      exact ⟨cs, h1, h2⟩
  · exact ⟨d.chunks, by simp [read_thread_data, hp], hd⟩

/-- The loop of a registry walk: it returns, its handles are those of
`walk_handles`, and the captures only extend the log. -/
theorem walk_loop_spec (h : Host) (hsz : h.sizeof_ptr ≤ 8) (ts : List (hl_thread_info × Capture)) :
    ∀ (done cur opened : List thread_handle) (d : State), log_ok d.chunks →
      (∀ p ∈ ts, capture_ok p.2) →
      ∃ cs, walk_loop h ts done cur opened d
          = some (done ++ (walk_handles (ts.map Prod.fst) cur).1,
              (walk_handles (ts.map Prod.fst) cur).2.2,
              opened ++ (walk_handles (ts.map Prod.fst) cur).2.1,
              { d with chunks := cs }) ∧ log_ok cs := by
  induction ts with
  | nil =>
    intro done cur opened d hd _
    exact ⟨d.chunks, by simp [walk_loop, walk_handles], hd⟩
  | cons p ts ih =>
    intro done cur opened d hd hc
    obtain ⟨t, c⟩ := p
    have hcs : ∀ q ∈ ts, capture_ok q.2 := fun q hq => hc q (List.mem_cons_of_mem _ hq)
    have hcc : capture_ok c := hc (t, c) (List.mem_cons_self _ _)
    cases cur with
    | nil =>
      obtain ⟨cs1, h1, h2⟩ := read_thread_data_ok h (new_handle t) c d hd hcc hsz
      obtain ⟨cs, h3, h4⟩ := ih (done ++ [new_handle t]) [] (opened ++ [new_handle t])
        { d with chunks := cs1 } h2 hcs
      exact ⟨cs, by simp [walk_loop, walk_handles, h1, h3], h4⟩
    | cons x rest =>
      by_cases hx : x.tid ≠ t.thread_id
      · obtain ⟨cs1, h1, h2⟩ := read_thread_data_ok h (new_handle t) c d hd hcc hsz
        obtain ⟨cs, h3, h4⟩ := ih (done ++ [new_handle t]) (x :: rest)
          (opened ++ [new_handle t]) { d with chunks := cs1 } h2 hcs
        exact ⟨cs, by simp [walk_loop, walk_handles, hx, h1, h3], h4⟩
      · obtain ⟨cs1, h1, h2⟩ := read_thread_data_ok h x c d hd hcc hsz
        obtain ⟨cs, h3, h4⟩ := ih (done ++ [x]) rest opened { d with chunks := cs1 } h2 hcs
        exact ⟨cs, by simp [walk_loop, walk_handles, hx, h1, h3], h4⟩

/-- One registry walk: it returns, the handle list, the handles created and
the handles released are those of `walk_handles`, and nothing else changes but
the log. -/
theorem registry_walk_spec (h : Host) (hsz : h.sizeof_ptr ≤ 8)
    (threads : List (hl_thread_info × Capture)) (d : State) (hd : log_ok d.chunks)
    (hc : ∀ p ∈ threads, capture_ok p.2) :
    ∃ cs, registry_walk h threads d
        = some { data := { d with chunks := cs,
                                  handles := (walk_handles (threads.map Prod.fst) d.handles).1 },
                 opened := (walk_handles (threads.map Prod.fst) d.handles).2.1,
                 closed := (walk_handles (threads.map Prod.fst) d.handles).2.2 } ∧
      log_ok cs := by
  obtain ⟨cs, h1, h2⟩ := walk_loop_spec h hsz threads [] d.handles [] d hd hc
  exact ⟨cs, by simp [registry_walk, h1], h2⟩

/-- After a walk the handles are those of the live threads, in order. -/
theorem walk_handles_tids (ts : List hl_thread_info) :
    ∀ cur, (walk_handles ts cur).1.map thread_handle.tid = ts.map hl_thread_info.thread_id := by
  induction ts with
  | nil => intro cur; rfl
  | cons t ts ih =>
    intro cur
    cases cur with
    | nil => simp [walk_handles, new_handle, ih]
    | cons x rest =>
      by_cases hx : x.tid ≠ t.thread_id
      · simp [walk_handles, hx, new_handle, ih]
      · have hx' : x.tid = t.thread_id := by simpa using hx
        simp [walk_handles, hx', ih]

/-- The walk on a previous handle list in which the handles of the threads
that are still live, `kept`, come first, in the order of the live threads, and
the handles of the threads that are gone, `dead`, come last: `kept` stay, in
order, among the handles of the live threads, `dead` is what is left for
`thread_data_free`, and the handles created are for ids that `kept` does not
have. -/
theorem walk_handles_kept (ts : List hl_thread_info) :
    ∀ (kept dead : List thread_handle),
      (kept.map thread_handle.tid).Sublist (ts.map hl_thread_info.thread_id) →
      (∀ x ∈ dead, x.tid ∉ ts.map hl_thread_info.thread_id) →
      (ts.map hl_thread_info.thread_id).Nodup →
      (walk_handles ts (kept ++ dead)).2.2 = dead ∧
      kept.Sublist (walk_handles ts (kept ++ dead)).1 ∧
      (walk_handles ts (kept ++ dead)).1.length
        = kept.length + (walk_handles ts (kept ++ dead)).2.1.length ∧
      ∀ y ∈ (walk_handles ts (kept ++ dead)).2.1,
        y.tid ∉ kept.map thread_handle.tid ∧ y.tid ∈ ts.map hl_thread_info.thread_id := by
  induction ts with
  | nil =>
    intro kept dead hsub _ _
    have hk : kept = [] := by simpa using hsub
    subst hk
    simp [walk_handles]
  | cons t ts ih =>
    intro kept dead hsub hdead hnd
    have hnd' : (ts.map hl_thread_info.thread_id).Nodup := (List.nodup_cons.mp hnd).2
    have ht : t.thread_id ∉ ts.map hl_thread_info.thread_id := (List.nodup_cons.mp hnd).1
    have hdead' : ∀ x ∈ dead, x.tid ∉ ts.map hl_thread_info.thread_id := by
      intro x hx hmem
      exact hdead x hx (List.mem_cons_of_mem _ hmem)
    -- a new handle is created and the chain stays as it is
    have hnew : ∀ cur : List thread_handle,
        cur = kept ++ dead → (kept.map thread_handle.tid).Sublist (ts.map hl_thread_info.thread_id) →
        walk_handles (t :: ts) cur
          = (new_handle t :: (walk_handles ts cur).1, new_handle t :: (walk_handles ts cur).2.1,
              (walk_handles ts cur).2.2) →
        (walk_handles (t :: ts) cur).2.2 = dead ∧
        kept.Sublist (walk_handles (t :: ts) cur).1 ∧
        (walk_handles (t :: ts) cur).1.length
          = kept.length + (walk_handles (t :: ts) cur).2.1.length ∧
        ∀ y ∈ (walk_handles (t :: ts) cur).2.1,
          y.tid ∉ kept.map thread_handle.tid ∧
            y.tid ∈ (t :: ts).map hl_thread_info.thread_id := by
      intro cur hcur hsub' hw
      obtain ⟨h1, h2, h3, h4⟩ := ih kept dead hsub' hdead' hnd'
      rw [hw, hcur]
      refine ⟨h1, List.Sublist.cons _ h2, by simp [h3]; omega, ?_⟩
      intro y hy
      rcases List.mem_cons.mp hy with rfl | hy
      · refine ⟨?_, by simp [new_handle]⟩
        intro hmem
        exact ht (hsub'.subset hmem)
      · exact ⟨(h4 y hy).1, List.mem_cons_of_mem _ (h4 y hy).2⟩
    cases kept with
    | nil =>
      cases dead with
      | nil => exact hnew [] rfl (by simp) (by simp [walk_handles])
      | cons x rest =>
        have hx : x.tid ≠ t.thread_id := by
          intro he
          exact hdead x (List.mem_cons_self _ _) (by simp [he])
        exact hnew ([] ++ x :: rest) rfl (by simp) (by simp [walk_handles, hx])
    | cons x kept' =>
      by_cases hx : x.tid = t.thread_id
      · -- the handle under the cursor is kept
        have hsub' : (kept'.map thread_handle.tid).Sublist (ts.map hl_thread_info.thread_id) := by
          simp only [List.map_cons] at hsub
          rcases List.sublist_cons_iff.mp hsub with hskip | ⟨r, hr, hrest⟩
          · exfalso
            apply ht
            apply hskip.subset
            simp [hx]
          · simp only [List.cons.injEq] at hr
            rw [hr.2]
            exact hrest
        obtain ⟨h1, h2, h3, h4⟩ := ih kept' dead hsub' hdead' hnd'
        have hw : walk_handles (t :: ts) (x :: kept' ++ dead)
            = (x :: (walk_handles ts (kept' ++ dead)).1, (walk_handles ts (kept' ++ dead)).2.1,
                (walk_handles ts (kept' ++ dead)).2.2) := by
          simp [walk_handles, hx]
        rw [hw]
        refine ⟨h1, List.cons_sublist_cons.mpr h2, by simp [h3]; omega, ?_⟩
        intro y hy
        refine ⟨?_, List.mem_cons_of_mem _ (h4 y hy).2⟩
        intro hmem
        simp only [List.map_cons, List.mem_cons] at hmem
        rcases hmem with he | hmem
        · apply ht
          rw [← hx, ← he]
          exact (h4 y hy).2
        · exact (h4 y hy).1 hmem
      · have hsub' : ((x :: kept').map thread_handle.tid).Sublist
            (ts.map hl_thread_info.thread_id) := by
          simp only [List.map_cons] at hsub ⊢
          rcases List.sublist_cons_iff.mp hsub with hskip | ⟨r, hr, _⟩
          · exact hskip
          · simp only [List.cons.injEq] at hr
            exact absurd hr.1 hx
        exact hnew (x :: kept' ++ dead) rfl hsub' (by simp [walk_handles, hx])

/-! ## C18: the mirror equals the live list after a walk -/

/-- C18: for every previous handle list and every list of live threads, one
registry walk of `hl_profile_loop` returns and leaves a handle list with as many
entries as there are live threads, the i-th of which has the id of the i-th
live thread. -/
theorem registry_walk_mirror (h : Host) (hsz : h.sizeof_ptr ≤ 8)
    (threads : List (hl_thread_info × Capture)) (d : State) (hd : log_ok d.chunks)
    (hc : ∀ p ∈ threads, capture_ok p.2) :
    ∃ w, registry_walk h threads d = some w ∧
      w.data.handles.length = threads.length ∧
      w.data.handles.map thread_handle.tid = threads.map fun p => p.1.thread_id := by
  obtain ⟨cs, h1, _⟩ := registry_walk_spec h hsz threads d hd hc
  have htids := walk_handles_tids (threads.map Prod.fst) d.handles
  refine ⟨_, h1, ?_, ?_⟩
  · have := congrArg List.length htids
    simpa using this
  · simpa using htids

/-- Witness of C18: the walk of an empty handle list with two live threads. -/
theorem registry_walk_mirror_witness :
    (example_host.sizeof_ptr ≤ 8 ∧ log_ok (init example_debug).chunks ∧
      ∀ p ∈ [((⟨1, 10⟩ : hl_thread_info), example_capture), (⟨3, 30⟩, example_no_capture)],
        capture_ok p.2) ∧
    ∃ w, registry_walk example_host
        [(⟨1, 10⟩, example_capture), (⟨3, 30⟩, example_no_capture)] (init example_debug)
          = some w ∧
      w.data.handles.length
        = [((⟨1, 10⟩ : hl_thread_info), example_capture), (⟨3, 30⟩, example_no_capture)].length ∧
      w.data.handles.map thread_handle.tid
        = [((⟨1, 10⟩ : hl_thread_info), example_capture), (⟨3, 30⟩, example_no_capture)].map
            fun p => p.1.thread_id :=
  ⟨⟨by decide, by decide, by decide⟩,
    registry_walk_mirror example_host (by decide) _ (init example_debug) (by decide) (by decide)⟩

/-! ## C13: the lifecycle of a thread handle -/

/-- C13 (as amended): let the previous handle list be the handles `kept` of
the threads that are still live, in the order of the live-thread list, followed
by the handles `dead` of the threads that are no longer live, and let the ids
of the live threads be distinct.  Then one registry walk of `hl_profile_loop`
creates a handle only for a thread id that had no handle before the walk,
releases exactly the handles `dead`, and keeps every handle of `kept`: these
are, in order, among the handles of the new list, whose other entries are the
handles created. -/
theorem registry_walk_lifecycle (h : Host) (hsz : h.sizeof_ptr ≤ 8)
    (threads : List (hl_thread_info × Capture)) (d : State) (hd : log_ok d.chunks)
    (hc : ∀ p ∈ threads, capture_ok p.2) (kept dead : List thread_handle)
    (hold : d.handles = kept ++ dead)
    (hkept : (kept.map thread_handle.tid).Sublist (threads.map fun p => p.1.thread_id))
    (hdead : ∀ x ∈ dead, x.tid ∉ threads.map fun p => p.1.thread_id)
    (hnodup : (threads.map fun p => p.1.thread_id).Nodup) :
    ∃ w, registry_walk h threads d = some w ∧
      (∀ y ∈ w.opened, y.tid ∉ d.handles.map thread_handle.tid) ∧
      w.closed = dead ∧
      (∀ x ∈ w.closed, x.tid ∉ threads.map fun p => p.1.thread_id) ∧
      kept.Sublist w.data.handles ∧
      w.data.handles.length = kept.length + w.opened.length := by
  obtain ⟨cs, h1, _⟩ := registry_walk_spec h hsz threads d hd hc
  have hmap : (threads.map Prod.fst).map hl_thread_info.thread_id
      = threads.map fun p => p.1.thread_id := by simp
  obtain ⟨h2, h3, h4, h5⟩ := walk_handles_kept (threads.map Prod.fst) kept dead
    (by rw [hmap]; exact hkept) (by rw [hmap]; exact hdead) (by rw [hmap]; exact hnodup)
  rw [← hold] at h2 h3 h4 h5
  refine ⟨_, h1, ?_, h2, ?_, h3, h4⟩
  · intro y hy hmem
    rw [hold, List.map_append, List.mem_append] at hmem
    rcases hmem with hmem | hmem
    · exact (h5 y hy).1 hmem
    · obtain ⟨x, hx, hxy⟩ := List.mem_map.mp hmem
      apply hdead x hx
      rw [hxy, ← hmap]
      exact (h5 y hy).2
  · intro x hx
    exact hdead x (by rw [← h2]; exact hx)

/-- Witness of C13: the threads 1 and 2 have a handle, thread 2 is gone and
thread 3 is new. -/
theorem registry_walk_lifecycle_witness :
    (example_host.sizeof_ptr ≤ 8 ∧
      ({ init example_debug with handles := [⟨1, 10⟩, ⟨2, 20⟩] } : State).handles
        = [⟨1, 10⟩] ++ [⟨2, 20⟩] ∧
      (([⟨1, 10⟩] : List thread_handle).map thread_handle.tid).Sublist
        ([((⟨1, 10⟩ : hl_thread_info), example_no_capture), (⟨3, 30⟩, example_no_capture)].map
          fun p => p.1.thread_id)) ∧
    ∃ w, registry_walk example_host
        [(⟨1, 10⟩, example_no_capture), (⟨3, 30⟩, example_no_capture)]
        { init example_debug with handles := [⟨1, 10⟩, ⟨2, 20⟩] } = some w ∧
      (∀ y ∈ w.opened, y.tid ∉ ([⟨1, 10⟩, ⟨2, 20⟩] : List thread_handle).map thread_handle.tid) ∧
      w.closed = [⟨2, 20⟩] := by
  have hsub : (([⟨1, 10⟩] : List thread_handle).map thread_handle.tid).Sublist
      ([((⟨1, 10⟩ : hl_thread_info), example_no_capture), (⟨3, 30⟩, example_no_capture)].map
        fun p => p.1.thread_id) := by
    simp
  obtain ⟨w, h1, h2, h3, _⟩ := registry_walk_lifecycle example_host (by decide)
    [(⟨1, 10⟩, example_no_capture), (⟨3, 30⟩, example_no_capture)]
    { init example_debug with handles := [⟨1, 10⟩, ⟨2, 20⟩] } (by decide) (by decide)
    [⟨1, 10⟩] [⟨2, 20⟩] rfl hsub (by decide) (by decide)
  exact ⟨⟨by decide, rfl, hsub⟩, w, h1, h2, h3⟩

/-- Counterexample to C13 as stated: the threads 1, 2 and 3 have a handle and
thread 2 is gone.  The walk keeps the handle of thread 1, creates a handle for
thread 3, which had one, and releases the previous handle of thread 3, which is
still live, with that of thread 2. -/
theorem registry_walk_recreates_handle :
    (registry_walk example_host [(⟨1, 10⟩, example_no_capture), (⟨3, 30⟩, example_no_capture)]
        { init example_debug with handles := [⟨1, 10⟩, ⟨2, 20⟩, ⟨3, 30⟩] }).map
      (fun w => (w.data.handles, w.opened, w.closed))
      = some ([⟨1, 10⟩, ⟨3, 30⟩], [⟨3, 30⟩], [⟨2, 20⟩, ⟨3, 30⟩]) := by
  decide

/-! ## C14: a paused sampler does nothing -/

/-- C14: when `profiling_pause` is not zero, or the current time is before
the next deadline, one iteration of the body of the loop of `hl_profile_loop`
returns without a registry walk and without a capture: no handle is created or
released, the deadline and the profiler state are as they were, the log and
the handle list included, but for the flag `waitLoop`, which is cleared. -/
theorem loop_body_paused (h : Host) (fpu : Fpu) (now : Nat)
    (threads : List (hl_thread_info × Capture)) (v : LoopVars) (d : State)
    (hp : d.profiling_pause ≠ 0 ∨ fpu.lt now v.next = true) :
    ∃ w, loop_body h fpu now threads v d = some (v, w) ∧
      w.opened = [] ∧ w.closed = [] ∧ w.data = { d with waitLoop := false } ∧
      w.data.chunks = d.chunks ∧ w.data.handles = d.handles ∧ w.data.waitLoop = false := by
  refine ⟨{ data := { d with waitLoop := false }, opened := [], closed := [] }, ?_,
    rfl, rfl, rfl, rfl, rfl, rfl⟩
  unfold loop_body
  rcases hp with hp | hp
  · simp [hp]
  · simp [hp]

/-- Witness of C14: an iteration in which one exclusion is open and a thread
is live. -/
theorem loop_body_paused_witness :
    (({ init example_debug with profiling_pause := 1, waitLoop := true } : State).profiling_pause
        ≠ 0 ∨ (⟨fun a b => decide (a < b), fun a b => a + b⟩ : Fpu).lt 5 3 = true) ∧
    ∃ w, loop_body example_host ⟨fun a b => decide (a < b), fun a b => a + b⟩ 5
        [(⟨1, 10⟩, example_capture)] ⟨2, 3⟩
        { init example_debug with profiling_pause := 1, waitLoop := true } = some (⟨2, 3⟩, w) ∧
      w.opened = [] ∧ w.closed = [] ∧ w.data.chunks = [] ∧ w.data.handles = [] ∧
      w.data.waitLoop = false := by
  obtain ⟨w, h1, h2, h3, _, h5, h6, h7⟩ := loop_body_paused example_host
    ⟨fun a b => decide (a < b), fun a b => a + b⟩ 5 [(⟨1, 10⟩, example_capture)] ⟨2, 3⟩
    { init example_debug with profiling_pause := 1, waitLoop := true } (Or.inl (by decide))
  exact ⟨Or.inl (by decide), w, h1, h2, h3, h5, h6, h7⟩

/-! ## C19: the dump of an empty log -/

/-- C19: when no chunk has been allocated, `first_record` being `NULL`,
`profile_dump` returns at once: the file, the pause counter and all the rest of
the state are as they were; `hl_profile_end` then only sets the stop flag. -/
theorem profile_dump_empty (h : Host) (d : State) (he : d.first_record = none) :
    profile_dump h d = some d ∧
    hl_profile_end h d = some { d with stopLoop := true } := by
  have hc : d.chunks = [] := by
    simpa [State.first_record] using he
  have h1 : profile_dump h d = some d := by
    simp [profile_dump, hc]
  exact ⟨h1, by simp [hl_profile_end, h1]⟩

/-- Witness of C19: the dump and the end of a profiler that has recorded
nothing. -/
theorem profile_dump_empty_witness :
    (init example_debug).first_record = none ∧
    profile_dump example_host (init example_debug) = some (init example_debug) ∧
    hl_profile_end example_host (init example_debug)
      = some { init example_debug with stopLoop := true } :=
  ⟨rfl, profile_dump_empty example_host (init example_debug) rfl⟩

/-! ## Sequences of appends -/

/-- An event recorded by `profile_event` extends the log by the bytes of one
event record and leaves the rest of the state as it was, but for the flag of
the handshake. -/
theorem profile_event_spec (h : Host) (time : Nat) (thread_id code : Int) (ptr : List Byte)
    (d : State) (hcode : 0 ≤ code) (hd : log_ok d.chunks) (hp : is_int d.profiling_pause)
    (hn : ptr.length ≤ 1 <<< 20) :
    ∃ cs, profile_event h time thread_id code ptr (Int.ofNat ptr.length) d
        = some { d with waitLoop := false, chunks := cs } ∧ log_ok cs ∧
      stream cs = stream d.chunks
        ++ Record.bytes h.sizeof_ptr (.event time thread_id code ptr) := by
  have hblocks : ∀ b ∈ [le_bytes 8 time, int_bytes thread_id, int_bytes code,
      int_bytes ptr.length, ptr], b.length ≤ 1 <<< 20 := by
    intro b hb
    simp only [List.mem_cons, List.mem_singleton, List.not_mem_nil, or_false] at hb
    rcases hb with rfl | rfl | rfl | rfl | rfl
    · rw [le_bytes_length]; decide
    · rw [int_bytes_length]; decide
    · rw [int_bytes_length]; decide
    · rw [int_bytes_length]; decide
    · exact hn
  obtain ⟨cs, h1, h2, h3⟩ := record_all_spec _
    { d with profiling_pause := wrap32 (d.profiling_pause + 1), waitLoop := false } hd hblocks
  refine ⟨cs, ?_, h2, ?_⟩
  · have := profile_event_eq h time thread_id code ptr d hcode
    simp only [Int.ofNat_eq_coe] at this ⊢
    rw [this, h1]
    simp only [and_then, wrap32_inc_dec, wrap32_of_is_int _ hp]
  · rw [h3]
    simp [Record.bytes, Record.head, Record.eventId]

/-- A sequence of appends that write a record each: it returns, the log holds
the records in append order after what it held, and the counter, the debug
words, the file and the sample rate are as they were. -/
theorem run_appends_spec (h : Host) (hsz : h.sizeof_ptr ≤ 8) (as : List Append) :
    ∀ d : State, log_ok d.chunks → is_int d.profiling_pause →
      (∀ a ∈ as, Append.ok h.sizeof_ptr a) →
      ∃ d1, run_appends h d as = some d1 ∧ log_ok d1.chunks ∧
        stream d1.chunks = stream d.chunks ++ log_bytes h.sizeof_ptr (as.map Append.record) ∧
        d1.profiling_pause = d.profiling_pause ∧ d1.debug = d.debug ∧ d1.saved = d.saved ∧
        d1.sample_count = d.sample_count := by
  induction as with
  | nil =>
    intro d hd _ _
    exact ⟨d, rfl, hd, by simp [log_bytes], rfl, rfl, rfl, rfl⟩
  | cons a as ih =>
    intro d hd hp hok
    have hrest : ∀ x ∈ as, Append.ok h.sizeof_ptr x := fun x hx => hok x (List.mem_cons_of_mem _ hx)
    have ha := hok a (List.mem_cons_self _ _)
    cases a with
    | sample t c =>
      obtain ⟨hpa, hst, hcap, _⟩ := ha
      obtain ⟨cs, h1, h2, h3⟩ := read_thread_data_spec h t c d hpa hst hd hcap.1 hsz hcap.2
      obtain ⟨d1, h4, h5, h6, h7, h8, h9, h10⟩ := ih { d with chunks := cs } h2 hp hrest
      refine ⟨d1, by simp only [run_appends, h1, and_then, h4], h5, ?_, h7, h8, h9, h10⟩
      rw [h6, h3]
      simp [log_bytes, Append.record]
    | event time thread_id code ptr =>
      obtain ⟨hc0, _, hn⟩ := ha
      obtain ⟨cs, h1, h2, h3⟩ := profile_event_spec h time thread_id code ptr d hc0 hd hp hn
      obtain ⟨d1, h4, h5, h6, h7, h8, h9, h10⟩ := ih { d with waitLoop := false, chunks := cs }
        h2 hp hrest
      refine ⟨d1, by simp only [run_appends, h1, and_then, h4], h5, ?_, h7, h8, h9, h10⟩
      rw [h6, h3]
      simp [log_bytes, Append.record]

theorem append_record_ok (sz : Nat) (a : Append) (ha : Append.ok sz a) :
    Record.ok sz a.record := by
  cases a with
  | sample t c =>
    obtain ⟨_, _, hcap, hfr⟩ := ha
    refine ⟨?_, hfr⟩
    rw [List.length_take]
    exact Nat.le_trans (Nat.min_le_left _ _) hcap.1
  | event time thread_id code ptr =>
    obtain ⟨h0, h1, hn⟩ := ha
    refine ⟨h0, h1, ?_⟩
    have : (1 <<< 20 : Nat) = 1048576 := by decide
    omega

theorem num_samples_appends (as : List Append) :
    num_samples (as.map Append.record) = as.countP Append.is_sample := by
  induction as with
  | nil => rfl
  | cons a as ih =>
    cases a <;> simp [num_samples, Append.record, Append.is_sample, ih]

/-! ## Logs in which no block is split -/

theorem aligned_log_ok : ∀ (cs : List profile_data) (bs : List (List Byte)),
    aligned cs bs → log_ok cs := by
  intro cs
  induction cs with
  | nil => intro bs _ c hc; cases hc
  | cons x cs ih =>
    intro bs h c hc
    simp only [aligned] at h
    obtain ⟨hx, _, g, rest, _, _, hrest⟩ := h
    rcases List.mem_cons.mp hc with rfl | hc
    · exact hx
    · exact ih rest hrest c hc

theorem aligned_stream : ∀ (cs : List profile_data) (bs : List (List Byte)),
    aligned cs bs → stream cs = bs.flatten := by
  intro cs
  induction cs with
  | nil => intro bs h; simp only [aligned] at h; simp [stream, h]
  | cons x cs ih =>
    intro bs h
    simp only [aligned] at h
    obtain ⟨hx, _, g, rest, hbs, hdata, hrest⟩ := h
    have ht : x.data.take x.currentPos = x.data := List.take_of_length_le (by rw [hx.1])
    rw [stream, ht, ih rest hrest, hbs, List.flatten_append, hdata]

/-- Blocks of no byte in front of a chain. -/
theorem aligned_absorb (g : List (List Byte)) (hg : g.flatten = []) :
    ∀ (cs : List profile_data) (rest : List (List Byte)), aligned cs rest →
      aligned cs (g ++ rest) := by
  intro cs rest h
  cases cs with
  | nil =>
    simp only [aligned] at h ⊢
    simp [hg, h]
  | cons x cs =>
    simp only [aligned] at h ⊢
    obtain ⟨hx, hpos, g1, rest1, hbs, hdata, hrest⟩ := h
    exact ⟨hx, hpos, g ++ g1, rest1, by simp [hbs], by simp [hdata, hg], hrest⟩

/-- A block copied at the write cursor of the last chunk. -/
theorem aligned_extend_last (r : profile_data) (b : List Byte)
    (hfit : r.currentPos + b.length ≤ r.dataSize) :
    ∀ (xs : List profile_data) (bs : List (List Byte)), aligned (xs ++ [r]) bs →
      aligned (xs ++ [{ r with data := r.data ++ b, currentPos := r.currentPos + b.length }])
        (bs ++ [b]) := by
  intro xs
  induction xs with
  | nil =>
    intro bs h
    simp only [List.nil_append, aligned] at h ⊢
    obtain ⟨hc, hpos, g, rest, hbs, hdata, hrest⟩ := h
    refine ⟨⟨by simp [hc.1], hfit⟩, by omega, g ++ rest ++ [b], [], by simp [hbs], ?_, rfl⟩
    simp [hdata, hrest]
  | cons x xs ih =>
    intro bs h
    simp only [List.cons_append, aligned] at h ⊢
    obtain ⟨hc, hpos, g, rest, hbs, hdata, hrest⟩ := h
    exact ⟨hc, hpos, g, rest ++ [b], by simp [hbs], hdata, ih rest hrest⟩

/-- A block copied to a new chunk at the end of the chain. -/
theorem aligned_new_chunk (b : List Byte) (hb : b ≠ []) (hsz : b.length ≤ 1 <<< 20) :
    ∀ (cs : List profile_data) (bs : List (List Byte)), aligned cs bs →
      aligned (cs ++ [⟨b.length, 1 <<< 20, b⟩]) (bs ++ [b]) := by
  intro cs
  induction cs with
  | nil =>
    intro bs h
    simp only [List.nil_append, aligned] at h ⊢
    refine ⟨⟨rfl, hsz⟩, List.length_pos.mpr hb, bs ++ [b], [], by simp, ?_, rfl⟩
    simp [h]
  | cons x xs ih =>
    intro bs h
    simp only [List.cons_append, aligned] at h ⊢
    obtain ⟨hc, hpos, g, rest, hbs, hdata, hrest⟩ := h
    exact ⟨hc, hpos, g, rest ++ [b], by simp [hbs], hdata, ih rest hrest⟩

/-- An append to a log in which no block is split: the block is not split
either. -/
theorem record_data_aligned (d : State) (b : List Byte) (bs : List (List Byte))
    (ha : aligned d.chunks bs) (hsz : b.length ≤ 1 <<< 20) (hne : d.chunks = [] → b ≠ []) :
    ∃ cs, record_data d b = some { d with chunks := cs } ∧ aligned cs (bs ++ [b]) ∧ cs ≠ [] := by
  have hd := aligned_log_ok _ _ ha
  rcases record_data_cases d b hd hsz with ⟨r, hl, hfit, h⟩ | ⟨hall, h⟩
  · have hsplit : d.chunks.dropLast ++ [r] = d.chunks := List.dropLast_append_getLast? r hl
    refine ⟨_, h, ?_, by simp⟩
    apply aligned_extend_last r b hfit
    rw [hsplit]
    exact ha
  · refine ⟨_, h, ?_, by simp⟩
    apply aligned_new_chunk b ?_ hsz _ _ ha
    by_cases he : d.chunks = []
    · exact hne he
    · obtain ⟨r, hr⟩ : ∃ r, d.chunks.getLast? = some r := by
        cases hl : d.chunks.getLast? with
        | none => exact absurd (List.getLast?_eq_none_iff.mp hl) he
        | some r => exact ⟨r, rfl⟩
      have h1 := hall r (by rw [hr]; rfl)
      have h2 := hd r (List.mem_of_getLast?_eq_some hr)
      intro hb
      rw [hb] at h1
      simp at h1
      omega

/-- A sequence of appends to a log in which no block is split. -/
theorem record_all_aligned (blocks : List (List Byte)) :
    ∀ (d : State) (bs : List (List Byte)), aligned d.chunks bs →
      (∀ b ∈ blocks, b.length ≤ 1 <<< 20) → (d.chunks = [] → ∀ b ∈ blocks.head?, b ≠ []) →
      ∃ cs, record_all d blocks = some { d with chunks := cs } ∧ aligned cs (bs ++ blocks) ∧
        (blocks ≠ [] → cs ≠ []) := by
  induction blocks with
  | nil =>
    intro d bs ha _ _
    exact ⟨d.chunks, rfl, by simpa using ha, fun h => absurd rfl h⟩
  | cons b blocks ih =>
    intro d bs ha hsz hne
    obtain ⟨cs, h1, h2, h3⟩ := record_data_aligned d b bs ha (hsz b (List.mem_cons_self _ _))
      (fun he => hne he b (by simp))
    obtain ⟨cs2, h4, h5, _⟩ := ih { d with chunks := cs } (bs ++ [b]) h2
      (fun x hx => hsz x (List.mem_cons_of_mem _ hx)) (fun he => absurd he h3)
    refine ⟨cs2, by simp [record_all, and_then, h1, h4], by simpa using h5, fun _ hc => ?_⟩
    subst hc
    have hlog := aligned_log_ok _ _ h2
    have hs := aligned_stream _ _ h5
    have hs2 := aligned_stream _ _ h2
    have hlen : 0 < (stream cs).length := by
      cases cs with
      | nil => exact absurd rfl h3
      | cons x xs =>
        simp only [aligned] at h2
        have ht : x.data.take x.currentPos = x.data := List.take_of_length_le (by rw [h2.1.1])
        simp only [stream, ht, List.length_append]
        have := h2.1.1
        have := h2.2.1
        omega
    rw [hs2] at hlen
    simp only [stream] at hs
    have : ((bs ++ [b]) ++ blocks).flatten.length = 0 := by rw [← hs]; rfl
    simp only [List.flatten_append, List.length_append] at this hlen
    omega

theorem record_blocks_flatten (sz : Nat) (x : Record) :
    (Record.blocks sz x).flatten = Record.bytes sz x := by
  cases x <;> simp [Record.blocks, Record.bytes, Record.head, Record.eventId]

theorem log_blocks_flatten (sz : Nat) (rs : List Record) :
    (log_blocks sz rs).flatten = log_bytes sz rs := by
  induction rs with
  | nil => rfl
  | cons x rs ih =>
    simp only [log_blocks, log_bytes, List.map_cons, List.flatten_cons, List.flatten_append] at ih ⊢
    rw [ih, record_blocks_flatten]

/-- The appends of `read_thread_data` on a thread that has been paused and
whose stack pointer has been read. -/
theorem read_thread_data_eq (h : Host) (t : thread_handle) (c : Capture) (d : State)
    (hp : c.paused = true) (hs : c.stack ≠ none) :
    read_thread_data h t c d = record_all d (sample_fields h t c) := by
  cases hst : c.stack with
  | none => exact absurd hst hs
  | some sp =>
    simp only [read_thread_data, hp, hst, Bool.not_true, Bool.false_eq_true, if_false,
      record_all, and_then_assoc, sample_fields]
    cases record_data d (le_bytes 8 c.time) with
    | none => rfl
    | some d1 =>
      simp only [and_then]
      cases record_data d1 (int_bytes t.tid) with
      | none => rfl
      | some d2 =>
        simp only
        cases record_data d2 (int_bytes (wrap32 (Int.ofNat (c.count ||| 0x80000000)))) with
        | none => rfl
        | some d3 =>
          simp only
          cases record_data d3 (ptr_bytes h.sizeof_ptr (c.stackOut.take c.count)) <;> rfl

theorem sample_fields_blocks (h : Host) (t : thread_handle) (c : Capture)
    (hout : c.count ≤ c.stackOut.length) :
    sample_fields h t c
      = Record.blocks h.sizeof_ptr (.sample c.time t.tid (c.stackOut.take c.count)) := by
  have hlen : (c.stackOut.take c.count).length = c.count := by
    rw [List.length_take]; omega
  simp only [sample_fields, Record.blocks, Record.eventId, hlen]

theorem sample_fields_small (h : Host) (t : thread_handle) (c : Capture)
    (hcount : c.count ≤ MAX_STACK_COUNT) (hsz : h.sizeof_ptr ≤ 8)
    (hout : c.count ≤ c.stackOut.length) :
    ∀ b ∈ sample_fields h t c, b.length ≤ 1 <<< 20 := by
  have hlen : (c.stackOut.take c.count).length = c.count := by
    rw [List.length_take]; omega
  intro b hb
  simp only [sample_fields, List.mem_cons, List.mem_singleton, List.not_mem_nil, or_false] at hb
  rcases hb with rfl | rfl | rfl | rfl
  · rw [le_bytes_length]; decide
  · rw [int_bytes_length]; decide
  · rw [int_bytes_length]; decide
  · rw [ptr_bytes_length, hlen]
    have h1 : c.count ≤ 2048 := hcount
    have h2 : h.sizeof_ptr * c.count ≤ 8 * 2048 := Nat.mul_le_mul hsz h1
    have h3 : (1 <<< 20 : Nat) = 1048576 := by decide
    omega

/-- A sample recorded by `read_thread_data` in a log in which no block is
split: its four blocks are not split either. -/
theorem read_thread_data_aligned (h : Host) (t : thread_handle) (c : Capture) (d : State)
    (bs : List (List Byte)) (hp : c.paused = true) (hs : c.stack ≠ none)
    (ha : aligned d.chunks bs) (hcount : c.count ≤ MAX_STACK_COUNT) (hsz : h.sizeof_ptr ≤ 8)
    (hout : c.count ≤ c.stackOut.length) :
    ∃ cs, read_thread_data h t c d = some { d with chunks := cs } ∧ cs ≠ [] ∧
      aligned cs (bs ++ Record.blocks h.sizeof_ptr
        (.sample c.time t.tid (c.stackOut.take c.count))) := by
  obtain ⟨cs, h1, h2, h3⟩ := record_all_aligned (sample_fields h t c) d bs ha
    (sample_fields_small h t c hcount hsz hout)
    (by
      intro _ b hb
      simp only [sample_fields, List.head?_cons, Option.mem_def, Option.some.injEq] at hb
      subst hb
      intro he
      have := congrArg List.length he
      rw [le_bytes_length] at this
      cases this)
  refine ⟨cs, by rw [read_thread_data_eq h t c d hp hs, h1], h3 (by simp [sample_fields]), ?_⟩
  rw [← sample_fields_blocks h t c hout]
  exact h2

/-- An event recorded by `profile_event` in a log in which no block is split:
its five blocks are not split either. -/
theorem profile_event_aligned (h : Host) (time : Nat) (thread_id code : Int) (ptr : List Byte)
    (d : State) (bs : List (List Byte)) (hcode : 0 ≤ code) (ha : aligned d.chunks bs)
    (hp : is_int d.profiling_pause) (hn : ptr.length ≤ 1 <<< 20) :
    ∃ cs, profile_event h time thread_id code ptr (Int.ofNat ptr.length) d
        = some { d with waitLoop := false, chunks := cs } ∧ cs ≠ [] ∧
      aligned cs (bs ++ Record.blocks h.sizeof_ptr (.event time thread_id code ptr)) := by
  have hblocks : ∀ b ∈ [le_bytes 8 time, int_bytes thread_id, int_bytes code,
      int_bytes ptr.length, ptr], b.length ≤ 1 <<< 20 := by
    intro b hb
    simp only [List.mem_cons, List.mem_singleton, List.not_mem_nil, or_false] at hb
    rcases hb with rfl | rfl | rfl | rfl | rfl
    · rw [le_bytes_length]; decide
    · rw [int_bytes_length]; decide
    · rw [int_bytes_length]; decide
    · rw [int_bytes_length]; decide
    · exact hn
  obtain ⟨cs, h1, h2, h3⟩ := record_all_aligned _
    { d with profiling_pause := wrap32 (d.profiling_pause + 1), waitLoop := false } bs ha hblocks
    (by
      intro _ b hb
      simp only [List.head?_cons, Option.mem_def, Option.some.injEq] at hb
      subst hb
      intro he
      have := congrArg List.length he
      rw [le_bytes_length] at this
      cases this)
  refine ⟨cs, ?_, h3 (by simp), ?_⟩
  · have := profile_event_eq h time thread_id code ptr d hcode
    simp only [Int.ofNat_eq_coe] at this ⊢
    rw [this, h1]
    simp only [and_then, wrap32_inc_dec, wrap32_of_is_int _ hp]
  · simpa [Record.blocks] using h2

/-- A sequence of appends that write a record each, on a log in which no block
is split: it returns, no block of the records is split, and the counter, the
debug words, the file and the sample rate are as they were. -/
theorem run_appends_aligned (h : Host) (hsz : h.sizeof_ptr ≤ 8) (as : List Append) :
    ∀ (d : State) (bs : List (List Byte)), aligned d.chunks bs → is_int d.profiling_pause →
      (∀ a ∈ as, Append.ok h.sizeof_ptr a) →
      ∃ d1, run_appends h d as = some d1 ∧
        aligned d1.chunks (bs ++ log_blocks h.sizeof_ptr (as.map Append.record)) ∧
        (as ≠ [] → d1.chunks ≠ []) ∧
        d1.profiling_pause = d.profiling_pause ∧ d1.debug = d.debug ∧ d1.saved = d.saved ∧
        d1.sample_count = d.sample_count := by
  induction as with
  | nil =>
    intro d bs ha _ _
    exact ⟨d, rfl, by simpa [log_blocks] using ha, fun hne => absurd rfl hne, rfl, rfl, rfl, rfl⟩
  | cons a as ih =>
    intro d bs ha hp hok
    have hrest : ∀ x ∈ as, Append.ok h.sizeof_ptr x := fun x hx => hok x (List.mem_cons_of_mem _ hx)
    have hfirst := hok a (List.mem_cons_self _ _)
    cases a with
    | sample t c =>
      obtain ⟨hpa, hst, hcap, _⟩ := hfirst
      obtain ⟨cs, h1, h2, h3⟩ := read_thread_data_aligned h t c d bs hpa hst ha hcap.1 hsz hcap.2
      obtain ⟨d1, h4, h5, h6, h7, h8, h9, h10⟩ := ih { d with chunks := cs } _ h3 hp hrest
      refine ⟨d1, by simp only [run_appends, h1, and_then, h4], ?_, ?_, h7, h8, h9, h10⟩
      · simpa [log_blocks, Append.record] using h5
      · intro _
        by_cases hne : as = []
        · subst hne
          simp only [run_appends, Option.some.injEq] at h4
          subst h4
          exact h2
        · exact h6 hne
    | event time thread_id code ptr =>
      obtain ⟨hc0, _, hn⟩ := hfirst
      obtain ⟨cs, h1, h2, h3⟩ := profile_event_aligned h time thread_id code ptr d bs hc0 ha hp hn
      obtain ⟨d1, h4, h5, h6, h7, h8, h9, h10⟩ := ih { d with waitLoop := false, chunks := cs } _
        h3 hp hrest
      refine ⟨d1, by simp only [run_appends, h1, and_then, h4], ?_, ?_, h7, h8, h9, h10⟩
      · simpa [log_blocks, Append.record] using h5
      · intro _
        by_cases hne : as = []
        · subst hne
          simp only [run_appends, Option.some.injEq] at h4
          subst h4
          exact h2
        · exact h6 hne

/-- The chain that a sequence of appends builds from the empty log: no block of
its records is split. -/
theorem log_of_aligned (h : Host) (hsz : h.sizeof_ptr ≤ 8) (as : List Append)
    (cs : List profile_data) (hok : ∀ a ∈ as, Append.ok h.sizeof_ptr a)
    (hlog : log_of h as = some cs) :
    aligned cs (log_blocks h.sizeof_ptr (as.map Append.record)) ∧ (as ≠ [] → cs ≠ []) := by
  obtain ⟨d1, h1, h2, h3, _⟩ := run_appends_aligned h hsz as (init fun _ => (0, 0)) []
    (by simp [init, aligned]) (by simp [init, is_int]) hok
  simp only [log_of, h1, Option.map_some', Option.some.injEq] at hlog
  subst hlog
  exact ⟨by simpa using h2, h3⟩

/-! ## The dump of a log in which no block is split -/

theorem aligned_in_front (cs : List profile_data) (bs : List (List Byte)) (h : aligned cs bs) :
    in_front ⟨cs, 0⟩ bs := by
  cases cs with
  | nil => simpa only [in_front, aligned] using h
  | cons c cs =>
    simp only [aligned] at h
    obtain ⟨hc, hpos, g, rest, hbs, hdata, hrest⟩ := h
    exact ⟨hc, hpos, g, rest, hbs, by simpa using hdata, hrest⟩

/-- A read of the block that is in front of the reader: it is served by one
copy, and the reader is then in front of the blocks that follow. -/
theorem read_block (r : profile_reader) (b : List Byte) (bs : List (List Byte))
    (h : in_front r (b :: bs)) :
    ∃ r1, read_profile_data r b.length = some (true, r1, b.map some) ∧ in_front r1 bs := by
  obtain ⟨cs, pos⟩ := r
  cases cs with
  | nil =>
    simp only [in_front, List.flatten_cons, List.append_eq_nil] at h
    obtain ⟨hb, hbs⟩ := h
    subst hb
    exact ⟨⟨[], pos⟩, read_zero _, by simpa only [in_front] using hbs⟩
  | cons c cs =>
    simp only [in_front] at h
    obtain ⟨hc, hpos, g, rest, hbs, hdata, hrest⟩ := h
    have hlen : (c.data.drop pos).length = c.currentPos - pos := by simp [hc.1]
    cases g with
    | nil =>
      rw [hdata] at hlen
      simp at hlen
      omega
    | cons b1 g1 =>
      simp only [List.cons_append, List.cons.injEq] at hbs
      obtain ⟨rfl, rfl⟩ := hbs
      simp only [List.flatten_cons] at hdata
      by_cases hb : b = []
      · subst hb
        exact ⟨⟨c :: cs, pos⟩, read_zero _, hc, hpos, g1, rest, rfl, by simpa using hdata, hrest⟩
      · have hn : 0 < b.length := List.length_pos.mpr hb
        have hfit : pos + b.length ≤ c.currentPos := by
          rw [hdata, List.length_append] at hlen
          omega
        have htake : (c.data.drop pos).take b.length = b := by
          rw [hdata, List.take_left']
          rfl
        refine ⟨_, by rw [read_within c cs pos b.length hc hn hfit, htake], ?_⟩
        have hdrop : c.data.drop (pos + b.length) = g1.flatten := by
          rw [← List.drop_drop, hdata, List.drop_left']
          rfl
        by_cases hend : pos + b.length = c.currentPos
        · rw [if_pos hend]
          have hg : g1.flatten = [] := by
            apply List.eq_nil_of_length_eq_zero
            rw [← hdrop, List.length_drop, hc.1]
            omega
          exact aligned_in_front _ _ (aligned_absorb g1 hg cs rest hrest)
        · rw [if_neg hend]
          exact ⟨hc, by show pos + b.length < c.currentPos; omega, g1, rest, rfl, hdrop, hrest⟩

/-- A read at the end of a log. -/
theorem read_at_end (r : profile_reader) (n : Nat) (hn : 0 < n) (h : in_front r []) :
    read_profile_data r n = some (false, r, List.replicate n none) := by
  obtain ⟨cs, pos⟩ := r
  cases cs with
  | nil => exact read_end pos n hn
  | cons c cs =>
    simp only [in_front] at h
    obtain ⟨hc, hpos, g, rest, hbs, hdata, _⟩ := h
    have hg : g = [] := (List.append_eq_nil.mp hbs.symm).1
    subst hg
    have hlen : (c.data.drop pos).length = c.currentPos - pos := by simp [hc.1]
    rw [hdata] at hlen
    simp at hlen
    omega

/-- The payload loop of `profile_dump` on a payload that is in front of the
reader and fits the scratch area. -/
theorem dump_payload_block (r : profile_reader) (p : List Byte) (bs : List (List Byte))
    (f : List Byte) (h : in_front r (p :: bs)) (hp : p.length ≤ MAX_STACK_SIZE) :
    ∃ r1, dump_payload (p.length + 1) r p.length f = some (r1, f ++ p) ∧ in_front r1 bs := by
  obtain ⟨r1, h1, h2⟩ := read_block r p bs h
  by_cases h0 : p.length = 0
  · have hnil : p = [] := List.length_eq_zero.mp h0
    subst hnil
    simp only [List.length_nil] at h1
    rw [read_zero] at h1
    simp only [Option.some.injEq, Prod.mk.injEq, true_and] at h1
    obtain ⟨rfl, _⟩ := h1
    exact ⟨r, by simp [dump_payload], h2⟩
  · obtain ⟨k, hk⟩ : ∃ k, p.length = k + 1 := ⟨p.length - 1, by omega⟩
    refine ⟨r1, ?_, h2⟩
    have hbig : ¬ p.length > MAX_STACK_SIZE := by omega
    rw [dump_payload]
    simp only [h0, if_false, hbig, h1, load_map_some, Nat.sub_self]
    rw [hk, dump_payload]
    simp

/-- One iteration of the main loop of `profile_dump` in which the `eventId`
read is negative. -/
theorem dump_record_neg (h : Host) (r r1 r2 r3 r4 : profile_reader)
    (dbg : Nat → Nat × Nat) (f : List Byte) (samples : Nat) (t i e s : List Byte) (count : Nat)
    (b2 b3 b4 : Bool)
    (h1 : read_profile_data r 8 = some (true, r1, t.map some))
    (h2 : read_profile_data r1 4 = some (b2, r2, i.map some))
    (h3 : read_profile_data r2 4 = some (b3, r3, e.map some)) (hneg : bytes_int e < 0)
    (hlow : le_value e &&& 0x7FFFFFFF = count) (hcount : count ≤ MAX_STACK_COUNT)
    (h4 : read_profile_data r3 (h.sizeof_ptr * count) = some (b4, r4, s.map some)) :
    dump_record h r dbg f samples
      = some (some (r4, mark_frames h (ptr_array h.sizeof_ptr count s) dbg,
          f ++ t ++ i ++ e ++ (frame_entries h (ptr_array h.sizeof_ptr count s) dbg).flatten,
          samples + 1)) := by
  unfold dump_record
  simp only [h1, h2, h3, load_map_some, hneg, if_true, hlow, Nat.not_lt.mpr hcount, if_false, h4,
    dump_frames_spec]

/-- One iteration of the main loop of `profile_dump` in which the `eventId`
read is not negative. -/
theorem dump_record_pos (h : Host) (r r1 r2 r3 r4 r5 : profile_reader)
    (dbg : Nat → Nat × Nat) (f f2 : List Byte) (samples : Nat) (t i e z : List Byte)
    (b2 b3 b4 : Bool)
    (h1 : read_profile_data r 8 = some (true, r1, t.map some))
    (h2 : read_profile_data r1 4 = some (b2, r2, i.map some))
    (h3 : read_profile_data r2 4 = some (b3, r3, e.map some)) (hpos : ¬ bytes_int e < 0)
    (h4 : read_profile_data r3 4 = some (b4, r4, z.map some)) (hz : ¬ bytes_int z < 0)
    (h5 : dump_payload (le_value z + 1) r4 (le_value z) (f ++ t ++ i ++ e ++ z) = some (r5, f2)) :
    dump_record h r dbg f samples = some (some (r5, dbg, f2, samples)) := by
  unfold dump_record
  simp only [h1, h2, h3, load_map_some, hpos, if_false, h4, hz, h5]

/-- One iteration of the main loop of `profile_dump` on a sample whose blocks
are in front of the reader. -/
theorem dump_record_sample (h : Host) (r : profile_reader) (dbg : Nat → Nat × Nat)
    (f : List Byte) (samples : Nat) (time : Nat) (tid : Int) (frames : List Nat)
    (rest : List (List Byte))
    (hr : in_front r (Record.blocks h.sizeof_ptr (.sample time tid frames) ++ rest))
    (hok : Record.ok h.sizeof_ptr (.sample time tid frames)) :
    ∃ r4, in_front r4 rest ∧
      dump_record h r dbg f samples
        = some (some (r4, mark_frames h frames dbg,
            f ++ Record.head (.sample time tid frames) ++ (frame_entries h frames dbg).flatten,
            samples + 1)) := by
  obtain ⟨hcount, hfr⟩ := hok
  obtain ⟨hneg, hlow⟩ := sample_eventId frames.length hcount
  have hhead : Record.head (.sample time tid frames) = le_bytes 8 time ++ int_bytes tid ++
      int_bytes (wrap32 (Int.ofNat (frames.length ||| 0x80000000))) := rfl
  have hblocks : Record.blocks h.sizeof_ptr (.sample time tid frames) ++ rest
      = le_bytes 8 time :: int_bytes tid ::
          int_bytes (wrap32 (Int.ofNat (frames.length ||| 0x80000000))) ::
          ptr_bytes h.sizeof_ptr frames :: rest := rfl
  rw [hblocks] at hr
  generalize wrap32 (Int.ofNat (frames.length ||| 0x80000000)) = eid at hneg hlow hhead hr
  obtain ⟨r1, h1, hr1⟩ := read_block r _ _ hr
  obtain ⟨r2, h2, hr2⟩ := read_block r1 _ _ hr1
  obtain ⟨r3, h3, hr3⟩ := read_block r2 _ _ hr2
  obtain ⟨r4, h4, hr4⟩ := read_block r3 _ _ hr3
  rw [le_bytes_length] at h1
  rw [int_bytes_length] at h2 h3
  rw [ptr_bytes_length] at h4
  refine ⟨r4, hr4, ?_⟩
  rw [dump_record_neg h r r1 r2 r3 r4 dbg f samples _ _ _ _ _ _ _ _ h1 h2 h3 hneg hlow hcount h4,
    ptr_array_ptr_bytes _ _ hfr, hhead]
  simp only [List.append_assoc]

/-- One iteration of the main loop of `profile_dump` on an event whose blocks
are in front of the reader and whose payload fits the scratch area. -/
theorem dump_record_event (h : Host) (r : profile_reader) (dbg : Nat → Nat × Nat)
    (f : List Byte) (samples : Nat) (time : Nat) (tid code : Int) (payload : List Byte)
    (rest : List (List Byte))
    (hr : in_front r (Record.blocks h.sizeof_ptr (.event time tid code payload) ++ rest))
    (hok : Record.ok h.sizeof_ptr (.event time tid code payload))
    (hfit : payload.length ≤ MAX_STACK_SIZE) :
    ∃ r5, in_front r5 rest ∧
      dump_record h r dbg f samples
        = some (some (r5, dbg,
            f ++ Record.head (.event time tid code payload)
              ++ int_bytes (Int.ofNat payload.length) ++ payload,
            samples)) := by
  obtain ⟨hc0, hc1, hlen⟩ := hok
  have hpos := event_eventId code hc0 hc1
  obtain ⟨hsz0, hsz1⟩ := event_size payload.length hlen
  have hhead : Record.head (.event time tid code payload) = le_bytes 8 time ++ int_bytes tid ++
      int_bytes code := rfl
  have hblocks : Record.blocks h.sizeof_ptr (.event time tid code payload) ++ rest
      = le_bytes 8 time :: int_bytes tid :: int_bytes code ::
          int_bytes (Int.ofNat payload.length) :: payload :: rest := rfl
  rw [hblocks] at hr
  obtain ⟨r1, h1, hr1⟩ := read_block r _ _ hr
  obtain ⟨r2, h2, hr2⟩ := read_block r1 _ _ hr1
  obtain ⟨r3, h3, hr3⟩ := read_block r2 _ _ hr2
  obtain ⟨r4, h4, hr4⟩ := read_block r3 _ _ hr3
  rw [le_bytes_length] at h1
  rw [int_bytes_length] at h2 h3 h4
  obtain ⟨r5, h5, hr5⟩ := dump_payload_block r4 payload rest
    (f ++ le_bytes 8 time ++ int_bytes tid ++ int_bytes code ++
      int_bytes (Int.ofNat payload.length)) hr4 hfit
  refine ⟨r5, hr5, ?_⟩
  rw [← hsz1] at h5
  rw [dump_record_pos h r r1 r2 r3 r4 r5 dbg f _ samples _ _ _ _ _ _ _ h1 h2 h3 hpos h4 hsz0
    (by rw [hsz1] at h5 ⊢; exact h5), hhead]
  simp only [List.append_assoc]

/-- The main loop of `profile_dump` at the end of the log: it is left. -/
theorem dump_record_end (h : Host) (r : profile_reader) (dbg : Nat → Nat × Nat)
    (f : List Byte) (samples : Nat) (hr : in_front r []) :
    dump_record h r dbg f samples = some none := by
  unfold dump_record
  rw [read_at_end r 8 (by decide) hr]

/-- The main loop of `profile_dump` on a reader in front of the blocks of the
records `rs`, the payload of every event of which fits the scratch area: with
fuel for one iteration per record and one more, it writes the record section
laid out by `layout`, marks the debug words of the frames it has resolved and
counts the samples. -/
theorem dump_loop_blocks (h : Host) (rs : List Record) :
    ∀ (fuel : Nat) (r : profile_reader) (dbg : Nat → Nat × Nat) (f : List Byte) (samples : Nat),
      in_front r (log_blocks h.sizeof_ptr rs) →
      (∀ x ∈ rs, Record.ok h.sizeof_ptr x) →
      (∀ time tid code payload, Record.event time tid code payload ∈ rs →
        payload.length ≤ MAX_STACK_SIZE) →
      rs.length < fuel →
      dump_loop h fuel r dbg f samples
        = some (mark_frames h (all_frames rs) dbg,
            f ++ layout rs (frame_entries h (all_frames rs) dbg),
            samples + num_samples rs) := by
  induction rs with
  | nil =>
    intro fuel r dbg f samples hr _ _ hf
    obtain ⟨fuel, rfl⟩ : ∃ k, fuel = k + 1 := ⟨fuel - 1, by simp at hf; omega⟩
    rw [dump_loop, dump_record_end h r dbg f samples hr]
    simp [mark_frames, all_frames, layout, num_samples]
  | cons x rs ih =>
    intro fuel r dbg f samples hr hok hpay hf
    obtain ⟨fuel, rfl⟩ : ∃ k, fuel = k + 1 := ⟨fuel - 1, by simp at hf; omega⟩
    have hrs : ∀ y ∈ rs, Record.ok h.sizeof_ptr y := fun y hy => hok y (List.mem_cons_of_mem _ hy)
    have hpay1 : ∀ time tid code payload, Record.event time tid code payload ∈ rs →
        payload.length ≤ MAX_STACK_SIZE :=
      fun time tid code payload hm => hpay time tid code payload (List.mem_cons_of_mem _ hm)
    have hfuel : rs.length < fuel := by simp at hf; omega
    have hx := hok x (List.mem_cons_self _ _)
    have hr1 : in_front r (Record.blocks h.sizeof_ptr x ++ log_blocks h.sizeof_ptr rs) := hr
    cases x with
    | sample time tid frames =>
      obtain ⟨r4, hr4, hstep⟩ := dump_record_sample h r dbg f samples time tid frames _ hr1 hx
      rw [dump_loop, hstep]
      simp only
      rw [ih fuel r4 _ _ _ hr4 hrs hpay1 hfuel]
      simp only [all_frames, layout, mark_frames_append, frame_entries_append, num_samples,
        List.take_left' (frame_entries_length h frames dbg),
        List.drop_left' (frame_entries_length h frames dbg), List.append_assoc]
      rw [Nat.add_assoc, Nat.add_comm 1]
    | event time tid code payload =>
      obtain ⟨r5, hr5, hstep⟩ := dump_record_event h r dbg f samples time tid code payload _ hr1
        hx (hpay time tid code payload (List.mem_cons_self _ _))
      rw [dump_loop, hstep]
      simp only
      rw [ih fuel r5 _ _ _ hr5 hrs hpay1 hfuel]
      simp only [all_frames, layout, num_samples, List.append_assoc]

/-- The main loop of `profile_dump` has not left before it has gone through
every record: with fuel for as many iterations as there are records, it is
still running. -/
theorem dump_loop_short (h : Host) (rs : List Record) :
    ∀ (fuel : Nat) (r : profile_reader) (dbg : Nat → Nat × Nat) (f : List Byte) (samples : Nat),
      in_front r (log_blocks h.sizeof_ptr rs) →
      (∀ x ∈ rs, Record.ok h.sizeof_ptr x) →
      (∀ time tid code payload, Record.event time tid code payload ∈ rs →
        payload.length ≤ MAX_STACK_SIZE) →
      fuel ≤ rs.length →
      dump_loop h fuel r dbg f samples = none := by
  induction rs with
  | nil =>
    intro fuel r dbg f samples _ _ _ hf
    have : fuel = 0 := by simpa using hf
    subst this
    rfl
  | cons x rs ih =>
    intro fuel r dbg f samples hr hok hpay hf
    cases fuel with
    | zero => rfl
    | succ fuel =>
      have hrs : ∀ y ∈ rs, Record.ok h.sizeof_ptr y :=
        fun y hy => hok y (List.mem_cons_of_mem _ hy)
      have hpay1 : ∀ time tid code payload, Record.event time tid code payload ∈ rs →
          payload.length ≤ MAX_STACK_SIZE :=
        fun time tid code payload hm => hpay time tid code payload (List.mem_cons_of_mem _ hm)
      have hfuel : fuel ≤ rs.length := by simp at hf; omega
      have hx := hok x (List.mem_cons_self _ _)
      have hr1 : in_front r (Record.blocks h.sizeof_ptr x ++ log_blocks h.sizeof_ptr rs) := hr
      cases x with
      | sample time tid frames =>
        obtain ⟨r4, hr4, hstep⟩ := dump_record_sample h r dbg f samples time tid frames _ hr1 hx
        rw [dump_loop, hstep]
        exact ih fuel r4 _ _ _ hr4 hrs hpay1 hfuel
      | event time tid code payload =>
        obtain ⟨r5, hr5, hstep⟩ := dump_record_event h r dbg f samples time tid code payload _
          hr1 hx (hpay time tid code payload (List.mem_cons_self _ _))
        rw [dump_loop, hstep]
        exact ih fuel r5 _ _ _ hr5 hrs hpay1 hfuel

theorem append_payload_fits (sz : Nat) (as : List Append)
    (hok : ∀ a ∈ as, Append.ok sz a) :
    ∀ time tid code payload, Record.event time tid code payload ∈ as.map Append.record →
      payload.length ≤ MAX_STACK_SIZE := by
  intro time tid code payload hm
  obtain ⟨a, ha, he⟩ := List.mem_map.mp hm
  have hoka := hok a ha
  cases a with
  | sample t c => simp [Append.record] at he
  | event time1 tid1 code1 ptr =>
    simp only [Append.record, Record.event.injEq] at he
    obtain ⟨_, _, _, rfl⟩ := he
    have h1 : ptr.length ≤ 1 <<< 20 := hoka.2.2
    have h2 : (1 <<< 20 : Nat) ≤ MAX_STACK_SIZE := by decide
    omega

theorem append_records_ok (sz : Nat) (as : List Append) (hok : ∀ a ∈ as, Append.ok sz a) :
    ∀ x ∈ as.map Append.record, Record.ok sz x := by
  intro x hx
  obtain ⟨a, ha, rfl⟩ := List.mem_map.mp hx
  exact append_record_ok _ a (hok a ha)

/-- The function `profile_dump` on a log that is not empty and holds the
records `rs`, no block of which is split: it returns, the file is the header
followed by the record section laid out by `layout`, the debug words of the
resolved frames are marked, the number of samples is printed, and nothing else
changes but the pause counter, which has gone up by one and down by one. -/
theorem profile_dump_blocks (h : Host) (d : State) (rs : List Record) (hne : d.chunks ≠ [])
    (hal : aligned d.chunks (log_blocks h.sizeof_ptr rs))
    (hok : ∀ x ∈ rs, Record.ok h.sizeof_ptr x)
    (hpay : ∀ time tid code payload, Record.event time tid code payload ∈ rs →
      payload.length ≤ MAX_STACK_SIZE) :
    profile_dump h d = some { d with
      profiling_pause := wrap32 (wrap32 (d.profiling_pause + 1) - 1),
      debug := mark_frames h (all_frames rs) d.debug,
      dump_file := some (dump_header h d ++ layout rs (frame_entries h (all_frames rs) d.debug)),
      saved := d.saved ++ [num_samples rs] } := by
  have hstream : stream d.chunks = log_bytes h.sizeof_ptr rs := by
    rw [aligned_stream _ _ hal, log_blocks_flatten]
  have hloop := dump_loop_blocks h rs ((stream d.chunks).length + 1)
    ⟨d.chunks, 0⟩ d.debug (dump_header h d) 0 (aligned_in_front _ _ hal) hok hpay
    (by rw [hstream]; exact Nat.lt_succ_of_le (log_bytes_length _ _))
  cases hc : d.chunks with
  | nil => exact absurd hc hne
  | cons c cs =>
    unfold profile_dump
    rw [hc] at hloop ⊢
    simp only [dump_header] at hloop ⊢
    simp only [hloop, Nat.zero_add]

/-- The function `profile_dump` on a log that is not empty and has been built
by the appends `as` from the empty log. -/
theorem profile_dump_appends (h : Host) (hsz : h.sizeof_ptr ≤ 8) (d : State) (as : List Append)
    (hne : d.chunks ≠ []) (hok : ∀ a ∈ as, Append.ok h.sizeof_ptr a)
    (hlog : log_of h as = some d.chunks) :
    profile_dump h d = some { d with
      profiling_pause := wrap32 (wrap32 (d.profiling_pause + 1) - 1),
      debug := mark_frames h (all_frames (as.map Append.record)) d.debug,
      dump_file := some (dump_header h d ++ layout (as.map Append.record)
        (frame_entries h (all_frames (as.map Append.record)) d.debug)),
      saved := d.saved ++ [num_samples (as.map Append.record)] } :=
  profile_dump_blocks h d _ hne (log_of_aligned h hsz as d.chunks hok hlog).1
    (append_records_ok _ as hok) (append_payload_fits _ as hok)

/-- The stream of a log that has been built by the appends `as` from the empty
log: the bytes of their records, in order. -/
theorem log_of_stream (h : Host) (hsz : h.sizeof_ptr ≤ 8) (as : List Append)
    (cs : List profile_data) (hok : ∀ a ∈ as, Append.ok h.sizeof_ptr a)
    (hlog : log_of h as = some cs) :
    stream cs = log_bytes h.sizeof_ptr (as.map Append.record) := by
  rw [aligned_stream _ _ (log_of_aligned h hsz as cs hok hlog).1, log_blocks_flatten]

/-! ## C7: negative codes never produce a log record -/

/-- The function `profile_dump` returns on every log built by the appends. -/
theorem profile_dump_returns (h : Host) (hsz : h.sizeof_ptr ≤ 8) (d : State) (as : List Append)
    (hok : ∀ a ∈ as, Append.ok h.sizeof_ptr a) (hlog : log_of h as = some d.chunks) :
    ∃ d1, profile_dump h d = some d1 := by
  by_cases hne : d.chunks = []
  · exact ⟨d, by simp [profile_dump, hne]⟩
  · exact ⟨_, profile_dump_appends h hsz d as hne hok hlog⟩

/-- C7: for every code < 0 and every payload, `profile_event` with code -1
only increments the pause counter, with code -2 only decrements it, with code
-3 only runs `profile_dump`, and with any other negative code changes nothing;
in every case the chunks of the log, their cursors and the stream are left as
they were, and on a log built by the appends the call returns. -/
theorem profile_event_negative (h : Host) (time : Nat) (thread_id code : Int)
    (ptr : List Byte) (dataLen : Int) (d : State) (hcode : code < 0) :
    (code = -1 → profile_event h time thread_id code ptr dataLen d
      = some { d with profiling_pause := wrap32 (d.profiling_pause + 1) }) ∧
    (code = -2 → profile_event h time thread_id code ptr dataLen d
      = some { d with profiling_pause := wrap32 (d.profiling_pause - 1) }) ∧
    (code = -3 → profile_event h time thread_id code ptr dataLen d = profile_dump h d) ∧
    (code ≠ -1 → code ≠ -2 → code ≠ -3 →
      profile_event h time thread_id code ptr dataLen d = some d) ∧
    (∀ d1, profile_event h time thread_id code ptr dataLen d = some d1 →
      d1.chunks = d.chunks ∧ stream d1.chunks = stream d.chunks) ∧
    (∀ as, h.sizeof_ptr ≤ 8 → (∀ a ∈ as, Append.ok h.sizeof_ptr a) →
      log_of h as = some d.chunks →
      ∃ d1, profile_event h time thread_id code ptr dataLen d = some d1 ∧
        d1.chunks = d.chunks) := by
  have hframe : ∀ d1, profile_event h time thread_id code ptr dataLen d = some d1 →
      d1.chunks = d.chunks := by
    intro d1 h1
    by_cases c1 : code = -1
    · simp only [profile_event, c1, if_true, Option.some.injEq] at h1
      subst h1; rfl
    · by_cases c2 : code = -2
      · subst c2
        simp only [profile_event, c1, if_false, if_true, Option.some.injEq] at h1
        subst h1; rfl
      · by_cases c3 : code = -3
        · subst c3
          simp only [profile_event, c1, c2, if_false, if_true] at h1
          exact (profile_dump_frame h d d1 h1).1
        · simp only [profile_event, c1, c2, c3, hcode, if_false, if_true,
            Option.some.injEq] at h1
          subst h1; rfl
  refine ⟨?_, ?_, ?_, ?_, ?_, ?_⟩
  · intro c1
    simp only [profile_event, c1, if_true]
  · intro c2
    subst c2
    simp [profile_event]
  · intro c3
    subst c3
    simp [profile_event]
  · intro c1 c2 c3
    simp only [profile_event, c1, c2, c3, hcode, if_false, if_true]
  · intro d1 h1
    have := hframe d1 h1
    exact ⟨this, by rw [this]⟩
  · intro as hsz hok hlog
    by_cases c3 : code = -3
    · obtain ⟨d1, h1⟩ := profile_dump_returns h hsz d as hok hlog
      have h2 : profile_event h time thread_id code ptr dataLen d = some d1 := by
        subst c3
        simpa [profile_event] using h1
      exact ⟨d1, h2, hframe d1 h2⟩
    · by_cases c1 : code = -1
      · exact ⟨{ d with profiling_pause := wrap32 (d.profiling_pause + 1) },
          by simp only [profile_event, c1, if_true], rfl⟩
      · by_cases c2 : code = -2
        · subst c2
          exact ⟨{ d with profiling_pause := wrap32 (d.profiling_pause - 1) },
            by simp [profile_event], rfl⟩
        · exact ⟨d, by simp only [profile_event, c1, c2, c3, hcode, if_false, if_true], rfl⟩

/-- Witness of C7: a dump request, code -3, on a log that holds one event. -/
theorem profile_event_negative_witness :
    ((-3 : Int) < 0) ∧
    profile_event example_host 0 0 (-3) [] 0
        { init example_debug with chunks := [⟨22, 1 <<< 20,
          [1, 0, 0, 0, 0, 0, 0, 0, 2, 0, 0, 0, 5, 0, 0, 0, 2, 0, 0, 0, 0xAA, 0xBB]⟩] }
      = profile_dump example_host
        { init example_debug with chunks := [⟨22, 1 <<< 20,
          [1, 0, 0, 0, 0, 0, 0, 0, 2, 0, 0, 0, 5, 0, 0, 0, 2, 0, 0, 0, 0xAA, 0xBB]⟩] } ∧
    ∃ d1, profile_event example_host 0 0 (-3) [] 0
        { init example_debug with chunks := [⟨22, 1 <<< 20,
          [1, 0, 0, 0, 0, 0, 0, 0, 2, 0, 0, 0, 5, 0, 0, 0, 2, 0, 0, 0, 0xAA, 0xBB]⟩] } = some d1 ∧
      d1.chunks = [⟨22, 1 <<< 20,
          [1, 0, 0, 0, 0, 0, 0, 0, 2, 0, 0, 0, 5, 0, 0, 0, 2, 0, 0, 0, 0xAA, 0xBB]⟩] :=
  ⟨by decide,
    (profile_event_negative example_host 0 0 (-3) [] 0 _ (by decide)).2.2.1 rfl,
    (profile_event_negative example_host 0 0 (-3) [] 0 _ (by decide)).2.2.2.2.2
      [.event 1 2 5 [0xAA, 0xBB]] (by decide) (by decide) (by decide)⟩

/-! ## C8: the header of the dump and the order of its records -/

theorem example_appends_ok : ∀ a ∈ example_appends, Append.ok example_host.sizeof_ptr a := by
  decide

theorem example_appends_log : log_of example_host example_appends = some example_state.chunks := by
  rfl

/-- C8: for every state whose log is not empty and has been built from the
empty log by the appends `as`, so that it holds their records, the file written
by `profile_dump` begins with the 4 bytes `PROF`, then the format version as an
int32, then `sample_count` as an int32, and goes on with one output record per
record of the log, in log order, each of which starts with the first 16 bytes
of that record in the log: its timestamp (8 bytes), thread id (4 bytes) and
eventId (4 bytes). -/
theorem profile_dump_header_and_order (h : Host) (hsz : h.sizeof_ptr ≤ 8) (d : State)
    (as : List Append) (hne : d.chunks ≠ []) (hok : ∀ a ∈ as, Append.ok h.sizeof_ptr a)
    (hlog : log_of h as = some d.chunks) :
    ∃ (d1 : State) (outs : List (List Byte)), profile_dump h d = some d1 ∧
      d1.dump_file = some ([0x50, 0x52, 0x4F, 0x46] ++ int_bytes h.HL_VERSION
        ++ int_bytes d.sample_count ++ outs.flatten) ∧
      outs.length = as.length ∧
      stream d.chunks = ((as.map Append.record).map (Record.bytes h.sizeof_ptr)).flatten ∧
      ∀ (i : Nat) (x : Record), (as.map Append.record)[i]? = some x →
        (Record.bytes h.sizeof_ptr x).take 16 = Record.head x ∧
        ∃ tail, outs[i]? = some ((Record.bytes h.sizeof_ptr x).take 16 ++ tail) := by
  refine ⟨_, layout_parts (as.map Append.record)
      (frame_entries h (all_frames (as.map Append.record)) d.debug),
    profile_dump_appends h hsz d as hne hok hlog, ?_, ?_, log_of_stream h hsz as _ hok hlog, ?_⟩
  · simp only [dump_header, magic, layout_eq_parts]
  · rw [layout_parts_length, List.length_map]
  · intro i x hx
    rw [← record_head_eq_take]
    exact ⟨rfl, layout_parts_head _ _ i x hx⟩

/-- Witness of C8: the dump of `example_state`, whose log is the one built by
`example_appends`. -/
theorem profile_dump_header_and_order_witness :
    (example_host.sizeof_ptr ≤ 8 ∧ example_state.chunks ≠ [] ∧
      (∀ a ∈ example_appends, Append.ok example_host.sizeof_ptr a) ∧
      log_of example_host example_appends = some example_state.chunks) ∧
    ∃ (d1 : State) (outs : List (List Byte)), profile_dump example_host example_state = some d1 ∧
      d1.dump_file = some ([0x50, 0x52, 0x4F, 0x46] ++ int_bytes example_host.HL_VERSION
        ++ int_bytes example_state.sample_count ++ outs.flatten) ∧
      outs.length = example_appends.length ∧
      stream example_state.chunks
        = ((example_appends.map Append.record).map
            (Record.bytes example_host.sizeof_ptr)).flatten ∧
      ∀ (i : Nat) (x : Record), (example_appends.map Append.record)[i]? = some x →
        (Record.bytes example_host.sizeof_ptr x).take 16 = Record.head x ∧
        ∃ tail, outs[i]? = some ((Record.bytes example_host.sizeof_ptr x).take 16 ++ tail) :=
  ⟨⟨by decide, by decide, example_appends_ok, example_appends_log⟩,
    profile_dump_header_and_order example_host (by decide) example_state example_appends
      (by decide) example_appends_ok example_appends_log⟩

/-! ## C10: the encoding of the frames of a sample -/

/-- C10: on a log that is not empty and has been built from the empty log by
the appends `as`, `profile_dump` returns and writes, after the head of every
sample, one entry per frame of the sample, in frame order (`layout`).  The
entry of a frame that does not resolve is the int32 -1 and nothing else; the
entry of a frame that resolves is the 8 bytes of its debug entry, followed by
the length of the name (int32) and the bytes of the name exactly when the
already-emitted bit of the entry is clear at that point of the dump, that is in
the debug words left by the frames before it. -/
theorem profile_dump_frame_encoding (h : Host) (hsz : h.sizeof_ptr ≤ 8) (d : State)
    (as : List Append) (hne : d.chunks ≠ []) (hok : ∀ a ∈ as, Append.ok h.sizeof_ptr a)
    (hlog : log_of h as = some d.chunks) :
    ∃ (d1 : State) (es : List (List Byte)), profile_dump h d = some d1 ∧
      d1.dump_file = some (dump_header h d ++ layout (as.map Append.record) es) ∧
      es.length = (all_frames (as.map Append.record)).length ∧
      ∀ (k a : Nat), (all_frames (as.map Append.record))[k]? = some a →
        (h.resolve a = none → es[k]? = some (int_bytes (-1)) ∧ (int_bytes (-1)).length = 4) ∧
        (∀ i name, h.resolve a = some (i, name) →
          ((mark_frames h ((all_frames (as.map Append.record)).take k) d.debug i).1
              &&& 0x80000000 = 0 →
            es[k]? = some (le_bytes 4
                (mark_frames h ((all_frames (as.map Append.record)).take k) d.debug i).1
              ++ le_bytes 4 (mark_frames h ((all_frames (as.map Append.record)).take k) d.debug i).2
              ++ int_bytes (Int.ofNat name.length) ++ uchar_bytes name)) ∧
          ((mark_frames h ((all_frames (as.map Append.record)).take k) d.debug i).1
              &&& 0x80000000 ≠ 0 →
            es[k]? = some (le_bytes 4
                (mark_frames h ((all_frames (as.map Append.record)).take k) d.debug i).1
              ++ le_bytes 4
                (mark_frames h ((all_frames (as.map Append.record)).take k) d.debug i).2))) := by
  refine ⟨_, frame_entries h (all_frames (as.map Append.record)) d.debug,
    profile_dump_appends h hsz d as hne hok hlog, rfl, frame_entries_length _ _ _, ?_⟩
  intro k a hk
  have hentry := frame_entries_getElem h (all_frames (as.map Append.record)) d.debug k a hk
  refine ⟨?_, ?_⟩
  · intro hr
    exact ⟨by rw [hentry]; simp only [frame_entry, hr], rfl⟩
  · intro i name hr
    constructor
    · intro hclear
      rw [hentry]
      simp only [frame_entry, hr, hclear, if_true, List.append_assoc]
    · intro hset
      rw [hentry]
      simp only [frame_entry, hr, hset, if_false, List.append_nil]

/-- Witness of C10: the dump of `example_state`, whose sample has a frame that
does not resolve between two frames that resolve to the same entry. -/
theorem profile_dump_frame_encoding_witness :
    (example_host.sizeof_ptr ≤ 8 ∧ example_state.chunks ≠ [] ∧
      (∀ a ∈ example_appends, Append.ok example_host.sizeof_ptr a) ∧
      log_of example_host example_appends = some example_state.chunks) ∧
    ∃ (d1 : State) (es : List (List Byte)), profile_dump example_host example_state = some d1 ∧
      d1.dump_file = some (dump_header example_host example_state
        ++ layout (example_appends.map Append.record) es) ∧
      es.length = (all_frames (example_appends.map Append.record)).length ∧
      es[1]? = some [255, 255, 255, 255] := by
  obtain ⟨d1, es, h1, h2, h3, h4⟩ := profile_dump_frame_encoding example_host (by decide)
    example_state example_appends (by decide) example_appends_ok example_appends_log
  exact ⟨⟨by decide, by decide, example_appends_ok, example_appends_log⟩, d1, es, h1, h2, h3,
    ((h4 1 8 rfl).1 rfl).1⟩

/-! ## C9: symbol names are written once per dump -/

/-- C9: on a log that is not empty and has been built from the empty log by
the appends `as`, let the frame at position `k` of the dump be the first one
that resolves to the debug entry `i`, whose already-emitted bit is clear when
the dump starts.  Then the entry written for that frame is the 8 bytes of the
debug entry followed by the length and the bytes of the name, and the entry
written for every later frame of the dump that resolves to the same debug
entry, in the same sample or in another one, is only the 8 bytes of the debug
entry with the marker 0x80000000 set, without a name; the marker is still set
when the dump returns. -/
theorem profile_dump_symbol_dedup (h : Host) (hsz : h.sizeof_ptr ≤ 8) (d : State)
    (as : List Append) (hne : d.chunks ≠ []) (hok : ∀ a ∈ as, Append.ok h.sizeof_ptr a)
    (hlog : log_of h as = some d.chunks)
    (i k a : Nat) (name : List uchar) (hclear : (d.debug i).1 &&& 0x80000000 = 0)
    (hk : (all_frames (as.map Append.record))[k]? = some a)
    (hres : h.resolve a = some (i, name))
    (hfirst : ∀ k1 < k, ∀ a1 name1, (all_frames (as.map Append.record))[k1]? = some a1 →
      h.resolve a1 ≠ some (i, name1)) :
    ∃ (d1 : State) (es : List (List Byte)), profile_dump h d = some d1 ∧
      d1.dump_file = some (dump_header h d ++ layout (as.map Append.record) es) ∧
      es.length = (all_frames (as.map Append.record)).length ∧
      es[k]? = some (le_bytes 4 (d.debug i).1 ++ le_bytes 4 (d.debug i).2
        ++ int_bytes (Int.ofNat name.length) ++ uchar_bytes name) ∧
      (∀ (j a1 : Nat) (name1 : List uchar), k < j →
        (all_frames (as.map Append.record))[j]? = some a1 →
        h.resolve a1 = some (i, name1) →
        es[j]? = some (le_bytes 4 ((d.debug i).1 ||| 0x80000000) ++ le_bytes 4 (d.debug i).2)) ∧
      d1.debug i = ((d.debug i).1 ||| 0x80000000, (d.debug i).2) := by
  have hmemk : a ∈ all_frames (as.map Append.record) := List.getElem?_mem hk
  refine ⟨_, frame_entries h (all_frames (as.map Append.record)) d.debug,
    profile_dump_appends h hsz d as hne hok hlog, rfl, frame_entries_length _ _ _, ?_, ?_, ?_⟩
  · rw [frame_entries_getElem h (all_frames (as.map Append.record)) d.debug k a hk]
    have hbefore : mark_frames h ((all_frames (as.map Append.record)).take k) d.debug i
        = d.debug i := by
      apply mark_frames_other
      intro b hb name1 hb1
      obtain ⟨k1, hget⟩ := List.getElem?_of_mem hb
      rw [List.getElem?_take] at hget
      by_cases hk1 : k1 < k
      · rw [if_pos hk1] at hget
        exact hfirst k1 hk1 b name1 hget hb1
      · rw [if_neg hk1] at hget
        cases hget
    simp only [frame_entry, hres, hbefore, hclear, if_true, List.append_assoc]
  · intro j a1 name1 hkj hj hres1
    rw [frame_entries_getElem h (all_frames (as.map Append.record)) d.debug j a1 hj]
    have hmarked : mark_frames h ((all_frames (as.map Append.record)).take j) d.debug i
        = ((d.debug i).1 ||| 0x80000000, (d.debug i).2) := by
      apply mark_frames_marked
      refine ⟨a, ?_, name, hres⟩
      apply List.getElem?_mem (n := k)
      rw [List.getElem?_take_of_lt hkj]
      exact hk
    simp only [frame_entry, hres1, hmarked, and_sign_bit_ne_zero, if_false, List.append_nil]
  · show mark_frames h (all_frames (as.map Append.record)) d.debug i = _
    exact mark_frames_marked h _ i _ ⟨a, hmemk, name, hres⟩

/-- Witness of C9: in the dump of `example_state` the first and the third
frame of the sample resolve to the debug entry 3; the name is written with the
first one only. -/
theorem profile_dump_symbol_dedup_witness :
    (example_host.sizeof_ptr ≤ 8 ∧ example_state.chunks ≠ [] ∧
      (∀ a ∈ example_appends, Append.ok example_host.sizeof_ptr a) ∧
      log_of example_host example_appends = some example_state.chunks ∧
      (example_state.debug 3).1 &&& 0x80000000 = 0 ∧
      (all_frames (example_appends.map Append.record))[0]? = some 7 ∧
      example_host.resolve 7 = some (3, [65, 66])) ∧
    ∃ (d1 : State) (es : List (List Byte)), profile_dump example_host example_state = some d1 ∧
      d1.dump_file = some (dump_header example_host example_state
        ++ layout (example_appends.map Append.record) es) ∧
      es[0]? = some [5, 0, 0, 0, 9, 0, 0, 0, 2, 0, 0, 0, 65, 0, 66, 0] ∧
      es[2]? = some [5, 0, 0, 128, 9, 0, 0, 0] := by
  obtain ⟨d1, es, h1, h2, _, h4, h5, _⟩ := profile_dump_symbol_dedup example_host (by decide)
    example_state example_appends (by decide) example_appends_ok example_appends_log
    3 0 7 [65, 66] (by decide) (by decide) (by decide) (by intro k1 hk1; omega)
  exact ⟨⟨by decide, by decide, example_appends_ok, example_appends_log, by decide, by decide,
    by decide⟩, d1, es, h1, h2, h4, h5 2 7 [65, 66] (by decide) (by decide) (by decide)⟩

/-! ## C11: the payload of an event in the dump -/

theorem layout_parts_event (sz : Nat) (rs : List Record) :
    ∀ (es : List (List Byte)) (i : Nat) (time : Nat) (tid code : Int) (payload : List Byte),
      rs[i]? = some (.event time tid code payload) →
      (layout_parts rs es)[i]? = some (Record.bytes sz (.event time tid code payload)) := by
  induction rs with
  | nil => intro es i time tid code payload hx; simp at hx
  | cons y rs ih =>
    intro es i time tid code payload hx
    cases i with
    | zero =>
      simp only [List.getElem?_cons_zero, Option.some.injEq] at hx
      subst hx
      simp only [layout_parts, List.getElem?_cons_zero, Record.bytes]
    | succ i =>
      simp only [List.getElem?_cons_succ] at hx
      cases y with
      | sample t1 tid1 frames =>
        simp only [layout_parts, List.getElem?_cons_succ]
        exact ih _ i time tid code payload hx
      | event t1 tid1 code1 payload1 =>
        simp only [layout_parts, List.getElem?_cons_succ]
        exact ih _ i time tid code payload hx

/-- C11 (as amended): on a log that is not empty and has been built from the
empty log by the appends `as`, in which the payload of an event has at most
1 MiB, the output record that `profile_dump` writes for an event is the 16
bytes of its head, the int32 length `n` of its payload and the `n` bytes of the
payload in their order, which are the bytes of the event in the log. -/
theorem profile_dump_event_verbatim (h : Host) (hsz : h.sizeof_ptr ≤ 8) (d : State)
    (as : List Append) (hne : d.chunks ≠ []) (hok : ∀ a ∈ as, Append.ok h.sizeof_ptr a)
    (hlog : log_of h as = some d.chunks) :
    ∃ (d1 : State) (outs : List (List Byte)), profile_dump h d = some d1 ∧
      d1.dump_file = some (dump_header h d ++ outs.flatten) ∧
      outs.length = as.length ∧
      stream d.chunks = ((as.map Append.record).map (Record.bytes h.sizeof_ptr)).flatten ∧
      ∀ (i : Nat) (time : Nat) (tid code : Int) (payload : List Byte),
        as[i]? = some (.event time tid code payload) →
        payload.length ≤ 1 <<< 20 ∧
        outs[i]? = some (le_bytes 8 time ++ int_bytes tid ++ int_bytes code
          ++ int_bytes (Int.ofNat payload.length) ++ payload) ∧
        le_bytes 8 time ++ int_bytes tid ++ int_bytes code
            ++ int_bytes (Int.ofNat payload.length) ++ payload
          = Record.bytes h.sizeof_ptr (Append.record (.event time tid code payload)) ∧
        le_value (int_bytes (Int.ofNat payload.length)) = payload.length := by
  refine ⟨_, layout_parts (as.map Append.record)
      (frame_entries h (all_frames (as.map Append.record)) d.debug),
    profile_dump_appends h hsz d as hne hok hlog, ?_, ?_, log_of_stream h hsz as _ hok hlog, ?_⟩
  · simp only [layout_eq_parts]
  · rw [layout_parts_length, List.length_map]
  · intro i time tid code payload hx
    have hmem : Append.event time tid code payload ∈ as := List.getElem?_mem hx
    have hoka := hok _ hmem
    have hrec : (as.map Append.record)[i]? = some (.event time tid code payload) := by
      rw [List.getElem?_map, hx]
      rfl
    have hlen : payload.length < 2147483648 := by
      have h1 : payload.length ≤ 1 <<< 20 := hoka.2.2
      have h2 : (1 <<< 20 : Nat) = 1048576 := by decide
      omega
    refine ⟨hoka.2.2, ?_, rfl, (event_size payload.length hlen).2⟩
    rw [layout_parts_event h.sizeof_ptr _ _ i time tid code payload hrec]
    rfl

/-- Witness of C11: the dump of `example_state`, whose second record is an
event. -/
theorem profile_dump_event_verbatim_witness :
    (example_host.sizeof_ptr ≤ 8 ∧ example_state.chunks ≠ [] ∧
      (∀ a ∈ example_appends, Append.ok example_host.sizeof_ptr a) ∧
      log_of example_host example_appends = some example_state.chunks) ∧
    ∃ (d1 : State) (outs : List (List Byte)), profile_dump example_host example_state = some d1 ∧
      d1.dump_file = some (dump_header example_host example_state ++ outs.flatten) ∧
      outs[1]? = some [3, 0, 0, 0, 0, 0, 0, 0, 2, 0, 0, 0, 5, 0, 0, 0, 2, 0, 0, 0, 0xAA, 0xBB] := by
  obtain ⟨d1, outs, h1, h2, _, _, h4⟩ := profile_dump_event_verbatim example_host (by decide)
    example_state example_appends (by decide) example_appends_ok example_appends_log
  exact ⟨⟨by decide, by decide, example_appends_ok, example_appends_log⟩, d1, outs, h1, h2,
    (h4 1 3 2 5 [0xAA, 0xBB] rfl).2.1⟩

/-- An event whose payload is larger than a chunk, recorded on an empty log:
the copy of the payload runs past the end of the chunk allocated for it. -/
theorem profile_event_oversize (h : Host) (time : Nat) (thread_id code : Int) (ptr : List Byte)
    (d : State) (hcode : 0 ≤ code) (hd : d.chunks = []) (hbig : 1 <<< 20 < ptr.length) :
    profile_event h time thread_id code ptr ptr.length d = none := by
  rw [profile_event_eq _ _ _ _ _ _ hcode]
  have hall := record_all_oversize
    [le_bytes 8 time, int_bytes thread_id, int_bytes code, int_bytes ptr.length] ptr hbig
    { d with profiling_pause := wrap32 (d.profiling_pause + 1), waitLoop := false }
    (by rw [hd]; intro c hc; cases hc) (by rw [hd]; intro c hc; cases hc)
    (by
      intro b hb
      simp only [List.mem_cons, List.mem_singleton, List.not_mem_nil, or_false] at hb
      rcases hb with rfl | rfl | rfl | rfl
      · rw [le_bytes_length]; decide
      · rw [int_bytes_length]; decide
      · rw [int_bytes_length]; decide
      · rw [int_bytes_length]; decide)
  have happ : [le_bytes 8 time, int_bytes thread_id, int_bytes code, int_bytes ptr.length] ++ [ptr]
      = [le_bytes 8 time, int_bytes thread_id, int_bytes code, int_bytes ptr.length, ptr] := rfl
  rw [happ] at hall
  rw [hall]
  rfl

/-- Counterexample to C11 as stated.  A payload of 8 MiB + 1 byte, larger than
the scratch area, cannot be recorded: the copy by `record_data` runs past the
end of the 1 MiB chunk allocated for it.  And in the chain `example_split_state`,
whose stream is the event 5 with payload `[0xAA, 0xBB]`, the byte 0xBB is in a
second chunk: the read of the payload by `profile_dump` (2 bytes from offset 20
of the first chunk) returns true with 0xBB, not 0xAA, at the start of the
scratch area and its second byte not written, so what `fwrite` takes from the
scratch area is not the payload. -/
theorem profile_dump_payload_across_chunks :
    profile_event example_host 1 2 5 (List.replicate 8388609 (0 : Byte))
      (List.replicate 8388609 (0 : Byte)).length (init example_debug) = none ∧
    MAX_STACK_SIZE < 8388609 ∧
    log_ok example_split_state.chunks ∧
    stream example_split_state.chunks
      = Record.bytes example_host.sizeof_ptr (.event 1 2 5 [0xAA, 0xBB]) ∧
    read_profile_data ⟨example_split_state.chunks, 20⟩ 2
      = some (true, ⟨[], 0⟩, [some 0xBB, none]) ∧
    (profile_dump example_host example_split_state).isNone = true := by
  refine ⟨profile_event_oversize _ _ _ _ _ _ (by decide) rfl
    (by rw [List.length_replicate]; decide), by decide, by decide, by decide, by decide, by decide⟩

/-! ## C12: the discriminator of a record -/

theorem all_frames_append (a b : List Record) :
    all_frames (a ++ b) = all_frames a ++ all_frames b := by
  induction a with
  | nil => rfl
  | cons x a ih => cases x <;> simp [all_frames, ih]

theorem num_samples_append (a b : List Record) :
    num_samples (a ++ b) = num_samples a + num_samples b := by
  induction a with
  | nil => simp [num_samples]
  | cons x a ih =>
    cases x <;> simp [num_samples, ih]
    omega

theorem log_blocks_append (sz : Nat) (a b : List Record) :
    log_blocks sz (a ++ b) = log_blocks sz a ++ log_blocks sz b := by
  simp [log_blocks]

/-- The record section of a log followed by more records. -/
theorem layout_append (rs rs1 : List Record) :
    ∀ es es1 : List (List Byte), es.length = (all_frames rs).length →
      layout (rs ++ rs1) (es ++ es1) = layout rs es ++ layout rs1 es1 := by
  induction rs with
  | nil =>
    intro es es1 hlen
    have : es = [] := List.length_eq_zero.mp (by simpa [all_frames] using hlen)
    subst this
    simp [layout]
  | cons x rs ih =>
    intro es es1 hlen
    cases x with
    | sample time tid frames =>
      simp only [all_frames, List.length_append] at hlen
      have h1 : (es ++ es1).take frames.length = es.take frames.length :=
        List.take_append_of_le_length (by omega)
      have h2 : (es ++ es1).drop frames.length = es.drop frames.length ++ es1 :=
        List.drop_append_of_le_length (by omega)
      simp only [List.cons_append, layout, List.append_eq, h1, h2]
      rw [ih (es.drop frames.length) es1 (by rw [List.length_drop]; omega)]
      simp only [List.append_assoc]
    | event time tid code payload =>
      simp only [all_frames] at hlen
      simp only [List.cons_append, layout, List.append_eq]
      rw [ih es es1 hlen]
      simp only [List.append_assoc]

theorem layout_single_sample (h : Host) (time : Nat) (tid : Int) (frames : List Nat)
    (dbg : Nat → Nat × Nat) :
    layout [.sample time tid frames] (frame_entries h (all_frames [.sample time tid frames]) dbg)
      = Record.head (.sample time tid frames) ++ (frame_entries h frames dbg).flatten := by
  simp only [all_frames, List.append_nil, layout,
    List.take_of_length_le (Nat.le_of_eq (frame_entries_length h frames dbg))]

theorem append_section (x t i e z : List Byte) :
    [] ++ (x ++ (t ++ i ++ e ++ z)) = [] ++ x ++ (t ++ i ++ e) ++ z := by
  simp only [List.append_assoc, List.nil_append]

theorem run_appends_append (h : Host) (a b : List Append) :
    ∀ d : State, run_appends h d (a ++ b)
      = and_then (run_appends h d a) fun d1 => run_appends h d1 b := by
  induction a with
  | nil => intro d; rfl
  | cons x a ih =>
    intro d
    cases x with
    | sample t c =>
      simp only [List.cons_append, run_appends]
      cases read_thread_data h t c d with
      | none => rfl
      | some d1 => exact ih d1
    | event time thread_id code ptr =>
      simp only [List.cons_append, run_appends]
      cases profile_event h time thread_id code ptr (Int.ofNat ptr.length) d with
      | none => rfl
      | some d1 => exact ih d1

/-- C12: let the append `a`, of the sampler or of `profile_event`, follow the
appends `as` on a log that was empty.  The `eventId` that it stores, `e`, is the
third field of the bytes that it adds to the stream.  It is negative as an
`int` exactly when `a` is an append of the sampler; then it is
`count | 0x80000000` and `eventId & 0x7FFFFFFF` on the stored bytes is the frame
count, which is at most `MAX_STACK_COUNT`; for an event it is the code.  And
the main loop of `profile_dump` treats the record accordingly: against the dump
of the log before the append, the dump of the log after it counts one sample
more and has the head and one entry per frame more when `a` is an append of the
sampler, and counts no sample more and has the record as it is in the log more
when `a` is an event. -/
theorem eventId_discriminates (h : Host) (hsz : h.sizeof_ptr ≤ 8) (d : State) (as : List Append)
    (a : Append) (hempty : d.chunks = []) (hp : is_int d.profiling_pause)
    (hok : ∀ x ∈ as ++ [a], Append.ok h.sizeof_ptr x) :
    ∃ (d1 d2 : State) (t i e tail : List Byte),
      run_appends h d as = some d1 ∧ run_appends h d1 [a] = some d2 ∧
      stream d2.chunks = stream d1.chunks ++ (t ++ i ++ e ++ tail) ∧
      t.length = 8 ∧ i.length = 4 ∧ e.length = 4 ∧
      (bytes_int e < 0 ↔ a.is_sample = true) ∧
      (∀ th c, a = .sample th c →
        bytes_int e = wrap32 (Int.ofNat (c.count ||| 0x80000000)) ∧
        le_value e &&& 0x7FFFFFFF = c.count ∧ c.count ≤ MAX_STACK_COUNT) ∧
      (∀ time tid code ptr, a = .event time tid code ptr → bytes_int e = code ∧ 0 ≤ code) ∧
      ∃ (dbg1 dbg2 : Nat → Nat × Nat) (f1 f2 : List Byte) (n1 n2 : Nat),
        dump_loop h (as.length + 2) ⟨d1.chunks, 0⟩ d.debug [] 0 = some (dbg1, f1, n1) ∧
        dump_loop h (as.length + 2) ⟨d2.chunks, 0⟩ d.debug [] 0 = some (dbg2, f2, n2) ∧
        n2 = n1 + (if a.is_sample then 1 else 0) ∧
        (∀ th c, a = .sample th c →
          f2 = f1 ++ (t ++ i ++ e) ++ (frame_entries h (c.stackOut.take c.count) dbg1).flatten ∧
          (frame_entries h (c.stackOut.take c.count) dbg1).length = c.count) ∧
        (∀ time tid code ptr, a = .event time tid code ptr →
          f2 = f1 ++ (t ++ i ++ e ++ tail) ∧ dbg2 = dbg1) := by
  have hoks : ∀ x ∈ as, Append.ok h.sizeof_ptr x :=
    fun x hx => hok x (List.mem_append_left _ hx)
  have hoka : Append.ok h.sizeof_ptr a := hok a (by simp)
  have hok1 : ∀ x ∈ [a], Append.ok h.sizeof_ptr x := by
    intro x hx
    simp only [List.mem_singleton] at hx
    subst hx
    exact hoka
  obtain ⟨d1, h1, h2, _, h4, h5, _, _⟩ := run_appends_aligned h hsz as d []
    (by rw [hempty]; simp [aligned]) hp hoks
  have hal1 : aligned d1.chunks (log_blocks h.sizeof_ptr (as.map Append.record)) := by
    simpa using h2
  obtain ⟨d2, g1, g2, _, _, g5, _, _⟩ := run_appends_aligned h hsz [a] d1 _ hal1
    (by rw [h4]; exact hp) hok1
  have hal2 : aligned d2.chunks (log_blocks h.sizeof_ptr (as.map Append.record ++ [a.record])) := by
    rw [log_blocks_append]
    exact g2
  have hs1 : stream d1.chunks = log_bytes h.sizeof_ptr (as.map Append.record) := by
    rw [aligned_stream _ _ hal1, log_blocks_flatten]
  have hs2 : stream d2.chunks
      = log_bytes h.sizeof_ptr (as.map Append.record) ++ Record.bytes h.sizeof_ptr a.record := by
    rw [aligned_stream _ _ hal2, log_blocks_flatten]
    simp [log_bytes]
  have hrok := append_records_ok h.sizeof_ptr as hoks
  have hpay := append_payload_fits h.sizeof_ptr as hoks
  have hrok2 : ∀ x ∈ as.map Append.record ++ [a.record], Record.ok h.sizeof_ptr x := by
    have := append_records_ok h.sizeof_ptr (as ++ [a]) hok
    simpa using this
  have hpay2 : ∀ time tid code payload,
      Record.event time tid code payload ∈ as.map Append.record ++ [a.record] →
      payload.length ≤ MAX_STACK_SIZE := by
    have := append_payload_fits h.sizeof_ptr (as ++ [a]) hok
    simpa using this
  have hd1 := dump_loop_blocks h (as.map Append.record) (as.length + 2) ⟨d1.chunks, 0⟩ d.debug
    [] 0 (aligned_in_front _ _ hal1) hrok hpay (by simp)
  have hd2 := dump_loop_blocks h (as.map Append.record ++ [a.record]) (as.length + 2)
    ⟨d2.chunks, 0⟩ d.debug [] 0 (aligned_in_front _ _ hal2) hrok2 hpay2 (by simp)
  rw [all_frames_append, frame_entries_append, mark_frames_append, num_samples_append,
    layout_append _ _ _ _ (frame_entries_length _ _ _)] at hd2
  cases a with
  | sample th c =>
    obtain ⟨_, _, hcap, _⟩ := hoka
    have hlen : (c.stackOut.take c.count).length = c.count := by
      rw [List.length_take]
      exact Nat.min_eq_left hcap.2
    obtain ⟨hneg, hlow⟩ := sample_eventId c.count hcap.1
    have hself : bytes_int (int_bytes (wrap32 (Int.ofNat (c.count ||| 0x80000000))))
        = wrap32 (Int.ofNat (c.count ||| 0x80000000)) := by
      rw [bytes_int_int_bytes]
      unfold wrap32
      exact Int.bmod_bmod
    have hrec : Append.record (.sample th c)
        = .sample c.time th.tid (c.stackOut.take c.count) := rfl
    rw [hrec] at hd2 hs2
    have hhead : Record.head (.sample c.time th.tid (c.stackOut.take c.count))
        = le_bytes 8 c.time ++ int_bytes th.tid
          ++ int_bytes (wrap32 (Int.ofNat (c.count ||| 0x80000000))) := by
      simp only [Record.head, Record.eventId, hlen]
    have hbytes : Record.bytes h.sizeof_ptr (.sample c.time th.tid (c.stackOut.take c.count))
        = Record.head (.sample c.time th.tid (c.stackOut.take c.count))
          ++ ptr_bytes h.sizeof_ptr (c.stackOut.take c.count) := by
      simp only [Record.bytes]
    have hlay := layout_single_sample h c.time th.tid (c.stackOut.take c.count)
      (mark_frames h (all_frames (as.map Append.record)) d.debug)
    rw [hlay, hhead] at hd2
    rw [hbytes, hhead] at hs2
    generalize hgen : wrap32 (Int.ofNat (c.count ||| 0x80000000)) = eid at hneg hlow hself hd2 hs2
    refine ⟨d1, d2, le_bytes 8 c.time, int_bytes th.tid, int_bytes eid,
      ptr_bytes h.sizeof_ptr (c.stackOut.take c.count), h1, g1, ?_, le_bytes_length _ _,
      int_bytes_length _, int_bytes_length _, ⟨fun _ => rfl, fun _ => hneg⟩, ?_, ?_,
      _, _, _, _, _, _, hd1, hd2, ?_, ?_, ?_⟩
    · rw [hs2, hs1]
    · intro th1 c1 he
      cases he
      rw [hgen]
      exact ⟨hself, hlow, hcap.1⟩
    · intro time tid code ptr he
      cases he
    · show 0 + (num_samples (as.map Append.record) + (0 + 1))
        = 0 + num_samples (as.map Append.record) + 1
      omega
    · intro th1 c1 he
      cases he
      exact ⟨append_section _ _ _ _ _, by rw [frame_entries_length, hlen]⟩
    · intro time tid code ptr he
      cases he
  | event time tid code ptr =>
    obtain ⟨hc0, hc1, hn⟩ := hoka
    refine ⟨d1, d2, le_bytes 8 time, int_bytes tid, int_bytes code,
      int_bytes (Int.ofNat ptr.length) ++ ptr, h1, g1, ?_, le_bytes_length _ _,
      int_bytes_length _, int_bytes_length _, ?_, ?_, ?_, _, _, _, _, _, _, hd1, hd2, ?_, ?_, ?_⟩
    · rw [hs2, hs1]
      simp [Append.record, Record.bytes, Record.head, Record.eventId]
    · have := event_eventId code hc0 hc1
      simp [Append.is_sample, this]
    · intro th1 c1 he
      cases he
    · intro time1 tid1 code1 ptr1 he
      cases he
      rw [bytes_int_int_bytes, wrap32_of_is_int _ ⟨by omega, hc1⟩]
      exact ⟨rfl, hc0⟩
    · simp [Append.is_sample, Append.record, num_samples]
    · intro th1 c1 he
      cases he
    · intro time1 tid1 code1 ptr1 he
      cases he
      constructor
      · simp [Append.record, layout, all_frames, Record.head, Record.eventId, frame_entries]
      · simp [Append.record, all_frames, mark_frames]

/-- Witness of C12: a capture of one frame followed by the event 5. -/
theorem eventId_discriminates_witness :
    (example_host.sizeof_ptr ≤ 8 ∧ (init example_debug).chunks = [] ∧
      is_int (init example_debug).profiling_pause ∧
      ∀ x ∈ [Append.sample example_thread example_capture] ++ [Append.event 3 2 5 [0xAA, 0xBB]],
        Append.ok example_host.sizeof_ptr x) ∧
    ∃ (d1 d2 : State) (e : List Byte) (dbg1 dbg2 : Nat → Nat × Nat) (f1 f2 : List Byte)
      (n1 n2 : Nat),
      run_appends example_host (init example_debug)
        [Append.sample example_thread example_capture] = some d1 ∧
      run_appends example_host d1 [Append.event 3 2 5 [0xAA, 0xBB]] = some d2 ∧
      bytes_int e = 5 ∧ ¬ bytes_int e < 0 ∧
      dump_loop example_host 3 ⟨d1.chunks, 0⟩ example_debug [] 0 = some (dbg1, f1, n1) ∧
      dump_loop example_host 3 ⟨d2.chunks, 0⟩ example_debug [] 0 = some (dbg2, f2, n2) ∧
      n1 = 1 ∧ n2 = 1 := by
  obtain ⟨d1, d2, t, i, e, tail, h1, h2, _, _, _, _, h7, _, h9, dbg1, dbg2, f1, f2, n1, n2, k1,
    k2, k3, _⟩ := eventId_discriminates example_host (by decide)
      (init example_debug) [Append.sample example_thread example_capture]
      (Append.event 3 2 5 [0xAA, 0xBB]) rfl (by decide) (by decide)
  have hn1 : n1 = 1 := by
    have h1' : d1 = { init example_debug with chunks := [⟨24, 1 <<< 20,
        [1, 0, 0, 0, 0, 0, 0, 0, 2, 0, 0, 0, 1, 0, 0, 128, 7, 0, 0, 0, 0, 0, 0, 0]⟩] } := by
      have : run_appends example_host (init example_debug)
          [Append.sample example_thread example_capture]
          = some { init example_debug with chunks := [⟨24, 1 <<< 20,
            [1, 0, 0, 0, 0, 0, 0, 0, 2, 0, 0, 0, 1, 0, 0, 128, 7, 0, 0, 0, 0, 0, 0, 0]⟩] } := rfl
      rw [this] at h1
      exact (Option.some.inj h1).symm
    subst h1'
    have : dump_loop example_host 3 ⟨[⟨24, 1 <<< 20,
        [1, 0, 0, 0, 0, 0, 0, 0, 2, 0, 0, 0, 1, 0, 0, 128, 7, 0, 0, 0, 0, 0, 0, 0]⟩], 0⟩
        example_debug [] 0 = some (dbg1, f1, n1) := k1
    have hval : (dump_loop example_host 3 ⟨[⟨24, 1 <<< 20,
        [1, 0, 0, 0, 0, 0, 0, 0, 2, 0, 0, 0, 1, 0, 0, 128, 7, 0, 0, 0, 0, 0, 0, 0]⟩], 0⟩
        example_debug [] 0).map (fun x => x.2.2) = some 1 := by decide
    rw [this] at hval
    exact Option.some.inj hval
  refine ⟨⟨by decide, rfl, by decide, by decide⟩, d1, d2, e, dbg1, dbg2, f1, f2, n1, n2, h1, h2,
    (h9 3 2 5 [0xAA, 0xBB] rfl).1, ?_, k1, k2, hn1, ?_⟩
  · intro hneg
    have := h7.mp hneg
    simp [Append.is_sample] at this
  · rw [k3, hn1]
    rfl

/-! ## C17: the dump consumes the whole log -/

/-- C17: for every log built from an empty log by a sequence of appends of
the sampler (at most `MAX_STACK_COUNT` frames) and of `profile_event` (code
`>= 0`, payload that fits a chunk), the appends return, and the main loop of
`profile_dump`, started at `first_record`, leaves after one iteration per
append and one more, not before, whatever fuel it has beyond that: no read
inside a record fails, the file has one output record per append, and the
sample count that is printed is the number of samples appended. -/
theorem profile_dump_consumes_log (h : Host) (hsz : h.sizeof_ptr ≤ 8) (d : State)
    (as : List Append) (hempty : d.chunks = []) (hp : is_int d.profiling_pause)
    (hok : ∀ a ∈ as, Append.ok h.sizeof_ptr a) :
    ∃ d1, run_appends h d as = some d1 ∧
      stream d1.chunks = log_bytes h.sizeof_ptr (as.map Append.record) ∧
      (∀ fuel, as.length < fuel →
        ∃ (dbg : Nat → Nat × Nat) (outs : List (List Byte)),
          dump_loop h fuel ⟨d1.chunks, 0⟩ d1.debug (dump_header h d1) 0
            = some (dbg, dump_header h d1 ++ outs.flatten,
                num_samples (as.map Append.record)) ∧
          outs.length = as.length) ∧
      dump_loop h as.length ⟨d1.chunks, 0⟩ d1.debug (dump_header h d1) 0 = none ∧
      num_samples (as.map Append.record) = as.countP Append.is_sample ∧
      (as ≠ [] →
        ∃ (d2 : State) (outs : List (List Byte)), profile_dump h d1 = some d2 ∧
          d2.dump_file = some (dump_header h d1 ++ outs.flatten) ∧ outs.length = as.length ∧
          d2.saved = d.saved ++ [num_samples (as.map Append.record)]) := by
  obtain ⟨d1, h1, h2, h3, _, _, h6, _⟩ := run_appends_aligned h hsz as d []
    (by rw [hempty]; simp [aligned]) hp hok
  have hal : aligned d1.chunks (log_blocks h.sizeof_ptr (as.map Append.record)) := by
    simpa using h2
  have hlog : stream d1.chunks = log_bytes h.sizeof_ptr (as.map Append.record) := by
    rw [aligned_stream _ _ hal, log_blocks_flatten]
  have hrok := append_records_ok h.sizeof_ptr as hok
  have hpay := append_payload_fits h.sizeof_ptr as hok
  refine ⟨d1, h1, hlog, ?_, ?_, num_samples_appends as, ?_⟩
  · intro fuel hf
    refine ⟨mark_frames h (all_frames (as.map Append.record)) d1.debug,
      layout_parts (as.map Append.record)
        (frame_entries h (all_frames (as.map Append.record)) d1.debug), ?_, ?_⟩
    · rw [dump_loop_blocks h (as.map Append.record) fuel ⟨d1.chunks, 0⟩ d1.debug
        (dump_header h d1) 0 (aligned_in_front _ _ hal) hrok hpay (by simpa using hf)]
      simp only [layout_eq_parts, Nat.zero_add]
    · simp [layout_parts_length]
  · exact dump_loop_short h (as.map Append.record) as.length ⟨d1.chunks, 0⟩ d1.debug
      (dump_header h d1) 0 (aligned_in_front _ _ hal) hrok hpay (by simp)
  · intro hne
    refine ⟨_, layout_parts (as.map Append.record)
      (frame_entries h (all_frames (as.map Append.record)) d1.debug),
      profile_dump_blocks h d1 _ (h3 hne) hal hrok hpay, ?_, ?_, ?_⟩
    · simp only [layout_eq_parts]
    · simp [layout_parts_length]
    · simp only [h6]

/-- Witness of C17: a sample of one frame and an event appended to an empty
log, then dumped. -/
theorem profile_dump_consumes_log_witness :
    (example_host.sizeof_ptr ≤ 8 ∧ (init example_debug).chunks = [] ∧
      is_int (init example_debug).profiling_pause ∧
      ∀ a ∈ [Append.sample example_thread example_capture, Append.event 3 2 5 [0xAA, 0xBB]],
        Append.ok example_host.sizeof_ptr a) ∧
    ∃ d1, run_appends example_host (init example_debug)
        [Append.sample example_thread example_capture, Append.event 3 2 5 [0xAA, 0xBB]]
          = some d1 ∧
      dump_loop example_host 2 ⟨d1.chunks, 0⟩ d1.debug (dump_header example_host d1) 0 = none ∧
      ∃ (d2 : State) (outs : List (List Byte)), profile_dump example_host d1 = some d2 ∧
        d2.dump_file = some (dump_header example_host d1 ++ outs.flatten) ∧ outs.length = 2 ∧
        d2.saved = [1] := by
  obtain ⟨d1, h1, _, _, h4, _, h5⟩ := profile_dump_consumes_log example_host (by decide)
    (init example_debug)
    [Append.sample example_thread example_capture, Append.event 3 2 5 [0xAA, 0xBB]]
    rfl (by decide) (by decide)
  exact ⟨⟨by decide, rfl, by decide, by decide⟩, d1, h1, h4, h5 (by simp)⟩

/-! ## C15: the dump holds the exclusion and only reads the log -/

theorem dump_steps_trans (h : Host) (m : Nat) :
    ∀ (n : Nat) (c c1 c2 : dump_pc × State), dump_steps h m c = some c1 →
      dump_steps h n c1 = some c2 → dump_steps h (m + n) c = some c2 := by
  induction m with
  | zero =>
    intro n c c1 c2 h1 h2
    simp only [dump_steps, Option.some.injEq] at h1
    subst h1
    simpa using h2
  | succ m ih =>
    intro n c c1 c2 h1 h2
    rw [Nat.add_right_comm]
    simp only [dump_steps] at h1 ⊢
    cases hs : dump_step h c with
    | none => rw [hs] at h1; cases h1
    | some c3 =>
      rw [hs] at h1
      simp only at h1 ⊢
      exact ih n c3 c1 c2 h1 h2

/-- The steps of the loop of `profile_dump()` are the iterations of
`dump_loop`: when the loop leaves, the thread has reached `fclose` with the
same debug words, file and count, in at most one step per unit of fuel. -/
theorem dump_loop_steps (h : Host) (d : State) (fuel : Nat) :
    ∀ (r : profile_reader) (dbg : Nat → Nat × Nat) (f : List Byte) (samples : Nat)
      (dbg1 : Nat → Nat × Nat) (f1 : List Byte) (samples1 : Nat),
      dump_loop h fuel r dbg f samples = some (dbg1, f1, samples1) →
      ∃ k, k ≤ fuel ∧
        dump_steps h k (.read_record r samples, { d with debug := dbg, dump_file := some f })
          = some (.close_file samples1, { d with debug := dbg1, dump_file := some f1 }) := by
  induction fuel with
  | zero => intro r dbg f samples dbg1 f1 samples1 hl; cases hl
  | succ fuel ih =>
    intro r dbg f samples dbg1 f1 samples1 hl
    rw [dump_loop] at hl
    cases hrec : dump_record h r dbg f samples with
    | none => rw [hrec] at hl; cases hl
    | some x =>
      rw [hrec] at hl
      cases x with
      | none =>
        simp only [Option.some.injEq, Prod.mk.injEq] at hl
        obtain ⟨rfl, rfl, rfl⟩ := hl
        exact ⟨1, by omega, by simp [dump_steps, dump_step, hrec]⟩
      | some y =>
        obtain ⟨r2, dbg2, f2, samples2⟩ := y
        simp only at hl
        obtain ⟨k, hk, hsteps⟩ := ih r2 dbg2 f2 samples2 dbg1 f1 samples1 hl
        refine ⟨k + 1, by omega, ?_⟩
        simp only [dump_steps, dump_step, hrec]
        exact hsteps

/-- The thread that runs `profile_dump()` alone reaches the return with the
state that the function returns. -/
theorem profile_dump_steps (h : Host) (d d1 : State) (hd : profile_dump h d = some d1) :
    ∃ n, n ≤ (stream d.chunks).length + 6 ∧
      dump_steps h n (.entry, d) = some (.returned, d1) := by
  unfold profile_dump at hd
  split at hd
  · next hc =>
    simp only [Option.some.injEq] at hd
    subst hd
    exact ⟨1, by omega, by simp [dump_steps, dump_step, hc]⟩
  · next c cs hc =>
    simp only at hd
    split at hd
    · cases hd
    · next dbg f samples hloop =>
      simp only [Option.some.injEq] at hd
      subst hd
      obtain ⟨k, hk, hsteps⟩ := dump_loop_steps h
        { d with profiling_pause := wrap32 (d.profiling_pause + 1) } _ _ _ _ _ _ _ _ hloop
      have h3 : dump_steps h 3 (.entry, d)
          = some (.read_record ⟨d.chunks, 0⟩ 0,
              { d with profiling_pause := wrap32 (d.profiling_pause + 1),
                       dump_file := some (dump_header h
                         { d with profiling_pause := wrap32 (d.profiling_pause + 1) }) }) := by
        simp [dump_steps, dump_step, hc]
      have h2 : dump_steps h 2 (.close_file samples,
            { d with profiling_pause := wrap32 (d.profiling_pause + 1), debug := dbg,
                     dump_file := some f })
          = some (.returned,
              { d with profiling_pause := wrap32 (wrap32 (d.profiling_pause + 1) - 1),
                       debug := dbg, dump_file := some f, saved := d.saved ++ [samples] }) := by
        simp [dump_steps, dump_step]
      exact ⟨3 + (k + 2), by omega,
        dump_steps_trans h 3 (k + 2) _ _ _ h3 (dump_steps_trans h k 2 _ _ _ hsteps h2)⟩

theorem wrap32_succ_ne (x : Int) (hx : is_int x) : wrap32 (x + 1) ≠ x := by
  by_cases hlt : x < 2147483647
  · rw [wrap32_of_is_int _ ⟨by have := hx.1; omega, by omega⟩]
    omega
  · have : x = 2147483647 := by have := hx.2; omega
    subst this
    decide

/-- One step of `profile_dump()` keeps the log as it is and the pause counter
at the value that goes with the point reached: one more than on entry between
`data.profiling_pause++` and `data.profiling_pause--`, the value on entry
before and after. -/
theorem dump_step_inv (h : Host) (d : State) (hp : is_int d.profiling_pause)
    (c c1 : dump_pc × State) (hs : dump_step h c = some c1)
    (hinv : c.2.chunks = d.chunks ∧
      c.2.profiling_pause
        = if c.1.holds then wrap32 (d.profiling_pause + 1) else d.profiling_pause) :
    c1.2.chunks = d.chunks ∧
      c1.2.profiling_pause
        = if c1.1.holds then wrap32 (d.profiling_pause + 1) else d.profiling_pause := by
  obtain ⟨pc, s⟩ := c
  obtain ⟨hch, hpp⟩ := hinv
  simp only at hch hpp
  cases pc with
  | entry =>
    simp only [dump_step] at hs
    split at hs <;>
    · simp only [Option.some.injEq] at hs
      subst hs
      exact ⟨hch, by simpa [dump_pc.holds] using hpp⟩
  | raise =>
    simp only [dump_step, Option.some.injEq] at hs
    subst hs
    simp only [dump_pc.holds, Bool.false_eq_true, if_false] at hpp
    exact ⟨hch, by simp [dump_pc.holds, hpp]⟩
  | open_file =>
    simp only [dump_step, Option.some.injEq] at hs
    subst hs
    exact ⟨hch, by simpa [dump_pc.holds] using hpp⟩
  | read_record r samples =>
    simp only [dump_step] at hs
    split at hs
    · cases hs
    · split at hs
      · cases hs
      · simp only [Option.some.injEq] at hs
        subst hs
        exact ⟨hch, by simpa [dump_pc.holds] using hpp⟩
      · simp only [Option.some.injEq] at hs
        subst hs
        exact ⟨hch, by simpa [dump_pc.holds] using hpp⟩
  | close_file samples =>
    simp only [dump_step, Option.some.injEq] at hs
    subst hs
    exact ⟨hch, by simpa [dump_pc.holds] using hpp⟩
  | lower =>
    simp only [dump_step, Option.some.injEq] at hs
    subst hs
    simp only [dump_pc.holds, if_true] at hpp
    refine ⟨hch, ?_⟩
    simp only [dump_pc.holds, Bool.false_eq_true, if_false, hpp]
    rw [wrap32_inc_dec, wrap32_of_is_int _ hp]
  | returned => simp only [dump_step] at hs; cases hs

theorem dump_steps_inv (h : Host) (d : State) (hp : is_int d.profiling_pause) (n : Nat) :
    ∀ (c c1 : dump_pc × State), dump_steps h n c = some c1 →
      (c.2.chunks = d.chunks ∧
        c.2.profiling_pause
          = if c.1.holds then wrap32 (d.profiling_pause + 1) else d.profiling_pause) →
      c1.2.chunks = d.chunks ∧
        c1.2.profiling_pause
          = if c1.1.holds then wrap32 (d.profiling_pause + 1) else d.profiling_pause := by
  induction n with
  | zero =>
    intro c c1 hs hinv
    simp only [dump_steps, Option.some.injEq] at hs
    subst hs
    exact hinv
  | succ n ih =>
    intro c c1 hs hinv
    simp only [dump_steps] at hs
    cases h1 : dump_step h c with
    | none => rw [h1] at hs; cases hs
    | some c2 =>
      rw [h1] at hs
      exact ih c2 c1 hs (dump_step_inv h d hp c c2 h1 hinv)

/-- C15: let `profile_dump()` run alone, statement by statement, on a log that
is not empty and has been built from the empty log by the appends `as`.  At
every point that it reaches, every chunk, every write cursor and the head and
the tail of the log are as on entry; at every point from after
`data.profiling_pause++` to before `data.profiling_pause--`, that is while the
file is open and the loop reads the log, the pause counter is one more than on
entry, which is not its value on entry; at the other points it has its value
on entry.  The first read finds the counter raised, and the thread reaches the
return, with the state that `profile_dump` returns. -/
theorem profile_dump_exclusion (h : Host) (hsz : h.sizeof_ptr ≤ 8) (d : State) (as : List Append)
    (hne : d.chunks ≠ []) (hp : is_int d.profiling_pause)
    (hok : ∀ a ∈ as, Append.ok h.sizeof_ptr a) (hlog : log_of h as = some d.chunks) :
    (∀ (n : Nat) (pc : dump_pc) (s : State), dump_steps h n (.entry, d) = some (pc, s) →
      s.chunks = d.chunks ∧ s.first_record = d.first_record ∧ s.record = d.record ∧
      (pc.holds = true → s.profiling_pause = wrap32 (d.profiling_pause + 1) ∧
        s.profiling_pause ≠ d.profiling_pause) ∧
      (pc.holds = false → s.profiling_pause = d.profiling_pause)) ∧
    (d.profiling_pause < 2147483647 →
      wrap32 (d.profiling_pause + 1) = d.profiling_pause + 1) ∧
    dump_steps h 3 (.entry, d)
      = some (.read_record ⟨d.chunks, 0⟩ 0,
          { d with profiling_pause := wrap32 (d.profiling_pause + 1),
                   dump_file := some (dump_header h d) }) ∧
    ∃ (n : Nat) (d1 : State), dump_steps h n (.entry, d) = some (.returned, d1) ∧
      profile_dump h d = some d1 ∧ d1.profiling_pause = d.profiling_pause ∧
      d1.chunks = d.chunks := by
  have hinv : ∀ (n : Nat) (pc : dump_pc) (s : State),
      dump_steps h n (.entry, d) = some (pc, s) →
      s.chunks = d.chunks ∧
        s.profiling_pause
          = if pc.holds then wrap32 (d.profiling_pause + 1) else d.profiling_pause :=
    fun n pc s hs => dump_steps_inv h d hp n (.entry, d) (pc, s) hs ⟨rfl, rfl⟩
  refine ⟨?_, ?_, ?_, ?_⟩
  · intro n pc s hs
    obtain ⟨h1, h2⟩ := hinv n pc s hs
    refine ⟨h1, by simp only [State.first_record, h1], by simp only [State.record, h1], ?_, ?_⟩
    · intro hh
      rw [hh, if_pos rfl] at h2
      exact ⟨h2, by rw [h2]; exact wrap32_succ_ne _ hp⟩
    · intro hh
      rw [hh] at h2
      simpa using h2
  · intro hlt
    exact wrap32_of_is_int _ ⟨by have := hp.1; omega, by omega⟩
  · cases hc : d.chunks with
    | nil => exact absurd hc hne
    | cons c cs => simp [dump_steps, dump_step, hc, dump_header]
  · have hd := profile_dump_appends h hsz d as hne hok hlog
    obtain ⟨n, _, hn⟩ := profile_dump_steps h d _ hd
    refine ⟨n, _, hn, hd, ?_, rfl⟩
    show wrap32 (wrap32 (d.profiling_pause + 1) - 1) = d.profiling_pause
    rw [wrap32_inc_dec, wrap32_of_is_int _ hp]

/-- Witness of C15: the dump of `example_state`, whose log is the one built by
`example_appends`. -/
theorem profile_dump_exclusion_witness :
    (example_host.sizeof_ptr ≤ 8 ∧ example_state.chunks ≠ [] ∧
      is_int example_state.profiling_pause ∧
      (∀ a ∈ example_appends, Append.ok example_host.sizeof_ptr a) ∧
      log_of example_host example_appends = some example_state.chunks) ∧
    (dump_steps example_host 3 (.entry, example_state)).map (fun c => c.2.profiling_pause)
      = some 1 ∧
    ∃ (n : Nat) (d1 : State), dump_steps example_host n (.entry, example_state)
        = some (.returned, d1) ∧
      profile_dump example_host example_state = some d1 ∧ d1.profiling_pause = 0 ∧
      d1.chunks = example_state.chunks := by
  obtain ⟨_, _, h3, n, d1, h4, h5, h6, h7⟩ := profile_dump_exclusion example_host (by decide)
    example_state example_appends (by decide) (by decide) example_appends_ok example_appends_log
  exact ⟨⟨by decide, by decide, by decide, example_appends_ok, example_appends_log⟩,
    by rw [h3]; rfl, n, d1, h4, h5, h6, h7⟩

/-! ## The step functions and the functions agree -/

theorem event_steps_trans (h : Host) (e : event_call) (m : Nat) :
    ∀ (n : Nat) (c c1 c2 : event_pc × State), event_steps h e m c = some c1 →
      event_steps h e n c1 = some c2 → event_steps h e (m + n) c = some c2 := by
  induction m with
  | zero =>
    intro n c c1 c2 h1 h2
    simp only [event_steps, Option.some.injEq] at h1
    subst h1
    simpa using h2
  | succ m ih =>
    intro n c c1 c2 h1 h2
    rw [Nat.add_right_comm]
    simp only [event_steps] at h1 ⊢
    cases hs : event_step h e c with
    | none => rw [hs] at h1; cases h1
    | some c3 =>
      rw [hs] at h1
      simp only at h1 ⊢
      exact ih n c3 c1 c2 h1 h2

/-- The appends of a caller of `profile_event`, one step each, are a sequence
of calls of `record_data`. -/
theorem event_append_steps (h : Host) (e : event_call) (blocks : List (List Byte)) :
    ∀ (d d1 : State), blocks ≠ [] → record_all d blocks = some d1 →
      event_steps h e blocks.length (.append blocks, d) = some (.lower, d1) := by
  induction blocks with
  | nil => intro d d1 hne _; exact absurd rfl hne
  | cons b blocks ih =>
    intro d d1 _ hall
    simp only [record_all] at hall
    cases hb : record_data d b with
    | none => rw [hb] at hall; cases hall
    | some d2 =>
      rw [hb] at hall
      simp only [and_then] at hall
      by_cases hlast : blocks = []
      · subst hlast
        simp only [record_all, Option.some.injEq] at hall
        subst hall
        simp [event_steps, event_step, hb]
      · have := ih d2 d1 hlast hall
        simp only [List.length_cons, event_steps, event_step, hb, Option.map_some', hlast,
          if_false]
        exact this

/-- A call of `profile_event` with a code `>= 0`, step by step: three steps
take it to its busy wait with the pause counter raised and `waitLoop` set; once
`waitLoop` has been cleared, seven steps take it to its return, in the state
that `profile_event` returns. -/
theorem profile_event_steps (h : Host) (e : event_call) (d d1 : State) (hcode : 0 ≤ e.code)
    (hd : profile_event h e.time e.thread_id e.code e.ptr e.dataLen d = some d1) :
    event_steps h e 3 (.call, d)
      = some (.wait, { d with profiling_pause := wrap32 (d.profiling_pause + 1),
                              waitLoop := true }) ∧
    event_steps h e 7 (.wait, { d with profiling_pause := wrap32 (d.profiling_pause + 1),
                                       waitLoop := false })
      = some (.returned, d1) := by
  have c1 : e.code ≠ -1 := by omega
  have c2 : e.code ≠ -2 := by omega
  have c3 : e.code ≠ -3 := by omega
  have c4 : ¬ e.code < 0 := by omega
  constructor
  · simp [event_steps, event_step, c1, c2, c3, c4]
  · simp only [profile_event, c1, c2, c3, c4, if_false] at hd
    split at hd
    · cases hd
    · next hlen =>
      have hall : ∃ d8,
          record_all
              { d with profiling_pause := wrap32 (d.profiling_pause + 1), waitLoop := false }
              e.fields = some d8 ∧
          d1 = { d8 with profiling_pause := wrap32 (d8.profiling_pause - 1) } := by
        simp only [event_call.fields, record_all]
        cases h1 : record_data
            { d with profiling_pause := wrap32 (d.profiling_pause + 1), waitLoop := false }
            (le_bytes 8 e.time) with
        | none => rw [h1] at hd; cases hd
        | some d4 =>
          rw [h1] at hd
          simp only [and_then] at hd ⊢
          cases h2 : record_data d4 (int_bytes e.thread_id) with
          | none => rw [h2] at hd; cases hd
          | some d5 =>
            rw [h2] at hd
            simp only at hd ⊢
            cases h3 : record_data d5 (int_bytes e.code) with
            | none => rw [h3] at hd; cases hd
            | some d6 =>
              rw [h3] at hd
              simp only at hd ⊢
              cases h4 : record_data d6 (int_bytes e.dataLen) with
              | none => rw [h4] at hd; cases hd
              | some d7 =>
                rw [h4] at hd
                simp only at hd ⊢
                cases h5 : record_data d7 (e.ptr.take e.dataLen.toNat) with
                | none => rw [h5] at hd; cases hd
                | some d8 =>
                  rw [h5] at hd
                  simp only [Option.some.injEq] at hd
                  exact ⟨d8, rfl, hd.symm⟩
      obtain ⟨d8, h8, rfl⟩ := hall
      have hsteps := event_append_steps h e e.fields _ d8 (by simp [event_call.fields]) h8
      have hfirst : event_steps h e 1 (.wait,
          { d with profiling_pause := wrap32 (d.profiling_pause + 1), waitLoop := false })
          = some (.append e.fields,
            { d with profiling_pause := wrap32 (d.profiling_pause + 1), waitLoop := false }) := by
        simp [event_steps, event_step, hlen]
      have hlast : event_steps h e 1 (.lower, d8)
          = some (.returned, { d8 with profiling_pause := wrap32 (d8.profiling_pause - 1) }) := by
        simp [event_steps, event_step]
      have hlen5 : e.fields.length = 5 := rfl
      rw [hlen5] at hsteps
      exact event_steps_trans h e 1 6 _ _ _ hfirst (event_steps_trans h e 5 1 _ _ _ hsteps hlast)

/-- Inside `profile_dump()`, a caller of `profile_event(-3, ...)` takes the
steps of `profile_dump()`. -/
theorem event_dump_steps (h : Host) (e : event_call) (n : Nat) :
    ∀ (p p1 : dump_pc) (d d1 : State), dump_steps h n (p, d) = some (p1, d1) →
      event_steps h e n (.dump p, d) = some (.dump p1, d1) := by
  induction n with
  | zero =>
    intro p p1 d d1 hs
    simp only [dump_steps, Option.some.injEq, Prod.mk.injEq] at hs
    obtain ⟨rfl, rfl⟩ := hs
    rfl
  | succ n ih =>
    intro p p1 d d1 hs
    simp only [dump_steps] at hs
    cases h1 : dump_step h (p, d) with
    | none => rw [h1] at hs; cases hs
    | some c =>
      obtain ⟨p2, d2⟩ := c
      rw [h1] at hs
      simp only at hs
      have hp : p ≠ .returned := by
        rintro rfl
        simp [dump_step] at h1
      have hstep : event_step h e (.dump p, d) = some (.dump p2, d2) := by
        cases p with
        | returned => exact absurd rfl hp
        | _ => simp only [event_step, h1, Option.map_some']
      simp only [event_steps, hstep]
      exact ih p2 p1 d2 d1 hs

/-- A call `profile_event(-3, ...)`, step by step, reaches its return in the
state that `profile_dump` returns. -/
theorem profile_event_dump_steps (h : Host) (e : event_call) (d d1 : State)
    (hcode : e.code = -3) (hd : profile_dump h d = some d1) :
    ∃ n, event_steps h e n (.call, d) = some (.returned, d1) := by
  obtain ⟨n, _, hn⟩ := profile_dump_steps h d d1 hd
  have hev := event_dump_steps h e n .entry .returned d d1 hn
  have hcall : event_steps h e 1 (.call, d) = some (.dump .entry, d) := by
    simp [event_steps, event_step, hcode]
  have hret : event_steps h e 1 (.dump .returned, d1) = some (.returned, d1) := by
    simp [event_steps, event_step]
  exact ⟨1 + (n + 1), event_steps_trans h e 1 (n + 1) _ _ _ hcall
    (event_steps_trans h e n 1 _ _ _ hev hret)⟩

theorem loop_steps_trans (h : Host) (fpu : Fpu) (now : Nat)
    (threads : List (hl_thread_info × Capture)) (m : Nat) :
    ∀ (n : Nat) (c c1 c2 : loop_pc × LoopVars × State),
      loop_steps h fpu now threads m c = some c1 →
      loop_steps h fpu now threads n c1 = some c2 →
      loop_steps h fpu now threads (m + n) c = some c2 := by
  induction m with
  | zero =>
    intro n c c1 c2 h1 h2
    simp only [loop_steps, Option.some.injEq] at h1
    subst h1
    simpa using h2
  | succ m ih =>
    intro n c c1 c2 h1 h2
    rw [Nat.add_right_comm]
    simp only [loop_steps] at h1 ⊢
    cases hs : loop_step h fpu now threads c with
    | none => rw [hs] at h1; cases h1
    | some c3 =>
      rw [hs] at h1
      simp only at h1 ⊢
      exact ih n c3 c1 c2 h1 h2

/-- The appends of `read_thread_data` in `hl_profile_loop`, one step each, are
a sequence of calls of `record_data`. -/
theorem loop_append_steps (h : Host) (fpu : Fpu) (now : Nat)
    (threads ts : List (hl_thread_info × Capture)) (done cur : List thread_handle)
    (v : LoopVars) (blocks : List (List Byte)) :
    ∀ (d d1 : State), blocks ≠ [] → record_all d blocks = some d1 →
      loop_steps h fpu now threads blocks.length (.append blocks ts done cur, v, d)
        = some (.walk ts done cur, v, d1) := by
  induction blocks with
  | nil => intro d d1 hne _; exact absurd rfl hne
  | cons b blocks ih =>
    intro d d1 _ hall
    simp only [record_all] at hall
    cases hb : record_data d b with
    | none => rw [hb] at hall; cases hall
    | some d2 =>
      rw [hb] at hall
      simp only [and_then] at hall
      by_cases hlast : blocks = []
      · subst hlast
        simp only [record_all, Option.some.injEq] at hall
        subst hall
        simp [loop_steps, loop_step, hb]
      · have := ih d2 d1 hlast hall
        simp only [List.length_cons, loop_steps, loop_step, hb, Option.map_some', hlast,
          if_false]
        exact this

/-- The part of a registry walk that deals with one live thread, step by
step: the handle of the thread is found or created and `read_thread_data` runs
on it. -/
theorem walk_thread_steps (h : Host) (fpu : Fpu) (now : Nat)
    (threads ts : List (hl_thread_info × Capture)) (t : hl_thread_info) (c : Capture)
    (done cur : List thread_handle) (v : LoopVars) (d d1 : State) :
    read_thread_data h
      (match cur with
        | [] => new_handle t
        | y :: _ => if y.tid ≠ t.thread_id then new_handle t else y) c d = some d1 →
    ∃ n, loop_steps h fpu now threads n (.walk ((t, c) :: ts) done cur, v, d)
      = some (.walk ts
          (done ++ [match cur with
            | [] => new_handle t
            | y :: _ => if y.tid ≠ t.thread_id then new_handle t else y])
          (match cur with
            | [] => []
            | y :: ys => if y.tid ≠ t.thread_id then y :: ys else ys), v, d1) := by
  intro hread
  by_cases hp : c.paused = true
  · cases hst : c.stack with
    | none =>
      have : d1 = d := by
        simp only [read_thread_data, hp, hst, Bool.not_true, Bool.false_eq_true, if_false,
          Option.some.injEq] at hread
        exact hread.symm
      subst this
      refine ⟨1, ?_⟩
      simp only [loop_steps, loop_step, hp, hst, Bool.not_true, Bool.false_eq_true, if_false]
    | some sp =>
      rw [read_thread_data_eq h _ c d hp (by rw [hst]; simp)] at hread
      cases cur with
      | nil =>
        have happ := loop_append_steps h fpu now threads ts (done ++ [new_handle t]) [] v
          (sample_fields h (new_handle t) c) d d1 (by simp [sample_fields]) hread
        refine ⟨1 + 4, loop_steps_trans h fpu now threads 1 4 _ _ _ ?_ happ⟩
        simp only [loop_steps, loop_step, hp, hst, Bool.not_true, Bool.false_eq_true, if_false]
      | cons y ys =>
        have happ := loop_append_steps h fpu now threads ts
          (done ++ [if y.tid ≠ t.thread_id then new_handle t else y])
          (if y.tid ≠ t.thread_id then y :: ys else ys) v
          (sample_fields h (if y.tid ≠ t.thread_id then new_handle t else y) c) d d1
          (by simp [sample_fields]) hread
        refine ⟨1 + 4, loop_steps_trans h fpu now threads 1 4 _ _ _ ?_ happ⟩
        simp only [loop_steps, loop_step, hp, hst, Bool.not_true, Bool.false_eq_true, if_false]
  · have hp1 : c.paused = false := by simpa using hp
    have : d1 = d := by
      simp only [read_thread_data, hp1, Bool.not_false, if_true, Option.some.injEq] at hread
      exact hread.symm
    subst this
    refine ⟨1, ?_⟩
    simp only [loop_steps, loop_step, hp1, Bool.not_false, if_true]

/-- The loop over the live threads of a registry walk, step by step. -/
theorem walk_loop_steps (h : Host) (fpu : Fpu) (now : Nat)
    (threads : List (hl_thread_info × Capture)) (v : LoopVars)
    (ts : List (hl_thread_info × Capture)) :
    ∀ (done cur opened done1 cur1 opened1 : List thread_handle) (d d1 : State),
      walk_loop h ts done cur opened d = some (done1, cur1, opened1, d1) →
      ∃ n, loop_steps h fpu now threads n (.walk ts done cur, v, d)
        = some (.walk [] done1 cur1, v, d1) := by
  induction ts with
  | nil =>
    intro done cur opened done1 cur1 opened1 d d1 hw
    simp only [walk_loop, Option.some.injEq, Prod.mk.injEq] at hw
    obtain ⟨rfl, rfl, _, rfl⟩ := hw
    exact ⟨0, rfl⟩
  | cons tc ts ih =>
    intro done cur opened done1 cur1 opened1 d d1 hw
    obtain ⟨t, c⟩ := tc
    cases cur with
    | nil =>
      simp only [walk_loop] at hw
      cases hr : read_thread_data h (new_handle t) c d with
      | none => rw [hr] at hw; cases hw
      | some d2 =>
        rw [hr] at hw
        simp only at hw
        obtain ⟨n1, h1⟩ := walk_thread_steps h fpu now threads ts t c done [] v d d2 hr
        obtain ⟨n2, h2⟩ := ih _ _ _ _ _ _ _ _ hw
        exact ⟨n1 + n2, loop_steps_trans h fpu now threads n1 n2 _ _ _ h1 h2⟩
    | cons y ys =>
      simp only [walk_loop] at hw
      by_cases hne : y.tid ≠ t.thread_id
      · rw [if_pos hne] at hw
        cases hr : read_thread_data h (new_handle t) c d with
        | none => rw [hr] at hw; cases hw
        | some d2 =>
          rw [hr] at hw
          simp only at hw
          obtain ⟨n1, h1⟩ := walk_thread_steps h fpu now threads ts t c done (y :: ys) v d d2
            (by simpa only [if_pos hne] using hr)
          simp only [if_pos hne] at h1
          obtain ⟨n2, h2⟩ := ih _ _ _ _ _ _ _ _ hw
          exact ⟨n1 + n2, loop_steps_trans h fpu now threads n1 n2 _ _ _ h1 h2⟩
      · rw [if_neg hne] at hw
        cases hr : read_thread_data h y c d with
        | none => rw [hr] at hw; cases hw
        | some d2 =>
          rw [hr] at hw
          simp only at hw
          obtain ⟨n1, h1⟩ := walk_thread_steps h fpu now threads ts t c done (y :: ys) v d d2
            (by simpa only [if_neg hne] using hr)
          simp only [if_neg hne] at h1
          obtain ⟨n2, h2⟩ := ih _ _ _ _ _ _ _ _ hw
          exact ⟨n1 + n2, loop_steps_trans h fpu now threads n1 n2 _ _ _ h1 h2⟩

/-- One iteration of `hl_profile_loop`, step by step, from the test of
`while( !data.stopLoop )` back to it: the locals and the state are those that
`loop_body` returns. -/
theorem loop_body_steps (h : Host) (fpu : Fpu) (now : Nat)
    (threads : List (hl_thread_info × Capture)) (v v1 : LoopVars) (d : State) (w : Walk)
    (hstop : d.stopLoop = false) (hb : loop_body h fpu now threads v d = some (v1, w)) :
    ∃ n, loop_steps h fpu now threads n (.test, v, d) = some (.test, v1, w.data) := by
  unfold loop_body at hb
  by_cases hpause : (fpu.lt now v.next || decide (d.profiling_pause ≠ 0)) = true
  · rw [if_pos hpause] at hb
    simp only [Option.some.injEq, Prod.mk.injEq] at hb
    obtain ⟨rfl, rfl⟩ := hb
    exact ⟨3, by simp only [loop_steps, loop_step, hstop, Bool.false_eq_true, if_false, hpause,
      if_true]⟩
  · rw [if_neg hpause] at hb
    cases hw : registry_walk h threads d with
    | none => rw [hw] at hb; cases hb
    | some w1 =>
      rw [hw] at hb
      simp only [Option.some.injEq, Prod.mk.injEq] at hb
      obtain ⟨rfl, rfl⟩ := hb
      unfold registry_walk at hw
      cases hl : walk_loop h threads [] d.handles [] d with
      | none => rw [hl] at hw; cases hw
      | some res =>
        obtain ⟨done1, cur1, opened1, d1⟩ := res
        rw [hl] at hw
        simp only [Option.some.injEq] at hw
        subst hw
        obtain ⟨n, hn⟩ := walk_loop_steps h fpu now threads v threads _ _ _ _ _ _ _ _ hl
        have h2 : loop_steps h fpu now threads 2 (.test, v, d)
            = some (.walk threads [] d.handles, v, d) := by
          simp only [loop_steps, loop_step, hstop, Bool.false_eq_true, if_false, hpause]
        have h1 : loop_steps h fpu now threads 1 (.walk [] done1 cur1, v, d1)
            = some (.test, { v with next := fpu.add v.next v.wait_time },
                { d1 with handles := done1 }) := by
          simp only [loop_steps, loop_step]
        exact ⟨2 + (n + 1), loop_steps_trans h fpu now threads 2 (n + 1) _ _ _ h2
          (loop_steps_trans h fpu now threads n 1 _ _ _ hn h1)⟩

/-! ## C16: the producers are not kept apart -/

/-- C16, the code at two failing interleavings.  In `example_torn` two threads
call `profile_event` with a code `>= 0`; both are in their busy wait when
`hl_profile_loop` clears `waitLoop`, once, and both leave it: after 13 steps
each has appended its time and is between two appends of its record, with the
pause counter at 2.  At the end both calls have returned, the pause counter is
0, and the log holds the fields of the two events in turns: time, time, thread
id, thread id, code, code, length, length, payload, payload.
In `example_unguarded` the sampler has found the pause counter at zero and is
between two appends of a sample when a thread enters `profile_dump()`: the dump
raises the counter and reads the log at once, so that after its first iteration
the sampler is between two appends and the dump is inside its reading loop, with
the pause counter at 1; the next iteration of the dump reads the record that is
being appended, of which only the time is in the log, and uses `tid` and
`eventId` that no read has written. -/
theorem exclusion_broken :
    (run example_host example_fpu example_two_callers (example_torn.take 13)).map
        (fun c => (c.callers.map fun x => x.2.appending, c.data.profiling_pause))
      = some ([true, true], 2) ∧
    (run example_host example_fpu example_two_callers example_torn).map
        (fun c => (c.callers.map fun x => x.2, c.data.profiling_pause, stream c.data.chunks))
      = some ([.returned, .returned], 0,
          [1, 0, 0, 0, 0, 0, 0, 0, 2, 0, 0, 0, 0, 0, 0, 0, 10, 0, 0, 0, 11, 0, 0, 0,
           5, 0, 0, 0, 6, 0, 0, 0, 1, 0, 0, 0, 1, 0, 0, 0, 0xAA, 0xBB]) ∧
    (run example_host example_fpu example_sampling example_unguarded).map
        (fun c => (c.loop.1.appending, c.callers.map fun x => x.2.reading,
          c.data.profiling_pause, stream c.data.chunks))
      = some (true, [true], 1,
          [1, 0, 0, 0, 0, 0, 0, 0, 2, 0, 0, 0, 1, 0, 0, 128, 7, 0, 0, 0, 0, 0, 0, 0,
           1, 0, 0, 0, 0, 0, 0, 0]) ∧
    ((run example_host example_fpu example_sampling example_unguarded).bind
        fun c => step example_host example_fpu c (.caller 0)).isNone = true := by
  refine ⟨by decide, by decide, by decide, by decide⟩

end HlProfile
